import Mathlib

/-!
# Huffman file compressor (`src/main.cpp`): shallow embedding and properties

Bytes and `char` symbols are natural numbers below 256, files are `List Nat`.
The `int` frequency counts are integers wrapped to 32-bit two's complement.
`std::string` codes over the characters '0' and '1' are `List Char`.
`Node*` is the inductive type `Node`, whose constructor `nil` is the null pointer.

Two things the C++ standard leaves to the library are parameters of the model
(`StdLib`): the position a new key takes in the iteration order of an
`unordered_map`, and the internal order of a `priority_queue` (hence the way
it breaks ties between equal frequencies).  `refStd` is one concrete library.
The contents of the variables that `readFrequencyTable` leaves uninitialised
are a parameter too (`Uninit`); they matter only when a read fails.

A run of `decompressFile` is an `Outcome`: it returns with the bytes it has
written, or it reads a field through a null pointer.
-/

namespace Huffman

/-! ## Machine integers -/

/-- Value of an `int` after an arithmetic result `x`: 32-bit two's complement. -/
def wrapInt (x : Int) : Int := (x + 2147483648) % 4294967296 - 2147483648

/-- Little-endian bytes of the `n`-byte object holding the unsigned value `v`. -/
def leBytes : Nat → Nat → List Nat
  | 0, _ => []
  | n + 1, v => (v % 256) :: leBytes n (v / 256)

/-- Unsigned value of an object from its little-endian bytes. -/
def ofLeBytes : List Nat → Nat
  | [] => 0
  | b :: bs => b + 256 * ofLeBytes bs

/-- Object representation of an `int` (4 bytes, two's complement). -/
def intBytes (f : Int) : List Nat := leBytes 4 (f % 4294967296).toNat

/-- The `int` stored in 4 bytes. -/
def intOfBytes (bs : List Nat) : Int := wrapInt (ofLeBytes bs)

/-! ## Nodes -/

/-- A `Node*`: `nil` is `nullptr`, `mk ch freq left right` points to a node
    with these four fields. -/
inductive Node where
  | nil : Node
  | mk (ch : Nat) (freq : Int) (left right : Node) : Node
  deriving DecidableEq

namespace Node

/-- Field `freq` (read only through non-null pointers). -/
def freq : Node → Int
  | nil => 0
  | mk _ f _ _ => f

/-- Field `ch`. -/
def ch : Node → Nat
  | nil => 0
  | mk c _ _ _ => c

/-- Reading `p->left`: `none` is the dereference of a null pointer. -/
def left : Node → Option Node
  | nil => none
  | mk _ _ l _ => some l

/-- Reading `p->right`: `none` is the dereference of a null pointer. -/
def right : Node → Option Node
  | nil => none
  | mk _ _ _ r => some r

/-- The test `!p`. -/
def isNull : Node → Bool
  | nil => true
  | mk _ _ _ _ => false

/-- The one-symbol constructor `Node(c, f)`: both children null. -/
def leaf (c : Nat) (f : Int) : Node := mk c f nil nil

end Node

/-- The comparator `compare::operator()`: `l->freq > r->freq`. -/
def compare (l r : Node) : Bool := decide (l.freq > r.freq)

/-! ## The standard library -/

/-- What the program uses of the standard containers and the C++ standard does
    not fix.  An `unordered_map<char,int>` is the list of its entries in
    iteration order; a `priority_queue` is the list of its elements with the
    top first. -/
structure StdLib where
  /-- Entries of an `unordered_map` after a new key has been inserted. -/
  mapInsert : List (Nat × Int) → Nat × Int → List (Nat × Int)
  mapInsert_perm : ∀ m e, (mapInsert m e).Perm (e :: m)
  /-- Elements of the queue after `push`. -/
  pqPush : List Node → Node → List Node
  /-- Elements of the queue after `pop` (the top, its head, is removed). -/
  pqPop : List Node → List Node
  /-- Representation invariant of the queue. -/
  pqInv : List Node → Prop
  pqPush_perm : ∀ q x, (pqPush q x).Perm (x :: q)
  pqPop_perm : ∀ x q, (pqPop (x :: q)).Perm q
  pqInv_nil : pqInv []
  pqInv_push : ∀ q x, pqInv q → pqInv (pqPush q x)
  pqInv_pop : ∀ x q, pqInv (x :: q) → pqInv (pqPop (x :: q))
  pqInv_top : ∀ x q, pqInv (x :: q) → ∀ y ∈ q, compare x y = false

/-- The call `pq.top()` (on a non-empty queue). -/
def pqTop (q : List Node) : Node := q.headD Node.nil

/-! ## `unordered_map<char,int>` -/

/-- The type `unordered_map<char,int>`: entries in iteration order. -/
abbrev FreqMap := List (Nat × Int)

/-- Whether the map has key `k`. -/
def hasKey (m : FreqMap) (k : Nat) : Bool := m.any (fun p => p.1 == k)

/-- Value stored under key `k` (0, the value-initialised `int`, if absent). -/
def lookup (m : FreqMap) (k : Nat) : Int :=
  match m with
  | [] => 0
  | p :: rest => if p.1 = k then p.2 else lookup rest k

/-- The map after `operator[]` has been called on key `k`: an absent key is
    inserted with the value 0. -/
def touch (S : StdLib) (m : FreqMap) (k : Nat) : FreqMap :=
  if hasKey m k then m else S.mapInsert m (k, 0)

/-- Store `v` under the existing key `k`, in place. -/
def store (m : FreqMap) (k : Nat) (v : Int) : FreqMap :=
  m.map (fun p => if p.1 = k then (p.1, v) else p)

/-- The statement `freq[c]++`. -/
def increment (S : StdLib) (m : FreqMap) (c : Nat) : FreqMap :=
  let m1 := touch S m c
  store m1 c (wrapInt (lookup m1 c + 1))

/-- The statement `freq[ch] = f`. -/
def assign (S : StdLib) (m : FreqMap) (ch : Nat) (f : Int) : FreqMap :=
  store (touch S m ch) ch f

/-- The loop `for(char c : content) freq[c]++` of `compressFile`. -/
def countFreq (S : StdLib) (content : List Nat) : FreqMap :=
  content.foldl (increment S) []

/-! ## `unordered_map<char,string>` (never iterated by the program) -/

/-- The type `unordered_map<char,string>`. -/
abbrev CodeMap := List (Nat × List Char)

/-- The statement `huffmanCode[k] = str`. -/
def setCode (m : CodeMap) (k : Nat) (str : List Char) : CodeMap :=
  match m with
  | [] => [(k, str)]
  | p :: rest => if p.1 = k then (k, str) :: rest else p :: setCode rest k str

/-- The expression `huffmanCode[k]` (the empty string if `k` is absent). -/
def getCode (m : CodeMap) (k : Nat) : List Char :=
  match m with
  | [] => []
  | p :: rest => if p.1 = k then p.2 else getCode rest k

/-! ## Code generation and tree construction -/

/-- The function `generateCodes(root, str, huffmanCode)`. -/
def generateCodes : Node → List Char → CodeMap → CodeMap
  | Node.nil, _, m => m
  | Node.mk ch _ l r, str, m =>
    let m1 := if l.isNull && r.isNull then setCode m ch str else m
    let m2 := generateCodes l (str ++ ['0']) m1
    generateCodes r (str ++ ['1']) m2

/-- The loop `while (pq.size() > 1)` of `buildTree`; each round removes one
    element, so `fuel` = the size of the queue is enough. -/
def mergeLoop (S : StdLib) : Nat → List Node → List Node
  | 0, pq => pq
  | fuel + 1, pq =>
    if pq.length > 1 then
      let left := pqTop pq
      let pq1 := S.pqPop pq
      let right := pqTop pq1
      let pq2 := S.pqPop pq1
      let node := Node.mk 0 (wrapInt (left.freq + right.freq)) left right
      mergeLoop S fuel (S.pqPush pq2 node)
    else pq

/-- The function `buildTree(freq)`. -/
def buildTree (S : StdLib) (freq : FreqMap) : Node :=
  let pq := freq.foldl (fun pq p => S.pqPush pq (Node.leaf p.1 p.2)) []
  let pq := mergeLoop S pq.length pq
  match pq with
  | [] => Node.nil
  | top :: _ => top

/-! ## Files -/

/-- An `ifstream`: the bytes not yet read and the state of the stream
    (`good = false` once a read has hit the end of the file). -/
structure IStream where
  data : List Nat
  good : Bool
  deriving DecidableEq

namespace IStream

/-- A freshly opened file. -/
def openFile (file : List Nat) : IStream := { data := file, good := true }

/-- The call `inFile.read(p, n)` where the object at `p` holds the bytes `init`
    before the call; returns the bytes of the object after the call.  A short
    read stores what is there, leaves the other bytes as they were and fails. -/
def read (s : IStream) (n : Nat) (init : List Nat) : List Nat × IStream :=
  if s.good then
    if n ≤ s.data.length then (s.data.take n, { data := s.data.drop n, good := true })
    else (s.data ++ init.drop s.data.length, { data := [], good := false })
  else (init, s)

/-- The call `inFile.get(c)`: the next byte, or `none` with the stream failed. -/
def get (s : IStream) : Option Nat × IStream :=
  if s.good then
    match s.data with
    | [] => (none, { data := [], good := false })
    | b :: rest => (some b, { data := rest, good := true })
  else (none, s)

end IStream

/-- Contents of the variables that `readFrequencyTable` declares without
    initialising them: `size`, and `ch` and `f` of the `i`-th loop round. -/
structure Uninit where
  size : List Nat
  ch : Nat → List Nat
  f : Nat → List Nat

/-- The function `writeFrequencyTable(outFile, freq)`: the bytes written. -/
def writeFrequencyTable (freq : FreqMap) : List Nat :=
  leBytes 8 freq.length ++ (freq.map (fun p => leBytes 1 p.1 ++ intBytes p.2)).flatten

/-- The loop of `readFrequencyTable`: `n` rounds are left, `i` is the index. -/
def readEntries (S : StdLib) (u : Uninit) : Nat → Nat → IStream → FreqMap → FreqMap × IStream
  | 0, _, s, freq => (freq, s)
  | n + 1, i, s, freq =>
    let (chBytes, s1) := s.read 1 (u.ch i)
    let (fBytes, s2) := s1.read 4 (u.f i)
    readEntries S u n (i + 1) s2 (assign S freq (ofLeBytes chBytes) (intOfBytes fBytes))

/-- The function `readFrequencyTable(inFile)`. -/
def readFrequencyTable (S : StdLib) (u : Uninit) (s : IStream) : FreqMap × IStream :=
  let (sizeBytes, s1) := s.read 8 u.size
  readEntries S u (ofLeBytes sizeBytes) 0 s1 []

/-! ## Bit streams -/

/-- The class `BitWriter`; `out` is what has been written to `outFile`. -/
structure BitWriter where
  out : List Nat
  buffer : Nat
  bitCount : Nat
  deriving DecidableEq

namespace BitWriter

/-- The constructor, on an output file that already holds `out`. -/
def new (out : List Nat) : BitWriter := { out := out, buffer := 0, bitCount := 0 }

/-- The method `writeBit(bit)`; `buffer` is an `unsigned char`. -/
def writeBit (w : BitWriter) (bit : Bool) : BitWriter :=
  let buffer := ((w.buffer <<< 1) ||| bit.toNat) % 256
  let bitCount := w.bitCount + 1
  if bitCount = 8 then { out := w.out ++ [buffer], buffer := 0, bitCount := 0 }
  else { out := w.out, buffer := buffer, bitCount := bitCount }

/-- The method `writeBits(bits)`. -/
def writeBits (w : BitWriter) (bits : List Char) : BitWriter :=
  bits.foldl (fun w c => w.writeBit (c == '1')) w

/-- The method `flush()`. -/
def flush (w : BitWriter) : BitWriter :=
  if w.bitCount > 0 then
    let buffer := (w.buffer <<< (8 - w.bitCount)) % 256
    { out := w.out ++ [buffer], buffer := buffer, bitCount := w.bitCount }
  else w

end BitWriter

/-- The class `BitReader` (the stream it reads is passed to `readBit`). -/
structure BitReader where
  buffer : Nat
  bitCount : Nat
  deriving DecidableEq

namespace BitReader

/-- The constructor. -/
def new : BitReader := { buffer := 0, bitCount := 0 }

/-- The last three lines of `readBit`: extract the next bit of the buffer. -/
def takeBit (r : BitReader) : Int × BitReader :=
  (((r.buffer >>> (r.bitCount - 1)) &&& 1 : Nat), { buffer := r.buffer, bitCount := r.bitCount - 1 })

/-- The method `readBit()`: the bit, or -1 at the end of the file. -/
def readBit (r : BitReader) (s : IStream) : Int × BitReader × IStream :=
  if r.bitCount = 0 then
    match s.get with
    | (none, s1) => (-1, r, s1)
    | (some b, s1) =>
      let (bit, r1) := takeBit { buffer := b, bitCount := 8 }
      (bit, r1, s1)
  else
    let (bit, r1) := r.takeBit
    (bit, r1, s)

end BitReader

/-! ## Compression and decompression -/

/-- The function `compressFile`: the bytes of the output file for an input
    file with bytes `content`. -/
def compressFile (S : StdLib) (content : List Nat) : List Nat :=
  let freq := countFreq S content
  let outFile := writeFrequencyTable freq
  let root := buildTree S freq
  let huffmanCode := generateCodes root [] []
  let writer := content.foldl (fun w c => w.writeBits (getCode huffmanCode c)) (BitWriter.new outFile)
  writer.flush.out

/-- How a run of `decompressFile` ends: it returns having written `out`, or it
    reads a field through a null pointer (undefined behaviour).  `outOfFuel`
    is the model running out of loop rounds. -/
inductive Outcome where
  | done (out : List Nat) : Outcome
  | nullDeref : Outcome
  | outOfFuel : Outcome
  deriving DecidableEq

/-- The loop `while((bit = reader.readBit()) != -1)` of `decompressFile`;
    `out` is what has been written to the output file. -/
def decodeLoop (root : Node) : Nat → BitReader → IStream → Node → List Nat → Outcome
  | 0, _, _, _, _ => Outcome.outOfFuel
  | fuel + 1, reader, s, current, out =>
    match reader.readBit s with
    | (bit, reader1, s1) =>
      if bit = -1 then Outcome.done out
      else
        match (if bit = 0 then current.left else current.right) with
        | none => Outcome.nullDeref
        | some current1 =>
          match current1.left, current1.right with
          | some l, some r =>
            if l.isNull && r.isNull then
              decodeLoop root fuel reader1 s1 root (out ++ [current1.ch])
            else decodeLoop root fuel reader1 s1 current1 out
          | _, _ => Outcome.nullDeref

/-- The function `decompressFile`: how the run ends on an input file with
    bytes `file`.  Every round of the loop consumes one bit of the file. -/
def decompressFile (S : StdLib) (u : Uninit) (file : List Nat) : Outcome :=
  let (freq, inFile) := readFrequencyTable S u (IStream.openFile file)
  let root := buildTree S freq
  decodeLoop root (8 * inFile.data.length + 1) BitReader.new inFile root []

/-! ## A concrete standard library -/

/-- Insert `x` behind the elements that do not compare greater than it. -/
def orderedPush : List Node → Node → List Node
  | [], x => [x]
  | y :: q, x => if compare y x then x :: y :: q else y :: orderedPush q x

/-- One instance of `StdLib`, used to evaluate examples: a new key goes to the
    end of the iteration order of the map, and the queue is a list sorted by
    frequency in which elements of equal frequency leave in the order they
    came.  It is not the library of a particular compiler: where the order of
    the map or a tie in the queue matters, another library gives another
    result, and the properties of the program are stated for every
    `StdLib`. -/
def refStd : StdLib where
  mapInsert m e := m ++ [e]
  mapInsert_perm m e := List.perm_append_singleton e m
  pqPush := orderedPush
  pqPop q := q.tail
  pqInv q := q.Pairwise (fun a b => compare a b = false)
  pqPush_perm q x := by
    induction q with
    | nil => exact List.Perm.refl _
    | cons y q ih =>
      unfold orderedPush
      split
      · exact List.Perm.refl _
      · exact (List.Perm.cons y ih).trans (List.Perm.swap x y q)
  pqPop_perm _ q := List.Perm.refl q
  pqInv_nil := List.Pairwise.nil
  pqInv_push q x h := by
    have hperm : ∀ q : List Node, (orderedPush q x).Perm (x :: q) := by
      intro q
      induction q with
      | nil => exact List.Perm.refl _
      | cons y q ih =>
        unfold orderedPush
        split
        · exact List.Perm.refl _
        · exact (List.Perm.cons y ih).trans (List.Perm.swap x y q)
    induction q with
    | nil => simp [orderedPush]
    | cons y q ih =>
      rw [List.pairwise_cons] at h
      unfold orderedPush
      split
      · rename_i hyx
        refine List.pairwise_cons.2 ⟨?_, List.pairwise_cons.2 h⟩
        intro z hz
        have hxy : x.freq < y.freq := by simpa [compare] using hyx
        rcases List.mem_cons.1 hz with rfl | hz
        · simp only [compare, gt_iff_lt, decide_eq_false_iff_not, not_lt]; omega
        · have := h.1 z hz
          simp only [compare, gt_iff_lt, decide_eq_false_iff_not, not_lt] at this ⊢
          omega
      · rename_i hyx
        refine List.pairwise_cons.2 ⟨?_, ih h.2⟩
        intro z hz
        rcases List.mem_cons.1 ((hperm q).subset hz) with rfl | hz
        · simpa using hyx
        · exact h.1 z hz
  pqInv_pop _ _ h := (List.pairwise_cons.1 h).2
  pqInv_top _ _ h := (List.pairwise_cons.1 h).1

/-- One instance of `Uninit`, used to evaluate examples: uninitialised
    variables that happen to hold zero bytes.  A real run finds whatever the
    stack holds; the properties of the program are stated for every
    `Uninit`. -/
def zeroUninit : Uninit where
  size := List.replicate 8 0
  ch _ := [0]
  f _ := List.replicate 4 0

/-! ## Paths and codes -/

/-- The leaves of a tree with the paths that lead to them ('0' for left,
    '1' for right, after the prefix `str`), in the order in which
    `generateCodes` visits them. -/
def leafCodes : Node → List Char → List (Nat × List Char)
  | Node.nil, _ => []
  | Node.mk ch _ l r, str =>
    (if l.isNull && r.isNull then [(ch, str)] else [])
      ++ (leafCodes l (str ++ ['0']) ++ leafCodes r (str ++ ['1']))


/-! ## Shape of trees -/

namespace Node

/-- The pointer is not null and every node below it has either no child or
    two children. -/
def full : Node → Bool
  | nil => false
  | mk _ _ l r => (l.isNull && r.isNull) || (l.full && r.full)

/-- The (symbol, frequency) pairs of the leaves, from left to right. -/
def leaves : Node → List (Nat × Int)
  | nil => []
  | mk c f l r => if l.isNull && r.isNull then [(c, f)] else l.leaves ++ r.leaves

end Node

/-- A queue of trees is a forest over the table `t`: every tree is full and
    the leaves of all trees together are the entries of `t`. -/
def Forest (q : List Node) (t : FreqMap) : Prop :=
  (∀ n ∈ q, n.full = true) ∧ (q.flatMap Node.leaves).Perm t

/-- A node with two children, both roots of full trees. -/
def Inner (n : Node) : Prop :=
  ∃ c f l r, n = Node.mk c f l r ∧ l.full = true ∧ r.full = true

/-- The bytes of the compressed file that follow the header (8 bytes for the
    entry count and 5 bytes for each entry). -/
def payloadOf (S : StdLib) (content : List Nat) : List Nat :=
  (compressFile S content).drop (8 + 5 * (countFreq S content).length)

/-- The bytes that the `BitWriter` part of `compressFile` adds to the output
    file when the tree is `root`: the codes of the bytes of `content`, packed
    and flushed. -/
def encodePayload (root : Node) (content : List Nat) : List Nat :=
  (content.foldl (fun w c => w.writeBits (getCode (generateCodes root [] []) c))
    (BitWriter.new [])).flush.out

/-- The writer `w` on an output file that holds `pre` before what `w` wrote. -/
def BitWriter.after (pre : List Nat) (w : BitWriter) : BitWriter :=
  { out := pre ++ w.out, buffer := w.buffer, bitCount := w.bitCount }

/-! ## Bits -/

/-- The 8 bits of a byte, most significant first. -/
def bitsOfByte (b : Nat) : List Bool := (List.range 8).map (fun j => b.testBit (7 - j))

/-- The bits of a sequence of bytes, each byte most significant bit first. -/
def bitsOfBytes (bytes : List Nat) : List Bool := bytes.flatMap bitsOfByte

/-- The value of a bit string read as a binary number, first bit highest. -/
def byteOfBits (bits : List Bool) : Nat := bits.foldl (fun v b => 2 * v + b.toNat) 0

/-- The results of `k` successive calls of `readBit`. -/
def readBits : Nat → BitReader → IStream → List Int
  | 0, _, _ => []
  | k + 1, r, s =>
    match r.readBit s with
    | (bit, r1, s1) => bit :: readBits k r1 s1

/-- The bits that a reader still holds in its buffer, next bit first. -/
def pending (r : BitReader) : List Bool :=
  (List.range r.bitCount).map (fun j => r.buffer.testBit (r.bitCount - 1 - j))

/-- The bits that a stream can still deliver. -/
def streamBits (s : IStream) : List Bool := if s.good then bitsOfBytes s.data else []

/-- One round of the loop of `decompressFile` for the bit `bit` (`true` for 1,
    `false` for 0): the cursor and the output after the round, or `none` when
    the round reads a field through a null pointer. -/
def decodeStep (root current : Node) (bit : Bool) (out : List Nat) : Option (Node × List Nat) :=
  match (if bit = false then current.left else current.right) with
  | none => none
  | some current1 =>
    match current1.left, current1.right with
    | some l, some r =>
      if l.isNull && r.isNull then some (root, out ++ [current1.ch]) else some (current1, out)
    | _, _ => none

/-- The rounds of the loop of `decompressFile` for a given sequence of bits:
    the final cursor and output. -/
def decodeBits (root : Node) : List Bool → Node → List Nat → Option (Node × List Nat)
  | [], current, out => some (current, out)
  | bit :: bits, current, out =>
    match decodeStep root current bit out with
    | none => none
    | some (c, o) => decodeBits root bits c o

/-- The node reached from `n` along the path `code` ('0' left, other right);
    `nil` once the path leaves the tree. -/
def walk : Node → List Char → Node
  | n, [] => n
  | Node.nil, _ :: _ => Node.nil
  | Node.mk _ _ l r, c :: code => if c = '0' then walk l code else walk r code

/-- The bits of a code string: '1' is `true`, as in `writeBits`. -/
def codeBits (code : List Char) : List Bool := code.map (fun c => c == '1')

/-- The concatenated codes of the bytes of `content`, as bits. -/
def encodeBits (m : CodeMap) (content : List Nat) : List Bool :=
  content.flatMap (fun c => codeBits (getCode m c))

/-- How the run ends when the rounds of the loop end as `res`. -/
def Outcome.ofRounds (res : Option (Node × List Nat)) : Outcome :=
  match res with
  | none => Outcome.nullDeref
  | some (_, out) => Outcome.done out

/-- A standard library like `refStd`, except that a new key goes to the front
    of the iteration order of the map (the most recently inserted key is
    visited first). -/
def revStd : StdLib :=
  { refStd with
    mapInsert := fun m e => e :: m
    mapInsert_perm := fun m e => List.Perm.refl (e :: m) }

namespace Node

/-- The sum of the counts at the leaves of a tree. -/
def weight : Node → Int
  | nil => 0
  | mk _ f l r => if l.isNull && r.isNull then f else l.weight + r.weight

/-- Every node with children holds the sum of the frequencies of its two
    children. -/
def sums : Node → Bool
  | nil => true
  | mk _ f l r => (l.isNull && r.isNull) || (decide (f = l.freq + r.freq) && l.sums && r.sums)

/-- The number of nodes with children, one for each merge of `buildTree`. -/
def merges : Node → Nat
  | nil => 0
  | mk _ _ l r => if l.isNull && r.isNull then 0 else l.merges + r.merges + 1

end Node

/-- The queue that `buildTree` fills before its loop. -/
def initialQueue (S : StdLib) (freq : FreqMap) : List Node :=
  freq.foldl (fun pq p => S.pqPush pq (Node.leaf p.1 p.2)) []

/-- The state of the queue of `buildTree` for the table `t`: the queue
    invariant holds, the trees are full and carry the entries of `t`, and
    every tree holds the sum of its counts at every node. -/
def QInv (S : StdLib) (t : FreqMap) (q : List Node) : Prop :=
  S.pqInv q ∧ Forest q t ∧ ∀ n ∈ q, n.sums = true ∧ n.freq = n.weight

/-! ## Depth assignments -/

/-- The Kraft sum of the depths of the pairs (weight, depth) in `A`, scaled
    by `2 ^ H`. -/
def kraft (H : Nat) (A : List (Int × Nat)) : Nat := (A.map (fun p => 2 ^ (H - p.2))).sum

/-- The depths of `A` are those of the leaves of a full binary tree: none is
    more than `H` and their Kraft sum is 1. -/
def Tight (H : Nat) (A : List (Int × Nat)) : Prop :=
  (∀ p ∈ A, p.2 ≤ H) ∧ kraft H A = 2 ^ H

/-- The cost of an assignment: the sum of weight times depth. -/
def acost (A : List (Int × Nat)) : Int := (A.map (fun p => p.1 * (p.2 : Int))).sum

namespace Node

/-- The weighted path length below a node at depth `k`: the sum over the
    leaves of count times depth. -/
def wpl : Node → Nat → Int
  | nil, _ => 0
  | mk _ f l r, k => if l.isNull && r.isNull then f * (k : Int) else l.wpl (k + 1) + r.wpl (k + 1)

/-- The counts at the leaves with the depths of the leaves, for a node at
    depth `k`. -/
def depths : Node → Nat → List (Int × Nat)
  | nil, _ => []
  | mk _ f l r, k => if l.isNull && r.isNull then [(f, k)] else l.depths (k + 1) ++ r.depths (k + 1)

/-- The sum over the nodes with children of the weight below them. -/
def icost : Node → Int
  | nil => 0
  | mk _ _ l r =>
    if l.isNull && r.isNull then 0 else l.weight + r.weight + l.icost + r.icost

end Node

/-- The weighted path length of the code map `m` for the table `t`: the sum
    over the symbols of count times code length. -/
def codeCost (t : FreqMap) (m : CodeMap) : Int :=
  (t.map (fun p => p.2 * ((getCode m p.1).length : Int))).sum

/-! # Properties -/

/-! ## Codes are prefix-free -/

theorem generateCodes_eq_foldl (n : Node) : ∀ (str : List Char) (m : CodeMap),
    generateCodes n str m = (leafCodes n str).foldl (fun m p => setCode m p.1 p.2) m := by
  induction n with
  | nil => intro str m; rfl
  | mk ch f l r ihl ihr =>
    intro str m
    simp only [generateCodes, leafCodes, List.foldl_append, ihl, ihr]
    split <;> rfl

theorem mem_setCode {m : CodeMap} {k : Nat} {v : List Char} {q : Nat × List Char}
    (h : q ∈ setCode m k v) : q = (k, v) ∨ q ∈ m := by
  induction m with
  | nil => simpa [setCode] using h
  | cons p rest ih =>
    unfold setCode at h
    split at h
    · rcases List.mem_cons.1 h with h | h
      · exact Or.inl h
      · exact Or.inr (List.mem_cons_of_mem _ h)
    · rcases List.mem_cons.1 h with h | h
      · exact Or.inr (h ▸ List.mem_cons_self _ _)
      · rcases ih h with h | h
        · exact Or.inl h
        · exact Or.inr (List.mem_cons_of_mem _ h)

theorem mem_foldl_setCode (L : List (Nat × List Char)) : ∀ (m : CodeMap) (q : Nat × List Char),
    q ∈ L.foldl (fun m p => setCode m p.1 p.2) m → q ∈ m ∨ q ∈ L := by
  induction L with
  | nil => intro m q h; exact Or.inl h
  | cons p L ih =>
    intro m q h
    rcases ih _ q h with h | h
    · rcases mem_setCode h with h | h
      · exact Or.inr (h ▸ List.mem_cons_self _ _)
      · exact Or.inl h
    · exact Or.inr (List.mem_cons_of_mem _ h)

theorem mem_generateCodes {n : Node} {q : Nat × List Char}
    (h : q ∈ generateCodes n [] []) : q ∈ leafCodes n [] := by
  rw [generateCodes_eq_foldl] at h
  rcases mem_foldl_setCode _ _ _ h with h | h
  · cases h
  · exact h

theorem prefix_of_mem_leafCodes (n : Node) : ∀ (str : List Char) (p : Nat × List Char),
    p ∈ leafCodes n str → str <+: p.2 := by
  induction n with
  | nil => intro str p h; cases h
  | mk ch f l r ihl ihr =>
    intro str p h
    simp only [leafCodes, List.mem_append] at h
    rcases h with h | h | h
    · split at h
      · rw [List.mem_singleton] at h; subst h; exact List.prefix_refl _
      · cases h
    · exact (List.prefix_append str ['0']).trans (ihl _ _ h)
    · exact (List.prefix_append str ['1']).trans (ihr _ _ h)

theorem no_common_extension (str a b : List Char)
    (h0 : str ++ ['0'] <+: a) (h1 : str ++ ['1'] <+: b) : ¬ a <+: b := by
  intro hab
  have h := List.prefix_of_prefix_length_le (h0.trans hab) h1 (by simp)
  have h2 := h.eq_of_length (by simp)
  have h3 := List.append_cancel_left h2
  simp at h3

theorem no_common_extension_rev (str a b : List Char)
    (h0 : str ++ ['0'] <+: a) (h1 : str ++ ['1'] <+: b) : ¬ b <+: a := by
  intro hba
  have h := List.prefix_of_prefix_length_le h0 (h1.trans hba) (by simp)
  have h2 := h.eq_of_length (by simp)
  have h3 := List.append_cancel_left h2
  simp at h3

theorem leafCodes_nil_of_isNull {n : Node} (h : n.isNull = true) (str : List Char) :
    leafCodes n str = [] := by
  cases n with
  | nil => rfl
  | mk _ _ _ _ => cases h

/-- Two leaves whose paths are comparable are the same leaf. -/
theorem leafCodes_prefix_free (n : Node) : ∀ (str : List Char) (p q : Nat × List Char),
    p ∈ leafCodes n str → q ∈ leafCodes n str → p.2 <+: q.2 → p = q := by
  induction n with
  | nil => intro str p q h; cases h
  | mk ch f l r ihl ihr =>
    intro str p q hp hq hpq
    simp only [leafCodes, List.mem_append] at hp hq
    by_cases hleaf : (l.isNull && r.isNull) = true
    · have hl : l.isNull = true := by simp at hleaf; exact hleaf.1
      have hr : r.isNull = true := by simp at hleaf; exact hleaf.2
      simp only [hleaf, if_true, List.mem_singleton, leafCodes_nil_of_isNull hl,
        leafCodes_nil_of_isNull hr, List.not_mem_nil, or_false] at hp hq
      rw [hp, hq]
    · simp only [hleaf, Bool.false_eq_true, if_false, List.not_mem_nil, false_or] at hp hq
      rcases hp with hp | hp <;> rcases hq with hq | hq
      · exact ihl _ _ _ hp hq hpq
      · exact absurd hpq (no_common_extension str _ _
          (prefix_of_mem_leafCodes l _ _ hp) (prefix_of_mem_leafCodes r _ _ hq))
      · exact absurd hpq (no_common_extension_rev str _ _
          (prefix_of_mem_leafCodes l _ _ hq) (prefix_of_mem_leafCodes r _ _ hp))
      · exact ihr _ _ _ hp hq hpq

theorem generateCodes_prefix_free (n : Node) (p q : Nat × List Char)
    (hp : p ∈ generateCodes n [] []) (hq : q ∈ generateCodes n [] [])
    (hne : p.1 ≠ q.1) : ¬ p.2 <+: q.2 := by
  intro hpq
  have := leafCodes_prefix_free n [] p q (mem_generateCodes hp) (mem_generateCodes hq) hpq
  exact hne (by rw [this])

/-! ## Shape of the tree that `buildTree` returns -/

theorem Node.isNull_of_not_full {n : Node} (h : n.full = true) : n.isNull = false := by
  cases n with
  | nil => cases h
  | mk _ _ _ _ => rfl

theorem Node.leaves_ne_nil {n : Node} (h : n.full = true) : n.leaves ≠ [] := by
  induction n with
  | nil => cases h
  | mk c f l r ihl _ =>
    unfold Node.leaves
    split
    · simp
    · rename_i hleaf
      unfold Node.full at h
      simp only [hleaf, Bool.false_or, Bool.and_eq_true] at h
      simp [ihl h.1]

theorem Node.full_merge {x y : Node} (c : Nat) (f : Int) (hx : x.full = true)
    (hy : y.full = true) : (Node.mk c f x y).full = true := by
  simp [Node.full, hx, hy]

theorem Node.leaves_merge {x y : Node} (c : Nat) (f : Int) (hx : x.full = true) :
    (Node.mk c f x y).leaves = x.leaves ++ y.leaves := by
  simp [Node.leaves, Node.isNull_of_not_full hx]

theorem Forest.push (S : StdLib) {q : List Node} {t : FreqMap} (h : Forest q t) (c : Nat)
    (f : Int) : Forest (S.pqPush q (Node.leaf c f)) (t ++ [(c, f)]) := by
  have hperm := S.pqPush_perm q (Node.leaf c f)
  constructor
  · intro n hn
    rcases List.mem_cons.1 (hperm.subset hn) with rfl | hn
    · rfl
    · exact h.1 n hn
  · refine (List.Perm.flatMap_right Node.leaves hperm).trans ?_
    simp only [List.flatMap_cons]
    have : (Node.leaf c f).leaves = [(c, f)] := rfl
    rw [this]
    exact (List.perm_append_comm).trans (List.Perm.append_right _ h.2)

theorem forest_pushAll (S : StdLib) (t : FreqMap) : ∀ (q : List Node) (t0 : FreqMap),
    Forest q t0 →
    Forest (t.foldl (fun pq p => S.pqPush pq (Node.leaf p.1 p.2)) q) (t0 ++ t) ∧
    (t.foldl (fun pq p => S.pqPush pq (Node.leaf p.1 p.2)) q).length = q.length + t.length := by
  induction t with
  | nil => intro q t0 h; simpa using h
  | cons p t ih =>
    intro q t0 h
    have h1 := ih (S.pqPush q (Node.leaf p.1 p.2)) (t0 ++ [(p.1, p.2)]) (h.push S p.1 p.2)
    have hlen := (S.pqPush_perm q (Node.leaf p.1 p.2)).length_eq
    simp only [List.foldl_cons, List.append_assoc, List.singleton_append, List.length_cons] at h1 ⊢
    refine ⟨h1.1, ?_⟩
    rw [h1.2, hlen]; simp; omega

theorem forest_mergeLoop (S : StdLib) (t : FreqMap) : ∀ (fuel : Nat) (q : List Node),
    Forest q t → q.length ≤ fuel + 1 →
    Forest (mergeLoop S fuel q) t ∧ (mergeLoop S fuel q).length = min q.length 1 := by
  intro fuel
  induction fuel with
  | zero =>
    intro q h hlen
    refine ⟨h, ?_⟩
    simp only [mergeLoop]; omega
  | succ fuel ih =>
    intro q h hlen
    unfold mergeLoop
    split
    · rename_i hgt
      match q, h, hlen, hgt with
      | x :: q1, h, hlen, hgt =>
        have hp1 := S.pqPop_perm x q1
        have hne : S.pqPop (x :: q1) ≠ [] := by
          intro h0
          have := hp1.length_eq
          rw [h0] at this
          simp at this hgt
          omega
        match hq : S.pqPop (x :: q1), hne with
        | y :: q2, _ =>
          rw [hq] at hp1
          have hp2 := S.pqPop_perm y q2
          have hx : x.full = true := h.1 x (List.mem_cons_self _ _)
          have hy : y.full = true :=
            h.1 y (List.mem_cons_of_mem _ (hp1.subset (List.mem_cons_self _ _)))
          simp only [pqTop, List.headD_cons]
          have hpush := S.pqPush_perm (S.pqPop (y :: q2))
            (Node.mk 0 (wrapInt (x.freq + y.freq)) x y)
          have hF : Forest (S.pqPush (S.pqPop (y :: q2))
              (Node.mk 0 (wrapInt (x.freq + y.freq)) x y)) t := by
            constructor
            · intro n hn
              rcases List.mem_cons.1 (hpush.subset hn) with rfl | hn
              · exact Node.full_merge _ _ hx hy
              · exact h.1 n (List.mem_cons_of_mem _
                  (hp1.subset (List.mem_cons_of_mem _ (hp2.subset hn))))
            · refine (List.Perm.flatMap_right Node.leaves hpush).trans ?_
              refine List.Perm.trans ?_ h.2
              simp only [List.flatMap_cons, Node.leaves_merge _ _ hx, List.append_assoc]
              refine List.Perm.append_left _ ?_
              refine List.Perm.trans ?_ (List.Perm.flatMap_right Node.leaves hp1)
              simp only [List.flatMap_cons]
              exact List.Perm.append_left _ (List.Perm.flatMap_right Node.leaves hp2)
          have hl : (S.pqPush (S.pqPop (y :: q2))
              (Node.mk 0 (wrapInt (x.freq + y.freq)) x y)).length = q1.length := by
            rw [hpush.length_eq, List.length_cons, hp2.length_eq, ← hp1.length_eq,
              List.length_cons]
          have := ih _ hF (by rw [hl]; simp at hlen; omega)
          refine ⟨this.1, ?_⟩
          rw [this.2, hl]
          simp at hgt ⊢
          omega
    · rename_i hle
      refine ⟨h, ?_⟩
      omega

/-- The tree built from a non-empty table is full and its leaves are the
    entries of the table. -/
theorem buildTree_full (S : StdLib) (t : FreqMap) (ht : t ≠ []) :
    (buildTree S t).full = true ∧ (buildTree S t).leaves.Perm t := by
  have h0 : Forest [] ([] : FreqMap) := ⟨by simp, by simp⟩
  obtain ⟨hF, hlen⟩ := forest_pushAll S t [] [] h0
  simp only [List.nil_append, List.length_nil, Nat.zero_add] at hF hlen
  obtain ⟨hF2, hlen2⟩ := forest_mergeLoop S t _ _ hF (Nat.le_succ _)
  have hpos : 0 < t.length := List.length_pos.2 ht
  unfold buildTree
  simp only
  match hq : mergeLoop S _ _, hF2, hlen2 with
  | [], _, hlen2 => simp at hlen2; omega
  | [top], hF2, _ =>
    exact ⟨hF2.1 top (List.mem_cons_self _ _), by simpa using hF2.2⟩
  | a :: b :: q, _, hlen2 => simp at hlen2; omega

/-! ## The frequency map -/

theorem hasKey_iff (m : FreqMap) (k : Nat) : hasKey m k = true ↔ k ∈ m.map Prod.fst := by
  simp only [hasKey, List.any_eq_true, beq_iff_eq, List.mem_map]

theorem lookup_cons (p : Nat × Int) (m : FreqMap) (k : Nat) :
    lookup (p :: m) k = if p.1 = k then p.2 else lookup m k := rfl

theorem hasKey_cons (p : Nat × Int) (m : FreqMap) (k : Nat) :
    hasKey (p :: m) k = (p.1 == k || hasKey m k) := rfl

theorem lookup_of_not_key (m : FreqMap) (k : Nat) (h : k ∉ m.map Prod.fst) : lookup m k = 0 := by
  induction m with
  | nil => rfl
  | cons p m ih =>
    simp only [List.map_cons, List.mem_cons, not_or] at h
    rw [lookup_cons, if_neg (fun e => h.1 e.symm)]
    exact ih h.2

theorem lookup_of_mem (m : FreqMap) (k : Nat) (v : Int) (hnd : (m.map Prod.fst).Nodup)
    (h : (k, v) ∈ m) : lookup m k = v := by
  induction m with
  | nil => cases h
  | cons p m ih =>
    simp only [List.map_cons, List.nodup_cons] at hnd
    rw [lookup_cons]
    rcases List.mem_cons.1 h with h | h
    · subst h; simp
    · have : p.1 ≠ k := by
        intro e
        exact hnd.1 (e ▸ List.mem_map_of_mem Prod.fst h)
      rw [if_neg this]
      exact ih hnd.2 h

theorem mem_lookup (m : FreqMap) (k : Nat) (h : k ∈ m.map Prod.fst) : (k, lookup m k) ∈ m := by
  induction m with
  | nil => cases h
  | cons p m ih =>
    rw [lookup_cons]
    by_cases e : p.1 = k
    · rw [if_pos e]; subst e; exact List.mem_cons_self _ _
    · rw [if_neg e]
      simp only [List.map_cons, List.mem_cons] at h
      rcases h with h | h
      · exact absurd h.symm e
      · exact List.mem_cons_of_mem _ (ih h)

theorem lookup_perm {m1 m2 : FreqMap} (hp : m1.Perm m2) (hnd : (m1.map Prod.fst).Nodup)
    (k : Nat) : lookup m1 k = lookup m2 k := by
  have hk : (m1.map Prod.fst).Perm (m2.map Prod.fst) := hp.map _
  by_cases h : k ∈ m1.map Prod.fst
  · have h1 := mem_lookup m1 k h
    exact (lookup_of_mem m2 k _ (hk.nodup_iff.1 hnd) (hp.subset h1)).symm
  · rw [lookup_of_not_key m1 k h, lookup_of_not_key m2 k (fun h2 => h (hk.symm.subset h2))]

theorem store_keys (m : FreqMap) (k : Nat) (v : Int) :
    (store m k v).map Prod.fst = m.map Prod.fst := by
  induction m with
  | nil => rfl
  | cons p m ih =>
    simp only [store, List.map_cons, List.map_map] at ih ⊢
    rw [ih]
    split <;> rfl

theorem lookup_store (m : FreqMap) (k : Nat) (v : Int) (k1 : Nat) :
    lookup (store m k v) k1 =
      if k1 = k then (if hasKey m k then v else 0) else lookup m k1 := by
  induction m with
  | nil => simp [store, lookup, hasKey]
  | cons p m ih =>
    simp only [store, List.map_cons] at ih ⊢
    by_cases e : p.1 = k
    · simp only [e, if_true, lookup_cons, hasKey_cons, beq_self_eq_true, Bool.true_or]
      by_cases e1 : k1 = k
      · simp [e1]
      · rw [if_neg (fun h => e1 h.symm), if_neg e1, if_neg (fun h => e1 h.symm)]
        rw [ih, if_neg e1]
    · have e2 : (p.1 == k) = false := by simpa using e
      simp only [e, if_false, lookup_cons, hasKey_cons, e2, Bool.false_or]
      by_cases e1 : p.1 = k1
      · have : k1 ≠ k := fun h => e (e1.trans h)
        simp [e1, this]
      · rw [if_neg e1, if_neg e1, ih]

theorem touch_perm (S : StdLib) (m : FreqMap) (k : Nat) :
    (touch S m k).Perm (if hasKey m k then m else (k, 0) :: m) := by
  unfold touch
  split
  · exact List.Perm.refl _
  · exact S.mapInsert_perm m (k, 0)

theorem touch_nodup (S : StdLib) (m : FreqMap) (k : Nat) (hnd : (m.map Prod.fst).Nodup) :
    ((touch S m k).map Prod.fst).Nodup := by
  have hp := (touch_perm S m k).map Prod.fst
  rw [hp.nodup_iff]
  split
  · exact hnd
  · rename_i h
    simp only [List.map_cons, List.nodup_cons]
    exact ⟨fun hk => h ((hasKey_iff m k).2 hk), hnd⟩

theorem touch_keys (S : StdLib) (m : FreqMap) (k k1 : Nat) :
    k1 ∈ (touch S m k).map Prod.fst ↔ k1 = k ∨ k1 ∈ m.map Prod.fst := by
  have hp := (touch_perm S m k).map Prod.fst
  rw [hp.mem_iff]
  split
  · rename_i h
    constructor
    · exact Or.inr
    · rintro (rfl | h1)
      · exact (hasKey_iff m _).1 h
      · exact h1
  · simp

theorem lookup_touch (S : StdLib) (m : FreqMap) (k k1 : Nat) (hnd : (m.map Prod.fst).Nodup) :
    lookup (touch S m k) k1 = lookup m k1 := by
  rw [lookup_perm (touch_perm S m k) (touch_nodup S m k hnd)]
  by_cases h : hasKey m k = true
  · rw [if_pos h]
  · rw [if_neg h, lookup_cons]
    by_cases e : k = k1
    · subst e
      rw [if_pos rfl]
      exact (lookup_of_not_key m k (fun hk => h ((hasKey_iff m k).2 hk))).symm
    · rw [if_neg e]

theorem hasKey_touch (S : StdLib) (m : FreqMap) (k : Nat) : hasKey (touch S m k) k = true :=
  (hasKey_iff _ _).2 ((touch_keys S m k k).2 (Or.inl rfl))

theorem lookup_assign (S : StdLib) (m : FreqMap) (k : Nat) (v : Int) (k1 : Nat)
    (hnd : (m.map Prod.fst).Nodup) :
    lookup (assign S m k v) k1 = if k1 = k then v else lookup m k1 := by
  unfold assign
  rw [lookup_store, hasKey_touch, lookup_touch S m k k1 hnd]
  simp

theorem assign_nodup (S : StdLib) (m : FreqMap) (k : Nat) (v : Int)
    (hnd : (m.map Prod.fst).Nodup) : ((assign S m k v).map Prod.fst).Nodup := by
  unfold assign
  rw [store_keys]
  exact touch_nodup S m k hnd

theorem assign_keys (S : StdLib) (m : FreqMap) (k : Nat) (v : Int) (k1 : Nat) :
    k1 ∈ (assign S m k v).map Prod.fst ↔ k1 = k ∨ k1 ∈ m.map Prod.fst := by
  unfold assign
  rw [store_keys]
  exact touch_keys S m k k1

theorem increment_eq_assign (S : StdLib) (m : FreqMap) (c : Nat) :
    increment S m c = assign S m c (wrapInt (lookup (touch S m c) c + 1)) := rfl

theorem wrapInt_idem (x : Int) : wrapInt (wrapInt x) = wrapInt x := by
  unfold wrapInt; omega

theorem wrapInt_succ (x : Int) : wrapInt (wrapInt x + 1) = wrapInt (x + 1) := by
  unfold wrapInt; omega

theorem wrapInt_of_range {x : Int} (h0 : -2147483648 ≤ x) (h1 : x < 2147483648) :
    wrapInt x = x := by
  unfold wrapInt; omega

theorem wrapInt_range (x : Int) : -2147483648 ≤ wrapInt x ∧ wrapInt x < 2147483648 := by
  unfold wrapInt; omega

/-- Counting from a map `m` that holds the wrapped counts of the bytes `B0`
    yields the wrapped counts of `B0 ++ B`. -/
theorem foldl_increment (S : StdLib) (B : List Nat) : ∀ (m : FreqMap) (B0 : List Nat),
    (m.map Prod.fst).Nodup → (∀ k, k ∈ m.map Prod.fst ↔ k ∈ B0) →
    (∀ k, lookup m k = wrapInt (B0.count k)) →
    ((B.foldl (increment S) m).map Prod.fst).Nodup ∧
    (∀ k, k ∈ (B.foldl (increment S) m).map Prod.fst ↔ k ∈ B0 ++ B) ∧
    (∀ k, lookup (B.foldl (increment S) m) k = wrapInt ((B0 ++ B).count k)) := by
  induction B with
  | nil =>
    intro m B0 hnd hk hl
    simp only [List.foldl_nil, List.append_nil]
    exact ⟨hnd, hk, hl⟩
  | cons c B ih =>
    intro m B0 hnd hk hl
    have h := ih (increment S m c) (B0 ++ [c])
      (by rw [increment_eq_assign]; exact assign_nodup S m c _ hnd)
      (by
        intro k
        rw [increment_eq_assign, assign_keys, hk]
        simp [or_comm])
      (by
        intro k
        rw [increment_eq_assign, lookup_assign S m c _ k hnd, lookup_touch S m c c hnd]
        by_cases e : k = c
        · subst e
          rw [if_pos rfl, hl, wrapInt_succ]
          simp
        · rw [if_neg e, hl]
          simp [List.count_cons, e, Ne.symm e])
    simp only [List.foldl_cons]
    simpa only [List.append_assoc, List.singleton_append] using h

theorem countFreq_spec (S : StdLib) (B : List Nat) :
    ((countFreq S B).map Prod.fst).Nodup ∧
    (∀ k, k ∈ (countFreq S B).map Prod.fst ↔ k ∈ B) ∧
    (∀ k, lookup (countFreq S B) k = wrapInt (B.count k)) := by
  have h := foldl_increment S B [] [] (by simp) (by simp)
    (by intro k; simp [lookup, wrapInt])
  simpa only [countFreq, List.nil_append] using h

theorem countFreq_entry (S : StdLib) (B : List Nat) (p : Nat × Int) (hp : p ∈ countFreq S B) :
    p.1 ∈ B ∧ p.2 = wrapInt (B.count p.1) := by
  obtain ⟨hnd, hk, hl⟩ := countFreq_spec S B
  refine ⟨(hk p.1).1 (List.mem_map_of_mem Prod.fst hp), ?_⟩
  rw [← hl, lookup_of_mem _ p.1 p.2 hnd hp]

/-! ## The header -/

theorem length_leBytes (n v : Nat) : (leBytes n v).length = n := by
  induction n generalizing v with
  | zero => rfl
  | succ n ih => simp [leBytes, ih]

theorem ofLeBytes_leBytes (n v : Nat) : ofLeBytes (leBytes n v) = v % 256 ^ n := by
  induction n generalizing v with
  | zero => simp [leBytes, ofLeBytes, Nat.mod_one]
  | succ n ih =>
    simp only [leBytes, ofLeBytes, ih]
    rw [pow_succ, Nat.mul_comm (256 ^ n) 256, Nat.mod_mul]

theorem leBytes_one_of_lt {c : Nat} (h : c < 256) : leBytes 1 c = [c] := by
  simp [leBytes, Nat.mod_eq_of_lt h]

theorem length_intBytes (f : Int) : (intBytes f).length = 4 := length_leBytes 4 _

theorem intOfBytes_intBytes (f : Int) (h0 : -2147483648 ≤ f) (h1 : f < 2147483648) :
    intOfBytes (intBytes f) = f := by
  unfold intOfBytes intBytes
  rw [ofLeBytes_leBytes]
  have h2 : (0 : Int) ≤ f % 4294967296 := Int.emod_nonneg _ (by norm_num)
  have h3 : f % 4294967296 < 4294967296 := Int.emod_lt_of_pos _ (by norm_num)
  have h4 : ((f % 4294967296).toNat : Int) = f % 4294967296 := Int.toNat_of_nonneg h2
  have h5 : (f % 4294967296).toNat < 256 ^ 4 := by
    have : ((f % 4294967296).toNat : Int) < 4294967296 := by rw [h4]; exact h3
    norm_num
    omega
  rw [Nat.mod_eq_of_lt h5, h4]
  unfold wrapInt
  omega

theorem IStream.read_append (a rest init : List Nat) (n : Nat) (hn : a.length = n) :
    IStream.read { data := a ++ rest, good := true } n init
      = (a, { data := rest, good := true }) := by
  subst hn
  simp [IStream.read]

/-- The bytes that `writeFrequencyTable` writes for the entries. -/
theorem writeFrequencyTable_eq (t : FreqMap) :
    writeFrequencyTable t
      = leBytes 8 t.length ++ t.flatMap (fun p => leBytes 1 p.1 ++ intBytes p.2) := by
  simp [writeFrequencyTable, List.flatMap]

theorem length_entries (t : FreqMap) :
    (t.flatMap (fun p => leBytes 1 p.1 ++ intBytes p.2)).length = 5 * t.length := by
  induction t with
  | nil => rfl
  | cons p t ih =>
    simp only [List.flatMap_cons, List.length_append, ih, length_leBytes, length_intBytes,
      List.length_cons]
    omega

theorem length_writeFrequencyTable (t : FreqMap) :
    (writeFrequencyTable t).length = 8 + 5 * t.length := by
  rw [writeFrequencyTable_eq, List.length_append, length_leBytes, length_entries]

theorem store_of_not_key (m : FreqMap) (k : Nat) (v : Int) (h : k ∉ m.map Prod.fst) :
    store m k v = m := by
  induction m with
  | nil => rfl
  | cons p m ih =>
    simp only [List.map_cons, List.mem_cons, not_or] at h
    simp only [store, List.map_cons] at ih ⊢
    rw [ih h.2, if_neg (fun e => h.1 e.symm)]

theorem assign_perm (S : StdLib) (m : FreqMap) (k : Nat) (v : Int)
    (h : k ∉ m.map Prod.fst) : (assign S m k v).Perm (m ++ [(k, v)]) := by
  have hk : ¬ hasKey m k = true := fun hk => h ((hasKey_iff m k).1 hk)
  have hp := touch_perm S m k
  rw [if_neg hk] at hp
  have hp2 : (store (touch S m k) k v).Perm (store ((k, 0) :: m) k v) := hp.map _
  have hs : store ((k, 0) :: m) k v = (k, v) :: m := by
    have := store_of_not_key m k v h
    simp only [store, List.map_cons] at this ⊢
    rw [this]; simp
  rw [hs] at hp2
  exact hp2.trans (List.perm_append_singleton (k, v) m).symm

/-- Reading the entries that were written for `t` adds them to the map and
    leaves the stream at the first byte behind them. -/
theorem readEntries_written (S : StdLib) (u : Uninit) (rest : List Nat) (t : FreqMap) :
    ∀ (acc : FreqMap) (i : Nat),
    ((acc ++ t).map Prod.fst).Nodup →
    (∀ p ∈ t, p.1 < 256 ∧ -2147483648 ≤ p.2 ∧ p.2 < 2147483648) →
    (readEntries S u t.length i
      { data := t.flatMap (fun p => leBytes 1 p.1 ++ intBytes p.2) ++ rest, good := true }
      acc).1.Perm (acc ++ t) ∧
    (readEntries S u t.length i
      { data := t.flatMap (fun p => leBytes 1 p.1 ++ intBytes p.2) ++ rest, good := true }
      acc).2 = { data := rest, good := true } := by
  induction t with
  | nil => intro acc i _ _; simp [readEntries]
  | cons p t ih =>
    intro acc i hnd hr
    obtain ⟨hc, hf0, hf1⟩ := hr p (List.mem_cons_self _ _)
    have hnot : p.1 ∉ acc.map Prod.fst := by
      intro hmem
      rw [List.map_append, List.map_cons] at hnd
      exact (List.nodup_append.1 hnd).2.2 hmem (List.mem_cons_self _ _)
    have hperm := assign_perm S acc p.1 p.2 hnot
    have hnd2 : ((assign S acc p.1 p.2 ++ t).map Prod.fst).Nodup := by
      have : (assign S acc p.1 p.2 ++ t).Perm (acc ++ p :: t) := by
        refine (List.Perm.append_right t hperm).trans ?_
        simp
      exact (this.map Prod.fst).nodup_iff.2 hnd
    have h := ih (assign S acc p.1 p.2) (i + 1) hnd2
      (fun q hq => hr q (List.mem_cons_of_mem _ hq))
    simp only [List.length_cons, readEntries, List.flatMap_cons, List.append_assoc]
    rw [IStream.read_append _ _ _ 1 (length_leBytes 1 _)]
    simp only
    rw [IStream.read_append _ _ _ 4 (length_intBytes _)]
    simp only
    rw [leBytes_one_of_lt hc, intOfBytes_intBytes _ hf0 hf1]
    have e1 : ofLeBytes [p.1] = p.1 := by simp [ofLeBytes]
    rw [e1]
    refine ⟨h.1.trans ?_, h.2⟩
    refine (List.Perm.append_right t hperm).trans ?_
    simp

theorem length_le_of_keys_lt (t : FreqMap) (hnd : (t.map Prod.fst).Nodup)
    (hlt : ∀ p ∈ t, p.1 < 256) : t.length ≤ 256 := by
  have hsub : t.map Prod.fst ⊆ List.range 256 := by
    intro k hk
    obtain ⟨p, hp, rfl⟩ := List.mem_map.1 hk
    exact List.mem_range.2 (hlt p hp)
  have := (hnd.subperm hsub).length_le
  simpa using this

/-- Reading back a written header. -/
theorem readFrequencyTable_written (S : StdLib) (u : Uninit) (t : FreqMap) (rest : List Nat)
    (hnd : (t.map Prod.fst).Nodup)
    (hr : ∀ p ∈ t, p.1 < 256 ∧ -2147483648 ≤ p.2 ∧ p.2 < 2147483648) :
    (readFrequencyTable S u (IStream.openFile (writeFrequencyTable t ++ rest))).1.Perm t ∧
    (readFrequencyTable S u (IStream.openFile (writeFrequencyTable t ++ rest))).2
      = { data := rest, good := true } := by
  have hlen : t.length ≤ 256 := length_le_of_keys_lt t hnd (fun p hp => (hr p hp).1)
  unfold readFrequencyTable IStream.openFile
  rw [writeFrequencyTable_eq, List.append_assoc,
    IStream.read_append _ _ _ 8 (length_leBytes 8 _)]
  simp only
  rw [ofLeBytes_leBytes, Nat.mod_eq_of_lt (by norm_num; omega)]
  have h := readEntries_written S u rest t [] 0 (by simpa using hnd) hr
  simpa using h

/-! ## The decoding loop -/

theorem takeBit_ne (r : BitReader) : r.takeBit.1 ≠ -1 := by
  unfold BitReader.takeBit
  simp only
  omega

theorem readBit_cases (r : BitReader) (s : IStream) (hg : s.good = true) :
    ((r.readBit s).1 = -1 ∧ 8 * s.data.length + r.bitCount = 0) ∨
    ((r.readBit s).1 ≠ -1 ∧ (r.readBit s).2.2.good = true ∧
      8 * (r.readBit s).2.2.data.length + (r.readBit s).2.1.bitCount + 1
        = 8 * s.data.length + r.bitCount) := by
  unfold BitReader.readBit
  by_cases h0 : r.bitCount = 0
  · rw [if_pos h0]
    unfold IStream.get
    rw [if_pos hg]
    cases hd : s.data with
    | nil => left; simp [h0]
    | cons b rest =>
      right
      refine ⟨takeBit_ne _, rfl, ?_⟩
      simp [BitReader.takeBit, h0]
      omega
  · rw [if_neg h0]
    right
    refine ⟨takeBit_ne _, hg, ?_⟩
    simp [BitReader.takeBit]
    omega

theorem Inner.left_right {n : Node} (h : Inner n) (bit : Int) :
    ∃ c, (if bit = 0 then n.left else n.right) = some c ∧ c.full = true := by
  obtain ⟨c, f, l, r, rfl, hl, hr⟩ := h
  by_cases hb : bit = 0
  · exact ⟨l, by simp [hb, Node.left], hl⟩
  · exact ⟨r, by simp [hb, Node.right], hr⟩

theorem inner_of_full {c : Nat} {f : Int} {l r : Node} (h : (Node.mk c f l r).full = true)
    (hleaf : (l.isNull && r.isNull) = false) : Inner (Node.mk c f l r) := by
  unfold Node.full at h
  rw [hleaf, Bool.false_or, Bool.and_eq_true] at h
  exact ⟨c, f, l, r, rfl, h.1, h.2⟩

/-- With an inner root the loop never reads through a null pointer: it runs
    one round for every bit left in the file, emits at most one symbol per
    round and stops when the file is exhausted. -/
theorem decodeLoop_inner (root : Node) (hroot : Inner root) : ∀ (fuel : Nat) (r : BitReader)
    (s : IStream) (current : Node) (out : List Nat), Inner current → s.good = true →
    (fuel ≤ 8 * s.data.length + r.bitCount →
      decodeLoop root fuel r s current out = Outcome.outOfFuel) ∧
    (8 * s.data.length + r.bitCount < fuel →
      ∃ more, decodeLoop root fuel r s current out = Outcome.done (out ++ more) ∧
        more.length ≤ 8 * s.data.length + r.bitCount) := by
  intro fuel
  induction fuel with
  | zero =>
    intro r s current out _ _
    exact ⟨fun _ => rfl, fun h => absurd h (Nat.not_lt_zero _)⟩
  | succ fuel ih =>
    intro r s current out hcur hg
    have hcases := readBit_cases r s hg
    unfold decodeLoop
    rcases hrb : r.readBit s with ⟨bit, r1, s1⟩
    rw [hrb] at hcases
    simp only at hcases ⊢
    rcases hcases with ⟨hbit, hM⟩ | ⟨hbit, hg1, hM⟩
    · rw [if_pos hbit]
      refine ⟨fun h => by omega, fun _ => ⟨[], by simp, by simp⟩⟩
    · rw [if_neg hbit]
      obtain ⟨c1, hc1, hfull⟩ := hcur.left_right bit
      rw [hc1]
      simp only
      cases c1 with
      | nil => cases hfull
      | mk ch f l rr =>
        simp only [Node.left, Node.right]
        by_cases hleaf : (l.isNull && rr.isNull) = true
        · rw [if_pos hleaf]
          have h := ih r1 s1 root (out ++ [ch]) hroot hg1
          refine ⟨fun hle => h.1 (by omega), fun hlt => ?_⟩
          obtain ⟨more, hmore, hlen⟩ := h.2 (by omega)
          refine ⟨ch :: more, ?_, ?_⟩
          · simp only [Node.ch]; rw [hmore]; simp
          · simp; omega
        · rw [if_neg hleaf]
          have hin : Inner (Node.mk ch f l rr) :=
            inner_of_full hfull (by simpa using hleaf)
          have h := ih r1 s1 (Node.mk ch f l rr) out hin hg1
          refine ⟨fun hle => h.1 (by omega), fun hlt => ?_⟩
          obtain ⟨more, hmore, hlen⟩ := h.2 (by omega)
          exact ⟨more, hmore, by omega⟩

/-- On a file that is exhausted (or failed) the loop stops at once. -/
theorem decodeLoop_empty (root : Node) (fuel : Nat) (s : IStream) (current : Node)
    (out : List Nat) (h : s.good = false ∨ s.data = []) :
    decodeLoop root (fuel + 1) BitReader.new s current out = Outcome.done out := by
  unfold decodeLoop
  have : BitReader.new.readBit s = (-1, BitReader.new, (s.get).2) ∧ True := by
    unfold BitReader.readBit IStream.get
    rcases h with h | h
    · simp [BitReader.new, h]
    · by_cases hg : s.good = true
      · simp [BitReader.new, h, hg]
      · simp [BitReader.new, hg]
  rw [this.1]
  simp

/-! ## The compressed file -/

theorem writeBit_out (w : BitWriter) (bit : Bool) : ∃ e, (w.writeBit bit).out = w.out ++ e := by
  unfold BitWriter.writeBit
  simp only
  split
  · exact ⟨_, rfl⟩
  · exact ⟨[], by simp⟩

theorem writeBits_out (bits : List Char) : ∀ w : BitWriter,
    ∃ e, (w.writeBits bits).out = w.out ++ e := by
  induction bits with
  | nil => intro w; exact ⟨[], by simp [BitWriter.writeBits]⟩
  | cons c bits ih =>
    intro w
    obtain ⟨e1, h1⟩ := writeBit_out w (c == '1')
    obtain ⟨e2, h2⟩ := ih (w.writeBit (c == '1'))
    refine ⟨e1 ++ e2, ?_⟩
    simp only [BitWriter.writeBits, List.foldl_cons] at h2 ⊢
    rw [h2, h1, List.append_assoc]

theorem foldl_writeBits_out (code : Nat → List Char) (B : List Nat) : ∀ w : BitWriter,
    ∃ e, (B.foldl (fun w c => w.writeBits (code c)) w).out = w.out ++ e := by
  induction B with
  | nil => intro w; exact ⟨[], by simp⟩
  | cons c B ih =>
    intro w
    obtain ⟨e1, h1⟩ := writeBits_out (code c) w
    obtain ⟨e2, h2⟩ := ih (w.writeBits (code c))
    refine ⟨e1 ++ e2, ?_⟩
    simp only [List.foldl_cons]
    rw [h2, h1, List.append_assoc]

theorem flush_out (w : BitWriter) : ∃ e, w.flush.out = w.out ++ e := by
  unfold BitWriter.flush
  split
  · exact ⟨_, rfl⟩
  · exact ⟨[], by simp⟩

/-- The output file starts with the header of the frequency table. -/
theorem compressFile_eq (S : StdLib) (B : List Nat) :
    ∃ payload, compressFile S B = writeFrequencyTable (countFreq S B) ++ payload := by
  unfold compressFile
  simp only
  obtain ⟨e1, h1⟩ := foldl_writeBits_out
    (getCode (generateCodes (buildTree S (countFreq S B)) [] [])) B
    (BitWriter.new (writeFrequencyTable (countFreq S B)))
  obtain ⟨e2, h2⟩ := flush_out (B.foldl
    (fun w c => w.writeBits (getCode (generateCodes (buildTree S (countFreq S B)) [] []) c))
    (BitWriter.new (writeFrequencyTable (countFreq S B))))
  refine ⟨e1 ++ e2, ?_⟩
  rw [h2, h1, List.append_assoc]
  rfl

theorem foldl_writeBits_nil (code : Nat → List Char) (hcode : ∀ c, code c = [])
    (B : List Nat) (w : BitWriter) : B.foldl (fun w c => w.writeBits (code c)) w = w := by
  induction B generalizing w with
  | nil => rfl
  | cons c B ih =>
    rw [List.foldl_cons, hcode c]
    exact ih _

theorem getCode_leaf (c : Nat) (f : Int) (k : Nat) :
    getCode (generateCodes (Node.leaf c f) [] []) k = [] := by
  simp only [Node.leaf, generateCodes, Node.isNull, Bool.and_self, if_true, setCode, getCode]
  split <;> rfl

/-- A full tree is a single leaf or has an inner root and two leaves or more. -/
theorem full_cases (n : Node) (h : n.full = true) :
    (∃ c f, n = Node.leaf c f ∧ n.leaves = [(c, f)]) ∨ (Inner n ∧ 2 ≤ n.leaves.length) := by
  cases n with
  | nil => cases h
  | mk c f l r =>
    by_cases hleaf : (l.isNull && r.isNull) = true
    · left
      have hl : l = Node.nil := by
        cases l with
        | nil => rfl
        | mk _ _ _ _ => simp [Node.isNull] at hleaf
      have hr : r = Node.nil := by
        cases r with
        | nil => rfl
        | mk _ _ _ _ => simp [Node.isNull] at hleaf
      subst hl hr
      exact ⟨c, f, rfl, rfl⟩
    · right
      have hin := inner_of_full h (by simpa using hleaf)
      refine ⟨hin, ?_⟩
      obtain ⟨_, _, _, _, he, hl, hr⟩ := hin
      cases he
      have h1 := List.length_pos.2 (Node.leaves_ne_nil hl)
      have h2 := List.length_pos.2 (Node.leaves_ne_nil hr)
      simp only [Node.leaves, hleaf, Bool.false_eq_true, if_false, List.length_append]
      omega

theorem buildTree_single (S : StdLib) (c : Nat) (f : Int) :
    buildTree S [(c, f)] = Node.leaf c f := by
  obtain ⟨hfull, hperm⟩ := buildTree_full S [(c, f)] (by simp)
  rcases full_cases _ hfull with ⟨c1, f1, hn, hl⟩ | ⟨_, hlen⟩
  · rw [hl] at hperm
    have := List.perm_singleton.1 hperm
    simp only [List.cons.injEq, Prod.mk.injEq, and_true] at this
    rw [hn, this.1, this.2]
  · have := hperm.length_eq
    simp at this
    omega

theorem buildTree_inner (S : StdLib) (t : FreqMap) (ht : 2 ≤ t.length) :
    Inner (buildTree S t) := by
  have hne : t ≠ [] := by
    intro h; rw [h] at ht; simp at ht
  obtain ⟨hfull, hperm⟩ := buildTree_full S t hne
  rcases full_cases _ hfull with ⟨c1, f1, _, hl⟩ | ⟨hin, _⟩
  · have := hperm.length_eq
    rw [hl] at this
    simp at this
    omega
  · exact hin

/-- With at most one table entry every code is empty and nothing follows the
    header. -/
theorem compressFile_short (S : StdLib) (B : List Nat) (h : (countFreq S B).length ≤ 1) :
    compressFile S B = writeFrequencyTable (countFreq S B) := by
  have hcode : ∀ k, getCode (generateCodes (buildTree S (countFreq S B)) [] []) k = [] := by
    intro k
    match ht : countFreq S B, h with
    | [], _ => simp [buildTree, mergeLoop, generateCodes, getCode]
    | [(c, f)], _ => rw [buildTree_single]; exact getCode_leaf c f k
    | _ :: _ :: _, h => simp at h
  unfold compressFile
  simp only
  rw [foldl_writeBits_nil _ hcode]
  rfl

theorem countFreq_wellFormed (S : StdLib) (B : List Nat) (hB : ∀ b ∈ B, b < 256) :
    ((countFreq S B).map Prod.fst).Nodup ∧
    ∀ p ∈ countFreq S B, p.1 < 256 ∧ -2147483648 ≤ p.2 ∧ p.2 < 2147483648 := by
  refine ⟨(countFreq_spec S B).1, fun p hp => ?_⟩
  obtain ⟨h1, h2⟩ := countFreq_entry S B p hp
  rw [h2]
  exact ⟨hB _ h1, wrapInt_range _⟩

theorem decompressFile_eq (S : StdLib) (u : Uninit) (file : List Nat) :
    decompressFile S u file =
      decodeLoop (buildTree S (readFrequencyTable S u (IStream.openFile file)).1)
        (8 * (readFrequencyTable S u (IStream.openFile file)).2.data.length + 1)
        BitReader.new (readFrequencyTable S u (IStream.openFile file)).2
        (buildTree S (readFrequencyTable S u (IStream.openFile file)).1) [] := by
  unfold decompressFile
  rfl

/-- Decoding what `compressFile` wrote: the header is read back and the
    stream is left at the payload; the loop runs one round for each of the
    8 bits of every payload byte and then returns, having emitted at most one
    symbol per round, without reading through a null pointer. -/
theorem decompress_compress_run (S : StdLib) (u : Uninit) (B : List Nat)
    (hB : ∀ b ∈ B, b < 256) :
    ∃ payload, compressFile S B = writeFrequencyTable (countFreq S B) ++ payload ∧
      (readFrequencyTable S u (IStream.openFile (compressFile S B))).1.Perm (countFreq S B) ∧
      (readFrequencyTable S u (IStream.openFile (compressFile S B))).2
        = { data := payload, good := true } ∧
      decodeLoop (buildTree S (readFrequencyTable S u (IStream.openFile (compressFile S B))).1)
        (8 * payload.length) BitReader.new { data := payload, good := true }
        (buildTree S (readFrequencyTable S u (IStream.openFile (compressFile S B))).1) []
        = Outcome.outOfFuel ∧
      ∃ out, decompressFile S u (compressFile S B) = Outcome.done out ∧
        out.length ≤ 8 * payload.length := by
  obtain ⟨hnd, hr⟩ := countFreq_wellFormed S B hB
  obtain ⟨payload, hfile⟩ := compressFile_eq S B
  obtain ⟨hperm, hs⟩ := readFrequencyTable_written S u (countFreq S B) payload hnd hr
  refine ⟨payload, hfile, by rw [hfile]; exact hperm, by rw [hfile]; exact hs, ?_⟩
  rw [decompressFile_eq, hfile, hs]
  by_cases hk : 2 ≤ (countFreq S B).length
  · have hin : Inner (buildTree S
        (readFrequencyTable S u
          (IStream.openFile (writeFrequencyTable (countFreq S B) ++ payload))).1) :=
      buildTree_inner S _ (by rw [hperm.length_eq]; exact hk)
    refine ⟨(decodeLoop_inner _ hin (8 * payload.length) BitReader.new
        { data := payload, good := true } _ [] hin rfl).1 (by simp), ?_⟩
    obtain ⟨more, hmore, hml⟩ :=
      (decodeLoop_inner _ hin (8 * payload.length + 1) BitReader.new
        { data := payload, good := true } _ [] hin rfl).2 (by simp [BitReader.new])
    exact ⟨more, by simpa using hmore, by simpa [BitReader.new] using hml⟩
  · have hshort := compressFile_short S B (by omega)
    have hp : payload = [] := by
      rw [hfile] at hshort
      exact List.append_cancel_left (hshort.trans (List.append_nil _).symm)
    subst hp
    exact ⟨rfl, [], decodeLoop_empty _ _ _ _ _ (Or.inr rfl), by simp⟩

theorem decodeLoop_inner_safe (root : Node) (hroot : Inner root) : ∀ (fuel : Nat)
    (r : BitReader) (s : IStream) (current : Node) (out : List Nat), Inner current →
    decodeLoop root fuel r s current out ≠ Outcome.nullDeref := by
  intro fuel
  induction fuel with
  | zero => intro r s current out _ h; cases h
  | succ fuel ih =>
    intro r s current out hcur
    unfold decodeLoop
    rcases r.readBit s with ⟨bit, r1, s1⟩
    simp only
    by_cases hbit : bit = -1
    · rw [if_pos hbit]; intro h; cases h
    · rw [if_neg hbit]
      obtain ⟨c1, hc1, hfull⟩ := hcur.left_right bit
      rw [hc1]
      simp only
      cases c1 with
      | nil => cases hfull
      | mk ch f l rr =>
        simp only [Node.left, Node.right]
        by_cases hleaf : (l.isNull && rr.isNull) = true
        · rw [if_pos hleaf]
          exact ih r1 s1 root _ hroot
        · rw [if_neg hleaf]
          exact ih r1 s1 _ out (inner_of_full hfull (by simpa using hleaf))

/-! ## Truncated headers -/

theorem IStream.read_good (s : IStream) (n : Nat) (init : List Nat)
    (h : (s.read n init).2.good = true) :
    s.good = true ∧ (s.read n init).2.data.length + n = s.data.length := by
  unfold IStream.read at h ⊢
  by_cases hg : s.good = true
  · rw [if_pos hg] at h ⊢
    by_cases hn : n ≤ s.data.length
    · rw [if_pos hn]
      simp only [List.length_drop]
      exact ⟨hg, by omega⟩
    · rw [if_neg hn] at h
      simp at h
  · rw [if_neg hg] at h
    exact absurd h hg

theorem IStream.read_short (s : IStream) (n : Nat) (init : List Nat)
    (h : s.data.length < n) : (s.read n init).2.good = false := by
  unfold IStream.read
  by_cases hg : s.good = true
  · rw [if_pos hg, if_neg (by omega)]
  · rw [if_neg hg]; simpa using hg

/-- When fewer bytes are left than the entries still to read need, the
    stream is in the failed state after the loop. -/
theorem readEntries_short (S : StdLib) (u : Uninit) : ∀ (k i : Nat) (s : IStream)
    (acc : FreqMap), (s.good = false ∨ s.data.length < 5 * k) →
    (readEntries S u k i s acc).2.good = false := by
  intro k
  induction k with
  | zero =>
    intro i s acc h
    rcases h with h | h
    · exact h
    · omega
  | succ k ih =>
    intro i s acc h
    unfold readEntries
    simp only
    apply ih
    by_cases hg2 : ((s.read 1 (u.ch i)).2.read 4 (u.f i)).2.good = true
    · right
      obtain ⟨hg1, hl1⟩ := IStream.read_good _ _ _ hg2
      obtain ⟨hg0, hl0⟩ := IStream.read_good _ _ _ hg1
      rcases h with h | h
      · rw [h] at hg0; cases hg0
      · omega
    · left
      simpa using hg2

theorem readFrequencyTable_eq (S : StdLib) (u : Uninit) (s : IStream) :
    readFrequencyTable S u s
      = readEntries S u (ofLeBytes (s.read 8 u.size).1) 0 (s.read 8 u.size).2 [] := rfl

theorem readFrequencyTable_truncated (S : StdLib) (u : Uninit) (t : FreqMap) (rest : List Nat)
    (n : Nat) (hlen : t.length ≤ 256) (hn : n < 8 + 5 * t.length) :
    (readFrequencyTable S u
      (IStream.openFile ((writeFrequencyTable t ++ rest).take n))).2.good = false := by
  have hle : n ≤ (writeFrequencyTable t).length := by
    rw [length_writeFrequencyTable]; omega
  rw [List.take_append_of_le_length hle, writeFrequencyTable_eq, readFrequencyTable_eq]
  apply readEntries_short
  unfold IStream.openFile
  by_cases h8 : 8 ≤ n
  · have htake : (leBytes 8 t.length ++ t.flatMap (fun p => leBytes 1 p.1 ++ intBytes p.2)).take n
        = leBytes 8 t.length
          ++ (t.flatMap (fun p => leBytes 1 p.1 ++ intBytes p.2)).take (n - 8) := by
      rw [List.take_append_eq_append_take, length_leBytes,
        List.take_of_length_le (by rw [length_leBytes]; exact h8)]
    rw [htake, IStream.read_append _ _ _ 8 (length_leBytes 8 _)]
    simp only
    rw [ofLeBytes_leBytes, Nat.mod_eq_of_lt (by norm_num; omega)]
    right
    simp only [List.length_take, length_entries]
    omega
  · left
    refine IStream.read_short _ _ _ ?_
    show (List.take n _).length < 8
    rw [List.length_take]
    omega

theorem decompress_truncated (S : StdLib) (u : Uninit) (B : List Nat) (n : Nat)
    (hB : ∀ b ∈ B, b < 256) (hn : n < 8 + 5 * (countFreq S B).length) :
    (readFrequencyTable S u (IStream.openFile ((compressFile S B).take n))).2.good = false ∧
    decompressFile S u ((compressFile S B).take n) = Outcome.done [] := by
  obtain ⟨hnd, hr⟩ := countFreq_wellFormed S B hB
  obtain ⟨payload, hfile⟩ := compressFile_eq S B
  have hlen := length_le_of_keys_lt _ hnd (fun p hp => (hr p hp).1)
  have hbad := readFrequencyTable_truncated S u (countFreq S B) payload n hlen hn
  rw [decompressFile_eq, hfile]
  exact ⟨hbad, decodeLoop_empty _ _ _ _ _ (Or.inl hbad)⟩

/-! ## Single-symbol inputs -/

theorem countFreq_replicate (S : StdLib) (c n : Nat) (hn : 1 ≤ n) :
    countFreq S (List.replicate n c) = [(c, wrapInt n)] := by
  obtain ⟨hnd, hk, hl⟩ := countFreq_spec S (List.replicate n c)
  have hkeys : ((countFreq S (List.replicate n c)).map Prod.fst).Perm [c] := by
    rw [List.perm_ext_iff_of_nodup hnd (List.nodup_singleton c)]
    intro k
    rw [hk, List.mem_replicate, List.mem_singleton]
    constructor
    · exact fun h => h.2
    · exact fun h => ⟨by omega, h⟩
  have hkeys2 := List.perm_singleton.1 hkeys
  match ht : countFreq S (List.replicate n c), hkeys2 with
  | [p], h2 =>
    simp only [List.map_cons, List.map_nil, List.cons.injEq, and_true] at h2
    have h3 := hl c
    rw [ht, lookup_cons, if_pos h2, List.count_replicate_self] at h3
    rw [← h2, ← h3]
  | [], h2 => simp at h2
  | _ :: _ :: _, h2 => simp at h2

theorem decompress_short (S : StdLib) (u : Uninit) (B : List Nat) (hB : ∀ b ∈ B, b < 256)
    (h : (countFreq S B).length ≤ 1) :
    decompressFile S u (compressFile S B) = Outcome.done [] := by
  obtain ⟨hnd, hr⟩ := countFreq_wellFormed S B hB
  have hs := (readFrequencyTable_written S u (countFreq S B) [] hnd hr).2
  rw [List.append_nil] at hs
  rw [compressFile_short S B h, decompressFile_eq, hs]
  exact decodeLoop_empty _ _ _ _ _ (Or.inr rfl)

theorem decompress_lone_leaf (S : StdLib) (u : Uninit) (c : Nat) (f : Int) (b : Nat)
    (rest : List Nat) (hc : c < 256) (hf0 : -2147483648 ≤ f) (hf1 : f < 2147483648) :
    decompressFile S u (writeFrequencyTable [(c, f)] ++ b :: rest) = Outcome.nullDeref := by
  obtain ⟨hperm, hs⟩ := readFrequencyTable_written S u [(c, f)] (b :: rest) (by simp)
    (by intro p hp; rw [List.mem_singleton] at hp; subst hp; exact ⟨hc, hf0, hf1⟩)
  rw [decompressFile_eq, hs, List.perm_singleton.1 hperm, buildTree_single]
  unfold decodeLoop
  have : ∃ bit r1, BitReader.new.readBit { data := b :: rest, good := true }
      = (bit, r1, { data := rest, good := true }) ∧ bit ≠ -1 := by
    refine ⟨_, _, rfl, ?_⟩
    exact takeBit_ne _
  obtain ⟨bit, r1, hrb, hbit⟩ := this
  rw [hrb]
  simp only
  rw [if_neg hbit]
  by_cases h0 : bit = 0
  · simp [h0, Node.leaf, Node.left]
  · simp [h0, Node.leaf, Node.left, Node.right]

/-! ## Sum of the counts -/

theorem countFreq_exact (S : StdLib) (B : List Nat) (hB : ∀ c, B.count c < 2147483648)
    (p : Nat × Int) (hp : p ∈ countFreq S B) : p.2 = (B.count p.1 : Int) ∧ 1 ≤ p.2 := by
  obtain ⟨hmem, hval⟩ := countFreq_entry S B p hp
  have h1 : 0 < B.count p.1 := List.count_pos_iff.2 hmem
  have h2 := hB p.1
  have h3 : p.2 = (B.count p.1 : Int) := by
    rw [hval]
    exact wrapInt_of_range (by omega) (by omega)
  exact ⟨h3, by omega⟩

theorem countFreq_sum (S : StdLib) (B : List Nat) (hB : ∀ c, B.count c < 2147483648) :
    ((countFreq S B).map Prod.snd).sum = (B.length : Int) := by
  obtain ⟨hnd, hk, _⟩ := countFreq_spec S B
  have h1 : (countFreq S B).map Prod.snd
      = ((countFreq S B).map Prod.fst).map (fun k => (B.count k : Int)) := by
    rw [List.map_map]
    exact List.map_congr_left (fun p hp => (countFreq_exact S B hB p hp).1)
  have h2 : ((countFreq S B).map Prod.fst).Perm B.dedup := by
    rw [List.perm_ext_iff_of_nodup hnd (List.nodup_dedup B)]
    intro k
    rw [hk, List.mem_dedup]
  rw [h1, (h2.map _).sum_eq, ← List.sum_map_count_dedup_eq_length B, Nat.cast_list_sum,
    List.map_map]
  rfl

/-! ## The payload does not depend on the header -/

theorem writeBit_after (pre : List Nat) (w : BitWriter) (bit : Bool) :
    (BitWriter.after pre w).writeBit bit = BitWriter.after pre (w.writeBit bit) := by
  unfold BitWriter.writeBit BitWriter.after
  simp only
  split <;> simp

theorem writeBits_after (pre : List Nat) (bits : List Char) : ∀ w : BitWriter,
    (BitWriter.after pre w).writeBits bits = BitWriter.after pre (w.writeBits bits) := by
  induction bits with
  | nil => intro w; rfl
  | cons c bits ih =>
    intro w
    simp only [BitWriter.writeBits, List.foldl_cons] at ih ⊢
    rw [writeBit_after, ih]

theorem foldl_writeBits_after (pre : List Nat) (code : Nat → List Char) (B : List Nat) :
    ∀ w : BitWriter, B.foldl (fun w c => w.writeBits (code c)) (BitWriter.after pre w)
      = BitWriter.after pre (B.foldl (fun w c => w.writeBits (code c)) w) := by
  induction B with
  | nil => intro w; rfl
  | cons c B ih =>
    intro w
    simp only [List.foldl_cons]
    rw [writeBits_after, ih]

theorem flush_after (pre : List Nat) (w : BitWriter) :
    (BitWriter.after pre w).flush = BitWriter.after pre w.flush := by
  unfold BitWriter.flush BitWriter.after
  simp only
  split <;> simp

/-- The output file is the header followed by the packed codes. -/
theorem compressFile_eq_encode (S : StdLib) (B : List Nat) :
    compressFile S B = writeFrequencyTable (countFreq S B)
      ++ encodePayload (buildTree S (countFreq S B)) B := by
  have h0 : BitWriter.new (writeFrequencyTable (countFreq S B))
      = BitWriter.after (writeFrequencyTable (countFreq S B)) (BitWriter.new []) := by
    simp [BitWriter.new, BitWriter.after]
  unfold compressFile encodePayload
  simp only
  rw [h0, foldl_writeBits_after, flush_after]
  rfl

/-! ## Every run of `decompressFile` ends -/

theorem decodeLoop_not_inner (root : Node) (fuel : Nat) (s : IStream) (out : List Nat)
    (h : root = Node.nil ∨ ∃ c f, root = Node.leaf c f) :
    decodeLoop root (fuel + 1) BitReader.new s root out ≠ Outcome.outOfFuel := by
  unfold decodeLoop
  rcases BitReader.new.readBit s with ⟨bit, r1, s1⟩
  simp only
  by_cases hbit : bit = -1
  · rw [if_pos hbit]; intro h; cases h
  · rw [if_neg hbit]
    rcases h with h | ⟨c, f, h⟩
    · subst h
      by_cases h0 : bit = 0 <;> simp [h0, Node.left, Node.right]
    · subst h
      by_cases h0 : bit = 0 <;> simp [h0, Node.leaf, Node.left, Node.right]

/-- The loop rounds that the model allots to `decompressFile` are enough on
    every input file: the run ends, normally or in a null dereference. -/
theorem decompressFile_ends (S : StdLib) (u : Uninit) (file : List Nat) :
    decompressFile S u file ≠ Outcome.outOfFuel := by
  rw [decompressFile_eq]
  generalize readFrequencyTable S u (IStream.openFile file) = rd
  by_cases ht : rd.1 = []
  · apply decodeLoop_not_inner
    left
    rw [ht]
    simp [buildTree, mergeLoop]
  · rcases full_cases _ (buildTree_full S rd.1 ht).1 with ⟨c, f, hleaf, _⟩ | ⟨hin, _⟩
    · exact decodeLoop_not_inner _ _ _ _ (Or.inr ⟨c, f, hleaf⟩)
    · by_cases hg : rd.2.good = true
      · obtain ⟨more, hmore, _⟩ :=
          (decodeLoop_inner _ hin (8 * rd.2.data.length + 1) BitReader.new rd.2 _ [] hin hg).2
            (by simp [BitReader.new])
        rw [hmore]
        intro h; cases h
      · rw [decodeLoop_empty _ _ _ _ _ (Or.inl (by simpa using hg))]
        intro h; cases h

/-! ## The trees that `buildTree` can return for "aaabbc" -/

theorem pushAll_perm (S : StdLib) (t : FreqMap) : ∀ q : List Node,
    (t.foldl (fun pq p => S.pqPush pq (Node.leaf p.1 p.2)) q).Perm
      (q ++ t.map (fun p => Node.leaf p.1 p.2)) ∧
    (S.pqInv q → S.pqInv (t.foldl (fun pq p => S.pqPush pq (Node.leaf p.1 p.2)) q)) := by
  induction t with
  | nil => intro q; simp
  | cons p t ih =>
    intro q
    obtain ⟨h1, h2⟩ := ih (S.pqPush q (Node.leaf p.1 p.2))
    simp only [List.foldl_cons, List.map_cons]
    refine ⟨h1.trans ?_, fun hq => h2 (S.pqInv_push q _ hq)⟩
    refine (List.Perm.append_right _ (S.pqPush_perm q _)).trans ?_
    simp only [List.cons_append]
    exact List.perm_middle.symm

theorem top_le (S : StdLib) {x : Node} {q : List Node} (h : S.pqInv (x :: q)) {y : Node}
    (hy : y ∈ q) : x.freq ≤ y.freq := by
  have := S.pqInv_top x q h y hy
  simpa [compare] using this

theorem mergeLoop_step (S : StdLib) (fuel : Nat) (x y : Node) (q q1 : List Node)
    (h : S.pqPop (x :: q) = y :: q1) :
    mergeLoop S (fuel + 1) (x :: q)
      = mergeLoop S fuel
          (S.pqPush (S.pqPop (y :: q1)) (Node.mk 0 (wrapInt (x.freq + y.freq)) x y)) := by
  have hlen : (x :: q).length > 1 := by
    have := (S.pqPop_perm x q).length_eq
    rw [h] at this
    simp at this ⊢
    omega
  rw [mergeLoop, if_pos hlen]
  simp only [pqTop, h, List.headD_cons]

theorem mergeLoop_single (S : StdLib) (fuel : Nat) (x : Node) : mergeLoop S fuel [x] = [x] := by
  cases fuel with
  | zero => rfl
  | succ fuel => simp [mergeLoop]

theorem perm_pair {a b : Node} {l : List Node} (h : l.Perm [a, b]) :
    l = [a, b] ∨ l = [b, a] := by
  match l, h with
  | [x, y], h =>
    have hx : x ∈ [a, b] := h.subset (List.mem_cons_self _ _)
    simp only [List.mem_cons, List.mem_singleton, List.not_mem_nil, or_false] at hx
    rcases hx with rfl | rfl
    · left
      have := List.perm_singleton.1 (h.cons_inv)
      rw [this]
    · right
      have h2 : [x, y].Perm [x, a] := h.trans (List.Perm.swap _ _ _)
      have := List.perm_singleton.1 (h2.cons_inv)
      rw [this]
  | [], h => simpa using h.length_eq
  | [_], h => simpa using h.length_eq
  | _ :: _ :: _ :: _, h => simpa using h.length_eq

/-- The last round of the loop: two trees are left. -/
theorem mergeLoop_two (S : StdLib) (fuel : Nat) (x y : Node) :
    mergeLoop S (fuel + 1) [x, y] = [Node.mk 0 (wrapInt (x.freq + y.freq)) x y] := by
  have h1 : S.pqPop [x, y] = [y] := List.perm_singleton.1 (S.pqPop_perm x [y])
  have h2 : S.pqPop [y] = [] := List.perm_nil.1 (S.pqPop_perm y [])
  rw [mergeLoop_step S fuel x y [y] [] h1, h2]
  have h3 := List.perm_singleton.1 (S.pqPush_perm [] (Node.mk 0 (wrapInt (x.freq + y.freq)) x y))
  rw [h3, mergeLoop_single]

/-- Whatever the library, the tree for the table of "aaabbc" joins 'c' and 'b'
    first and then that pair with 'a'; only the order of the last two is
    open. -/
theorem buildTree_aaabbc (S : StdLib) (t : FreqMap) (ht : t.Perm [(97, 3), (98, 2), (99, 1)]) :
    buildTree S t
        = Node.mk 0 6 (Node.leaf 97 3) (Node.mk 0 3 (Node.leaf 99 1) (Node.leaf 98 2)) ∨
    buildTree S t
        = Node.mk 0 6 (Node.mk 0 3 (Node.leaf 99 1) (Node.leaf 98 2)) (Node.leaf 97 3) := by
  obtain ⟨hp, hi⟩ := pushAll_perm S t []
  have hi0 := hi S.pqInv_nil
  have hp0 : (t.foldl (fun pq p => S.pqPush pq (Node.leaf p.1 p.2)) []).Perm
      [Node.leaf 97 3, Node.leaf 98 2, Node.leaf 99 1] := by
    refine hp.trans ?_
    simpa using ht.map (fun p => Node.leaf p.1 p.2)
  have hlen : (t.foldl (fun pq p => S.pqPush pq (Node.leaf p.1 p.2)) []).length = 2 + 1 :=
    hp0.length_eq
  unfold buildTree
  simp only
  rw [hlen]
  generalize t.foldl (fun pq p => S.pqPush pq (Node.leaf p.1 p.2)) [] = pq0 at hp0 hi0
  match pq0, hp0, hi0 with
  | [], hp0, _ => simpa using hp0.length_eq
  | x :: q, hp0, hi0 =>
    have hx : x ∈ [Node.leaf 97 3, Node.leaf 98 2, Node.leaf 99 1] :=
      hp0.subset (List.mem_cons_self _ _)
    have hmem : ∀ y, y ∈ [Node.leaf 97 3, Node.leaf 98 2, Node.leaf 99 1] → y ≠ x → y ∈ q := by
      intro y hy hne
      rcases List.mem_cons.1 (hp0.symm.subset hy) with h | h
      · exact absurd h hne
      · exact h
    have hxc : x = Node.leaf 99 1 := by
      simp only [List.mem_cons, List.mem_singleton, List.not_mem_nil, or_false] at hx
      rcases hx with rfl | rfl | rfl
      · have := top_le S hi0 (hmem (Node.leaf 99 1) (by simp) (by decide))
        simp [Node.leaf, Node.freq] at this
      · have := top_le S hi0 (hmem (Node.leaf 99 1) (by simp) (by decide))
        simp [Node.leaf, Node.freq] at this
      · rfl
    subst hxc
    have hq : q.Perm [Node.leaf 97 3, Node.leaf 98 2] := by
      have h1 : (Node.leaf 99 1 :: q).Perm (Node.leaf 99 1 :: [Node.leaf 97 3, Node.leaf 98 2]) :=
        hp0.trans (by decide)
      exact h1.cons_inv
    have hp1 := (S.pqPop_perm (Node.leaf 99 1) q).trans hq
    have hi1 := S.pqInv_pop _ _ hi0
    match hq1 : S.pqPop (Node.leaf 99 1 :: q), hp1, hi1 with
    | [], hp1, _ => simpa using hp1.length_eq
    | y :: q1, hp1, hi1 =>
      have hy : y ∈ [Node.leaf 97 3, Node.leaf 98 2] := hp1.subset (List.mem_cons_self _ _)
      have hyb : y = Node.leaf 98 2 := by
        simp only [List.mem_cons, List.mem_singleton, List.not_mem_nil, or_false] at hy
        rcases hy with rfl | rfl
        · have hb : Node.leaf 98 2 ∈ q1 := by
            rcases List.mem_cons.1 (hp1.symm.subset (by simp : Node.leaf 98 2 ∈ _)) with h | h
            · exact absurd h (by decide)
            · exact h
          have := top_le S hi1 hb
          simp [Node.leaf, Node.freq] at this
        · rfl
      subst hyb
      have hq1p : q1.Perm [Node.leaf 97 3] := by
        have h1 : (Node.leaf 98 2 :: q1).Perm (Node.leaf 98 2 :: [Node.leaf 97 3]) :=
          hp1.trans (by decide)
        exact h1.cons_inv
      have hq1e := List.perm_singleton.1 hq1p
      subst hq1e
      have hpop2 : S.pqPop [Node.leaf 98 2, Node.leaf 97 3] = [Node.leaf 97 3] :=
        List.perm_singleton.1 (S.pqPop_perm _ _)
      rw [mergeLoop_step S 2 _ _ q _ hq1, hpop2]
      have hw : wrapInt ((Node.leaf 99 1).freq + (Node.leaf 98 2).freq) = 3 := by decide
      rw [hw]
      rcases perm_pair (S.pqPush_perm [Node.leaf 97 3]
          (Node.mk 0 3 (Node.leaf 99 1) (Node.leaf 98 2))) with h | h
      · right
        rw [h, mergeLoop_two]
        have hw2 : wrapInt ((Node.mk 0 3 (Node.leaf 99 1) (Node.leaf 98 2)).freq
            + (Node.leaf 97 3).freq) = 6 := by decide
        rw [hw2]
      · left
        rw [h, mergeLoop_two]
        have hw2 : wrapInt ((Node.leaf 97 3).freq
            + (Node.mk 0 3 (Node.leaf 99 1) (Node.leaf 98 2)).freq) = 6 := by decide
        rw [hw2]

theorem countFreq_aaabbc (S : StdLib) :
    (countFreq S [97, 97, 97, 98, 98, 99]).Perm [(97, 3), (98, 2), (99, 1)] := by
  obtain ⟨hnd, hk, hl⟩ := countFreq_spec S [97, 97, 97, 98, 98, 99]
  rw [List.perm_ext_iff_of_nodup (List.Nodup.of_map _ hnd) (by decide)]
  intro p
  constructor
  · intro hp
    obtain ⟨hmem, hval⟩ := countFreq_entry S _ p hp
    obtain ⟨k, v⟩ := p
    simp only [List.mem_cons, List.mem_singleton, List.not_mem_nil, or_false, or_self_left]
      at hmem
    simp only at hval
    rcases hmem with rfl | rfl | rfl <;> subst hval <;> decide
  · intro hp
    have hkey : p.1 ∈ (countFreq S [97, 97, 97, 98, 98, 99]).map Prod.fst := by
      rw [hk]
      simp only [List.mem_cons, List.mem_singleton, List.not_mem_nil, or_false] at hp
      rcases hp with rfl | rfl | rfl <;> decide
    have h := mem_lookup _ _ hkey
    rw [hl] at h
    simp only [List.mem_cons, List.mem_singleton, List.not_mem_nil, or_false] at hp
    rcases hp with rfl | rfl | rfl <;> exact h

/-- Whatever the library and the tie-break, decompressing the file written
    for "aaabbc" does not give back "aaabbc". -/
theorem decompress_compress_aaabbc (S : StdLib) (u : Uninit) :
    decompressFile S u (compressFile S [97, 97, 97, 98, 98, 99])
      ≠ Outcome.done [97, 97, 97, 98, 98, 99] := by
  have ht := countFreq_aaabbc S
  obtain ⟨hnd, hr⟩ := countFreq_wellFormed S [97, 97, 97, 98, 98, 99] (by decide)
  have hfile := compressFile_eq_encode S [97, 97, 97, 98, 98, 99]
  obtain ⟨hperm, hs⟩ := readFrequencyTable_written S u _
    (encodePayload (buildTree S (countFreq S [97, 97, 97, 98, 98, 99]))
      [97, 97, 97, 98, 98, 99]) hnd hr
  rw [decompressFile_eq, hfile, hs]
  rcases buildTree_aaabbc S _ ht with h1 | h1 <;>
    rcases buildTree_aaabbc S _ (hperm.trans ht) with h2 | h2 <;>
    rw [h2, h1] <;> decide

/-! ## Tables and trees of some inputs, whatever the library -/

/-- The table of an input, up to the iteration order of the map. -/
theorem countFreq_perm (S : StdLib) (B : List Nat) (t : FreqMap) (hnd : (t.map Prod.fst).Nodup)
    (hkeys : ∀ k, k ∈ t.map Prod.fst ↔ k ∈ B)
    (hval : ∀ p ∈ t, p.2 = wrapInt (B.count p.1)) : (countFreq S B).Perm t := by
  obtain ⟨hndc, hk, hl⟩ := countFreq_spec S B
  rw [List.perm_ext_iff_of_nodup (List.Nodup.of_map _ hndc) (List.Nodup.of_map _ hnd)]
  intro p
  constructor
  · intro hp
    obtain ⟨hmem, hv⟩ := countFreq_entry S B p hp
    have h1 := mem_lookup t p.1 ((hkeys p.1).2 hmem)
    have h2 := hval _ h1
    simp only at h2
    rw [h2, ← hv] at h1
    exact h1
  · intro hp
    have h1 := mem_lookup (countFreq S B) p.1 ((hk p.1).2 ((hkeys p.1).1
      (List.mem_map_of_mem Prod.fst hp)))
    rw [hl, ← hval p hp] at h1
    exact h1

theorem countFreq_ab (S : StdLib) : (countFreq S [97, 98]).Perm [(97, 1), (98, 1)] := by
  apply countFreq_perm S _ _ (by decide)
  · intro k
    simp
  · intro p hp
    simp only [List.mem_cons, List.mem_singleton, List.not_mem_nil, or_false] at hp
    rcases hp with rfl | rfl <;> decide

/-- Whatever the library, the tree for the table of "ab" has the two leaves
    under the root; their order is open. -/
theorem buildTree_ab (S : StdLib) (t : FreqMap) (ht : t.Perm [(97, 1), (98, 1)]) :
    buildTree S t = Node.mk 0 2 (Node.leaf 97 1) (Node.leaf 98 1) ∨
    buildTree S t = Node.mk 0 2 (Node.leaf 98 1) (Node.leaf 97 1) := by
  obtain ⟨hp, _⟩ := pushAll_perm S t []
  have hp0 : (t.foldl (fun pq p => S.pqPush pq (Node.leaf p.1 p.2)) []).Perm
      [Node.leaf 97 1, Node.leaf 98 1] := by
    refine hp.trans ?_
    simpa using ht.map (fun p => Node.leaf p.1 p.2)
  unfold buildTree
  simp only
  rcases perm_pair hp0 with h | h
  · left
    rw [h]
    show (match mergeLoop S (1 + 1) [Node.leaf 97 1, Node.leaf 98 1] with
      | [] => Node.nil
      | top :: _ => top) = _
    rw [mergeLoop_two]
    rfl
  · right
    rw [h]
    show (match mergeLoop S (1 + 1) [Node.leaf 98 1, Node.leaf 97 1] with
      | [] => Node.nil
      | top :: _ => top) = _
    rw [mergeLoop_two]
    rfl

theorem countFreq_abbc (S : StdLib) :
    (countFreq S [97, 98, 98, 99, 99, 99, 99, 99, 99, 99, 99, 99]).Perm
      [(97, 1), (98, 2), (99, 9)] := by
  apply countFreq_perm S _ _ (by decide)
  · intro k
    simp only [List.map_cons, List.map_nil, List.mem_cons, List.mem_singleton,
      List.not_mem_nil, or_false]
    tauto
  · intro p hp
    simp only [List.mem_cons, List.mem_singleton, List.not_mem_nil, or_false] at hp
    rcases hp with rfl | rfl | rfl <;> decide

/-- Whatever the library, the tree for the table {a:1, b:2, c:9} joins 'a'
    and 'b' first, 'a' to the left, and then that pair, to the left, with
    'c': no two frequencies are ever equal. -/
theorem buildTree_abbc (S : StdLib) (t : FreqMap) (ht : t.Perm [(97, 1), (98, 2), (99, 9)]) :
    buildTree S t
      = Node.mk 0 12 (Node.mk 0 3 (Node.leaf 97 1) (Node.leaf 98 2)) (Node.leaf 99 9) := by
  obtain ⟨hp, hi⟩ := pushAll_perm S t []
  have hi0 := hi S.pqInv_nil
  have hp0 : (t.foldl (fun pq p => S.pqPush pq (Node.leaf p.1 p.2)) []).Perm
      [Node.leaf 97 1, Node.leaf 98 2, Node.leaf 99 9] := by
    refine hp.trans ?_
    simpa using ht.map (fun p => Node.leaf p.1 p.2)
  have hlen : (t.foldl (fun pq p => S.pqPush pq (Node.leaf p.1 p.2)) []).length = 2 + 1 :=
    hp0.length_eq
  unfold buildTree
  simp only
  rw [hlen]
  generalize t.foldl (fun pq p => S.pqPush pq (Node.leaf p.1 p.2)) [] = pq0 at hp0 hi0
  match pq0, hp0, hi0 with
  | [], hp0, _ => simpa using hp0.length_eq
  | x :: q, hp0, hi0 =>
    have hx : x ∈ [Node.leaf 97 1, Node.leaf 98 2, Node.leaf 99 9] :=
      hp0.subset (List.mem_cons_self _ _)
    have hmem : ∀ y, y ∈ [Node.leaf 97 1, Node.leaf 98 2, Node.leaf 99 9] → y ≠ x → y ∈ q := by
      intro y hy hne
      rcases List.mem_cons.1 (hp0.symm.subset hy) with h | h
      · exact absurd h hne
      · exact h
    have hxa : x = Node.leaf 97 1 := by
      simp only [List.mem_cons, List.mem_singleton, List.not_mem_nil, or_false] at hx
      rcases hx with rfl | rfl | rfl
      · rfl
      · have := top_le S hi0 (hmem (Node.leaf 97 1) (by simp) (by decide))
        simp [Node.leaf, Node.freq] at this
      · have := top_le S hi0 (hmem (Node.leaf 97 1) (by simp) (by decide))
        simp [Node.leaf, Node.freq] at this
    subst hxa
    have hq : q.Perm [Node.leaf 98 2, Node.leaf 99 9] := hp0.cons_inv
    have hp1 := (S.pqPop_perm (Node.leaf 97 1) q).trans hq
    have hi1 := S.pqInv_pop _ _ hi0
    match hq1 : S.pqPop (Node.leaf 97 1 :: q), hp1, hi1 with
    | [], hp1, _ => simpa using hp1.length_eq
    | y :: q1, hp1, hi1 =>
      have hy : y ∈ [Node.leaf 98 2, Node.leaf 99 9] := hp1.subset (List.mem_cons_self _ _)
      have hyb : y = Node.leaf 98 2 := by
        simp only [List.mem_cons, List.mem_singleton, List.not_mem_nil, or_false] at hy
        rcases hy with rfl | rfl
        · rfl
        · have hb : Node.leaf 98 2 ∈ q1 := by
            rcases List.mem_cons.1 (hp1.symm.subset (by simp : Node.leaf 98 2 ∈ _)) with h | h
            · exact absurd h (by decide)
            · exact h
          have := top_le S hi1 hb
          simp [Node.leaf, Node.freq] at this
      subst hyb
      have hq1e := List.perm_singleton.1 (hp1.cons_inv)
      subst hq1e
      have hpop2 : S.pqPop [Node.leaf 98 2, Node.leaf 99 9] = [Node.leaf 99 9] :=
        List.perm_singleton.1 (S.pqPop_perm _ _)
      have hi2 : S.pqInv [Node.leaf 99 9] := hpop2 ▸ S.pqInv_pop _ _ hi1
      rw [mergeLoop_step S 2 _ _ q _ hq1, hpop2]
      have hw : wrapInt ((Node.leaf 97 1).freq + (Node.leaf 98 2).freq) = 3 := by decide
      rw [hw]
      have hi3 := S.pqInv_push [Node.leaf 99 9]
        (Node.mk 0 3 (Node.leaf 97 1) (Node.leaf 98 2)) hi2
      rcases perm_pair (S.pqPush_perm [Node.leaf 99 9]
          (Node.mk 0 3 (Node.leaf 97 1) (Node.leaf 98 2))) with h | h
      · rw [h, mergeLoop_two]
        have hw2 : wrapInt ((Node.mk 0 3 (Node.leaf 97 1) (Node.leaf 98 2)).freq
            + (Node.leaf 99 9).freq) = 12 := by decide
        rw [hw2]
      · rw [h] at hi3
        have := top_le S hi3 (List.mem_singleton_self _)
        simp [Node.leaf, Node.freq] at this

/-! ## The table read from a header cut inside its entries -/

theorem readEntries_ne_nil (S : StdLib) (u : Uninit) : ∀ (k i : Nat) (s : IStream)
    (acc : FreqMap), (acc ≠ [] ∨ 1 ≤ k) → (readEntries S u k i s acc).1 ≠ [] := by
  intro k
  induction k with
  | zero =>
    intro i s acc h
    rcases h with h | h
    · exact h
    · omega
  | succ k ih =>
    intro i s acc _
    unfold readEntries
    simp only
    apply ih
    left
    intro h0
    have hk := (assign_keys S acc (ofLeBytes (s.read 1 (u.ch i)).1)
      (intOfBytes ((s.read 1 (u.ch i)).2.read 4 (u.f i)).1)
      (ofLeBytes (s.read 1 (u.ch i)).1)).2 (Or.inl rfl)
    rw [h0] at hk
    cases hk

/-- When the 8 bytes of the entry count are there and the entries are cut
    short, the loop still runs once for every declared entry, and the table
    returned has an entry. -/
theorem readFrequencyTable_cut (S : StdLib) (u : Uninit) (t : FreqMap) (rest : List Nat)
    (n : Nat) (hlen : t.length ≤ 256) (h8 : 8 ≤ n) (hn : n < 8 + 5 * t.length) :
    (readFrequencyTable S u
      (IStream.openFile ((writeFrequencyTable t ++ rest).take n))).1 ≠ [] := by
  have hle : n ≤ (writeFrequencyTable t).length := by
    rw [length_writeFrequencyTable]; omega
  rw [List.take_append_of_le_length hle, writeFrequencyTable_eq, readFrequencyTable_eq]
  apply readEntries_ne_nil
  right
  unfold IStream.openFile
  have htake : (leBytes 8 t.length ++ t.flatMap (fun p => leBytes 1 p.1 ++ intBytes p.2)).take n
      = leBytes 8 t.length
        ++ (t.flatMap (fun p => leBytes 1 p.1 ++ intBytes p.2)).take (n - 8) := by
    rw [List.take_append_eq_append_take, length_leBytes,
      List.take_of_length_le (by rw [length_leBytes]; exact h8)]
  rw [htake, IStream.read_append _ _ _ 8 (length_leBytes 8 _)]
  simp only
  rw [ofLeBytes_leBytes, Nat.mod_eq_of_lt (by norm_num; omega)]
  omega

theorem payloadOf_eq (S : StdLib) (B payload : List Nat)
    (h : compressFile S B = writeFrequencyTable (countFreq S B) ++ payload) :
    payloadOf S B = payload := by
  unfold payloadOf
  rw [h, ← length_writeFrequencyTable, List.drop_left]

/-! # The claims -/

/-- C1 (round trip, refuted by the code): on the input "aaabbc" the compressed
    payload has 9 code bits and 7 padding bits, and `decompressFile` decodes
    the padding too.  Whatever the library and its tie-break, the output is
    not "aaabbc"; with the library `refStd` it is "aaabbc" followed by seven
    more symbols. -/
theorem roundtrip_aaabbc (S : StdLib) (u : Uninit) :
    decompressFile S u (compressFile S [97, 97, 97, 98, 98, 99])
      ≠ Outcome.done [97, 97, 97, 98, 98, 99] ∧
    decompressFile refStd zeroUninit (compressFile refStd [97, 97, 97, 98, 98, 99])
      = Outcome.done [97, 97, 97, 98, 98, 99, 97, 97, 97, 97, 97, 97, 97] :=
  ⟨decompress_compress_aaabbc S u, by decide⟩

/-- C2 (degenerate alphabet, refuted by the code): when the input is `n ≥ 1`
    copies of one byte, the root is a lone leaf, its code is the empty string,
    no payload is written, and `decompressFile` writes nothing at all. -/
theorem single_symbol_output_empty (S : StdLib) (u : Uninit) (c n : Nat) (hc : c < 256)
    (hn : 1 ≤ n) :
    decompressFile S u (compressFile S (List.replicate n c)) = Outcome.done [] := by
  apply decompress_short S u
  · intro b hb
    rw [(List.mem_replicate.1 hb).2]
    exact hc
  · rw [countFreq_replicate S c n hn]
    simp

/-- Witness of C2 on the input "a". -/
theorem single_symbol_output_empty_witness :
    (97 < 256 ∧ 1 ≤ 1) ∧
    decompressFile refStd zeroUninit (compressFile refStd [97]) = Outcome.done [] :=
  ⟨by decide, single_symbol_output_empty refStd zeroUninit 97 1 (by decide) (by decide)⟩

/-- C3 (padding decoded as symbols): whatever the library and the order of
    the two leaves in the trees of the encoder and of the decoder, for the
    input "ab" the header declares 2 symbols in total, and `decompressFile`
    run on the file of `compressFile` emits 8 symbols, one for each bit of
    the payload byte: the 2 code bits and the 6 zero bits of `flush`. -/
theorem padding_decoded_ab (S : StdLib) (u : Uninit) :
    ((readFrequencyTable S u
        (IStream.openFile (compressFile S [97, 98]))).1.map Prod.snd).sum = 2 ∧
    ∃ out, decompressFile S u (compressFile S [97, 98]) = Outcome.done out ∧
      out.length = 8 := by
  have ht := countFreq_ab S
  obtain ⟨hnd, hr⟩ := countFreq_wellFormed S [97, 98] (by decide)
  have hfile := compressFile_eq_encode S [97, 98]
  obtain ⟨hperm, hs⟩ := readFrequencyTable_written S u _
    (encodePayload (buildTree S (countFreq S [97, 98])) [97, 98]) hnd hr
  constructor
  · rw [hfile, ((hperm.trans ht).map Prod.snd).sum_eq]
    rfl
  · rw [decompressFile_eq, hfile, hs]
    rcases buildTree_ab S _ ht with h1 | h1 <;>
      rcases buildTree_ab S _ (hperm.trans ht) with h2 | h2 <;>
      rw [h2, h1] <;> exact ⟨_, rfl, rfl⟩

/-- C4 (empty input): the file written for the empty input is the 8-byte
    entry count 0 and nothing else, the table is empty, `buildTree` returns
    the null pointer, and decompressing the file writes nothing. -/
theorem empty_input (S : StdLib) (u : Uninit) :
    compressFile S [] = leBytes 8 0 ∧
    compressFile S [] = [0, 0, 0, 0, 0, 0, 0, 0] ∧
    countFreq S [] = [] ∧
    payloadOf S [] = [] ∧
    buildTree S (countFreq S []) = Node.nil ∧
    decompressFile S u (compressFile S []) = Outcome.done [] := by
  have h1 : compressFile S [] = [0, 0, 0, 0, 0, 0, 0, 0] := by
    simp [compressFile, countFreq, writeFrequencyTable, leBytes, buildTree, mergeLoop,
      generateCodes, BitWriter.new, BitWriter.flush]
  have h2 : buildTree S [] = Node.nil := by simp [buildTree, mergeLoop]
  refine ⟨by rw [h1]; simp [leBytes], h1, rfl, ?_, h2, ?_⟩
  · unfold payloadOf
    rw [h1]
    simp [countFreq]
  · rw [h1]
    simp [decompressFile, readFrequencyTable, IStream.openFile, IStream.read, ofLeBytes,
      readEntries, h2, decodeLoop, BitReader.readBit, BitReader.new, IStream.get]

/-- C5 (prefix-free codes): in the mapping that `generateCodes` produces from
    the tree of a table with pairwise distinct symbols, the code of a symbol
    is never a prefix of the code of a different symbol. -/
theorem codes_prefix_free (S : StdLib) (t : FreqMap) (_hnd : (t.map Prod.fst).Nodup)
    (p q : Nat × List Char)
    (hp : p ∈ generateCodes (buildTree S t) [] [])
    (hq : q ∈ generateCodes (buildTree S t) [] [])
    (hne : p.1 ≠ q.1) : ¬ p.2 <+: q.2 :=
  generateCodes_prefix_free (buildTree S t) p q hp hq hne

/-- Witness of C5 on the table of "aaabbc". -/
theorem codes_prefix_free_witness :
    ([(97, 3), (98, 2), (99, 1)].map Prod.fst).Nodup ∧
    ((97, ['0']) ∈ generateCodes (buildTree refStd [(97, 3), (98, 2), (99, 1)]) [] [] ∧
     (99, ['1', '0']) ∈ generateCodes (buildTree refStd [(97, 3), (98, 2), (99, 1)]) [] []) ∧
    ¬ ['0'] <+: ['1', '0'] :=
  ⟨by decide, by decide,
    codes_prefix_free refStd [(97, 3), (98, 2), (99, 1)] (by decide) (97, ['0'])
      (99, ['1', '0']) (by decide) (by decide) (by decide)⟩

/-- C6 (counterexample): for an input of 2^31 equal bytes the `int` count
    wraps around; the entry of the table holds -2^31, not the number of
    occurrences. -/
theorem count_wraps_at_two_pow_31 :
    (0, (-2147483648 : Int)) ∈ countFreq refStd (List.replicate 2147483648 0) ∧
    (List.replicate 2147483648 0).count 0 = 2147483648 := by
  refine ⟨?_, List.count_replicate_self _ _⟩
  rw [countFreq_replicate refStd 0 2147483648 (by norm_num)]
  simp [wrapInt]

/-- C6 (amended): when no byte value occurs 2^31 times or more in `B`, the
    table that `compressFile` builds has one entry for each byte value that
    occurs in `B` and for no other, the count of an entry is the number of
    occurrences of its byte (so it is at least 1), and the counts sum to the
    length of `B`. -/
theorem frequency_conservation (S : StdLib) (B : List Nat)
    (hB : ∀ c, B.count c < 2147483648) :
    ((countFreq S B).map Prod.fst).Nodup ∧
    (∀ c, hasKey (countFreq S B) c = true ↔ c ∈ B) ∧
    (∀ p ∈ countFreq S B, p.2 = (B.count p.1 : Int) ∧ 1 ≤ p.2) ∧
    ((countFreq S B).map Prod.snd).sum = (B.length : Int) := by
  obtain ⟨hnd, hk, _⟩ := countFreq_spec S B
  refine ⟨hnd, fun c => ?_, countFreq_exact S B hB, countFreq_sum S B hB⟩
  rw [hasKey_iff, hk]

/-- Witness of the amended C6 on the input "aaabbc". -/
theorem frequency_conservation_witness :
    (∀ c, [97, 97, 97, 98, 98, 99].count c < 2147483648) ∧
    (((countFreq refStd [97, 97, 97, 98, 98, 99]).map Prod.fst).Nodup ∧
    (∀ c, hasKey (countFreq refStd [97, 97, 97, 98, 98, 99]) c = true
      ↔ c ∈ [97, 97, 97, 98, 98, 99]) ∧
    (∀ p ∈ countFreq refStd [97, 97, 97, 98, 98, 99],
      p.2 = ([97, 97, 97, 98, 98, 99].count p.1 : Int) ∧ 1 ≤ p.2) ∧
    ((countFreq refStd [97, 97, 97, 98, 98, 99]).map Prod.snd).sum
      = (([97, 97, 97, 98, 98, 99] : List Nat).length : Int)) :=
  ⟨fun c => Nat.lt_of_le_of_lt (List.count_le_length c _) (by decide : (6 : Nat) < 2147483648),
    frequency_conservation refStd [97, 97, 97, 98, 98, 99]
      (fun c => Nat.lt_of_le_of_lt (List.count_le_length c _) (by decide : (6 : Nat) < 2147483648))⟩

/-- C7 (header round trip): for a table `t` with distinct byte symbols and
    counts in the range of a 4-byte `int`, `readFrequencyTable` on the bytes
    of `writeFrequencyTable t` followed by any bytes `rest` returns the
    entries of `t` (the same symbol-to-count mapping) and leaves the stream,
    in good state, at `rest`, having consumed the `8 + 5 * length t` header
    bytes. -/
theorem header_roundtrip (S : StdLib) (u : Uninit) (t : FreqMap) (rest : List Nat)
    (hnd : (t.map Prod.fst).Nodup) (hsym : ∀ p ∈ t, p.1 < 256)
    (hcnt : ∀ p ∈ t, -2147483648 ≤ p.2 ∧ p.2 < 2147483648) :
    (readFrequencyTable S u (IStream.openFile (writeFrequencyTable t ++ rest))).1.Perm t ∧
    (∀ k, lookup (readFrequencyTable S u
        (IStream.openFile (writeFrequencyTable t ++ rest))).1 k = lookup t k) ∧
    (∀ k, hasKey (readFrequencyTable S u
        (IStream.openFile (writeFrequencyTable t ++ rest))).1 k = hasKey t k) ∧
    (readFrequencyTable S u (IStream.openFile (writeFrequencyTable t ++ rest))).2
      = { data := rest, good := true } ∧
    (writeFrequencyTable t).length = 8 + 5 * t.length ∧
    (writeFrequencyTable t ++ rest).drop (8 + 5 * t.length) = rest := by
  obtain ⟨hperm, hs⟩ := readFrequencyTable_written S u t rest hnd
    (fun p hp => ⟨hsym p hp, hcnt p hp⟩)
  have hnd2 := ((hperm.map Prod.fst).nodup_iff).2 hnd
  refine ⟨hperm, fun k => lookup_perm hperm hnd2 k, fun k => ?_, hs,
    length_writeFrequencyTable t, ?_⟩
  · rw [Bool.eq_iff_iff, hasKey_iff, hasKey_iff]
    exact (hperm.map Prod.fst).mem_iff
  · rw [← length_writeFrequencyTable, List.drop_left]

/-- Witness of C7 on the table of "aaabbc" followed by two payload bytes. -/
theorem header_roundtrip_witness :
    (([(97, 3), (98, 2), (99, 1)] : FreqMap).map Prod.fst).Nodup ∧
    (∀ p ∈ ([(97, 3), (98, 2), (99, 1)] : FreqMap), p.1 < 256) ∧
    (∀ p ∈ ([(97, 3), (98, 2), (99, 1)] : FreqMap), -2147483648 ≤ p.2 ∧ p.2 < 2147483648) ∧
    (readFrequencyTable refStd zeroUninit
      (IStream.openFile (writeFrequencyTable [(97, 3), (98, 2), (99, 1)] ++ [31, 0]))).2
      = { data := [31, 0], good := true } :=
  ⟨by decide, by decide, by decide,
    (header_roundtrip refStd zeroUninit [(97, 3), (98, 2), (99, 1)] [31, 0]
      (by decide) (by decide) (by decide)).2.2.2.1⟩

/-- C8 (truncated header read silently): for every non-empty input `B` and
    every cut of its compressed file that keeps the 8 bytes of the entry
    count and ends inside the entries, whatever the library and whatever the
    uninitialised variables hold, no failure is reported:
    `readFrequencyTable` returns a table with at least one entry and leaves
    the stream in the failed state, and `decompressFile` ends normally with
    an empty output, which is not `B`. -/
theorem truncated_header_no_output (S : StdLib) (u : Uninit) (B : List Nat) (n : Nat)
    (hB : ∀ b ∈ B, b < 256) (h8 : 8 ≤ n) (hn : n < 8 + 5 * (countFreq S B).length) :
    B ≠ [] ∧
    (readFrequencyTable S u (IStream.openFile ((compressFile S B).take n))).1 ≠ [] ∧
    (readFrequencyTable S u (IStream.openFile ((compressFile S B).take n))).2.good = false ∧
    decompressFile S u ((compressFile S B).take n) = Outcome.done [] := by
  obtain ⟨hnd, hr⟩ := countFreq_wellFormed S B hB
  obtain ⟨payload, hfile⟩ := compressFile_eq S B
  have hlen := length_le_of_keys_lt _ hnd (fun p hp => (hr p hp).1)
  obtain ⟨hbad, hdone⟩ := decompress_truncated S u B n hB hn
  refine ⟨?_, ?_, hbad, hdone⟩
  · intro h0
    rw [h0] at hn
    simp [countFreq] at hn
    omega
  · rw [hfile]
    exact readFrequencyTable_cut S u (countFreq S B) payload n hlen h8 hn

/-- Witness of C8: the file of "aaabbc" cut after 17 of its 23 header
    bytes. -/
theorem truncated_header_no_output_witness :
    ((∀ b ∈ [97, 97, 97, 98, 98, 99], b < 256) ∧ 8 ≤ 17 ∧
      17 < 8 + 5 * (countFreq refStd [97, 97, 97, 98, 98, 99]).length) ∧
    (readFrequencyTable refStd zeroUninit
      (IStream.openFile ((compressFile refStd [97, 97, 97, 98, 98, 99]).take 17))).2.good
      = false ∧
    decompressFile refStd zeroUninit ((compressFile refStd [97, 97, 97, 98, 98, 99]).take 17)
      = Outcome.done [] :=
  ⟨by decide,
    (truncated_header_no_output refStd zeroUninit [97, 97, 97, 98, 98, 99] 17
      (by decide) (by decide) (by decide)).2.2⟩

/-- C9 (traversal safety): decoding the file written for any byte sequence
    ends normally, so no field is ever read through a null pointer; and with
    the tree of a table of two entries or more the loop never does so, from
    any state of the bit reader, on any stream and for any number of
    rounds. -/
theorem traversal_safe (S : StdLib) (u : Uninit) (B : List Nat) (hB : ∀ b ∈ B, b < 256) :
    (∃ out, decompressFile S u (compressFile S B) = Outcome.done out) ∧
    (∀ t : FreqMap, 2 ≤ t.length → ∀ (fuel : Nat) (r : BitReader) (s : IStream)
      (out : List Nat),
      decodeLoop (buildTree S t) fuel r s (buildTree S t) out ≠ Outcome.nullDeref) := by
  constructor
  · obtain ⟨_, _, _, _, _, out, hout, _⟩ := decompress_compress_run S u B hB
    exact ⟨out, hout⟩
  · intro t ht fuel r s out
    have hin := buildTree_inner S t ht
    exact decodeLoop_inner_safe _ hin fuel r s _ out hin

/-- Witness of C9 on the input "aaabbc". -/
theorem traversal_safe_witness :
    (∀ b ∈ [97, 97, 97, 98, 98, 99], b < 256) ∧
    ((∃ out, decompressFile refStd zeroUninit (compressFile refStd [97, 97, 97, 98, 98, 99])
      = Outcome.done out) ∧
    (∀ t : FreqMap, 2 ≤ t.length → ∀ (fuel : Nat) (r : BitReader) (s : IStream)
      (out : List Nat),
      decodeLoop (buildTree refStd t) fuel r s (buildTree refStd t) out
        ≠ Outcome.nullDeref)) :=
  ⟨by decide, traversal_safe refStd zeroUninit [97, 97, 97, 98, 98, 99] (by decide)⟩

/-- C10 (corrupt stream, refuted by the code): on a header with exactly one
    table entry followed by a payload byte, `decompressFile` does not fail
    with an error: the first bit moves the cursor to the absent child of the
    lone leaf and the loop then reads a field through that null pointer. -/
theorem lone_leaf_null_dereference (S : StdLib) (u : Uninit) (c : Nat) (f : Int) (b : Nat)
    (rest : List Nat) (hc : c < 256) (hf : -2147483648 ≤ f ∧ f < 2147483648) :
    decompressFile S u (writeFrequencyTable [(c, f)] ++ b :: rest) = Outcome.nullDeref :=
  decompress_lone_leaf S u c f b rest hc hf.1 hf.2

/-- Witness of C10: the header of the table ('a', 1) followed by one byte. -/
theorem lone_leaf_null_dereference_witness :
    (97 < 256 ∧ ((-2147483648 : Int) ≤ 1 ∧ (1 : Int) < 2147483648)) ∧
    decompressFile refStd zeroUninit [1, 0, 0, 0, 0, 0, 0, 0, 97, 1, 0, 0, 0, 0]
      = Outcome.nullDeref :=
  ⟨by decide,
    lone_leaf_null_dereference refStd zeroUninit 97 1 0 [] (by decide) (by decide)⟩

/-! ## Packing bits into bytes -/

theorem writeBits_eq_foldl (w : BitWriter) (code : List Char) :
    w.writeBits code = (codeBits code).foldl BitWriter.writeBit w := by
  unfold BitWriter.writeBits codeBits
  rw [List.foldl_map]

theorem foldl_writeBit_after (pre : List Nat) (bits : List Bool) : ∀ w : BitWriter,
    bits.foldl BitWriter.writeBit (BitWriter.after pre w)
      = BitWriter.after pre (bits.foldl BitWriter.writeBit w) := by
  induction bits with
  | nil => intro w; rfl
  | cons b bits ih =>
    intro w
    simp only [List.foldl_cons]
    rw [writeBit_after, ih]

/-- Eight bits fill one byte: it is written and the buffer is reset. -/
theorem writeBit_byte : ∀ b0 b1 b2 b3 b4 b5 b6 b7 : Bool,
    [b0, b1, b2, b3, b4, b5, b6, b7].foldl BitWriter.writeBit (BitWriter.new [])
      = { out := [byteOfBits [b0, b1, b2, b3, b4, b5, b6, b7]], buffer := 0, bitCount := 0 } ∧
    bitsOfByte (byteOfBits [b0, b1, b2, b3, b4, b5, b6, b7]) = [b0, b1, b2, b3, b4, b5, b6, b7] ∧
    byteOfBits [b0, b1, b2, b3, b4, b5, b6, b7] < 256 := by
  decide

/-- Fewer than eight bits stay in the buffer; `flush` writes them, shifted to
    the high end of one byte. -/
theorem flush_partial (l : List Bool) (hlen : l.length < 8) (hne : l ≠ []) :
    (l.foldl BitWriter.writeBit (BitWriter.new [])).flush.out
      = [byteOfBits (l ++ List.replicate (8 - l.length) false)] ∧
    bitsOfByte (byteOfBits (l ++ List.replicate (8 - l.length) false))
      = l ++ List.replicate (8 - l.length) false ∧
    byteOfBits (l ++ List.replicate (8 - l.length) false) < 256 := by
  match l, hlen, hne with
  | [], _, hne => exact absurd rfl hne
  | [a], _, _ => revert a; decide
  | [a, b], _, _ => revert a b; decide
  | [a, b, c], _, _ => revert a b c; decide
  | [a, b, c, d], _, _ => revert a b c d; decide
  | [a, b, c, d, e], _, _ => revert a b c d e; decide
  | [a, b, c, d, e, f], _, _ => revert a b c d e f; decide
  | [a, b, c, d, e, f, g], _, _ => revert a b c d e f g; decide
  | _ :: _ :: _ :: _ :: _ :: _ :: _ :: _ :: _, hlen, _ => simp at hlen; omega

/-- What `flush` leaves in the file after the bits `bits` have been written:
    the bits, followed by zero bits up to the next byte boundary. -/
theorem writer_bits : ∀ (n : Nat) (bits : List Bool), bits.length = n →
    bitsOfBytes (bits.foldl BitWriter.writeBit (BitWriter.new [])).flush.out
      = bits ++ List.replicate ((8 - n % 8) % 8) false ∧
    (bits.foldl BitWriter.writeBit (BitWriter.new [])).flush.out.length = (n + 7) / 8 ∧
    ∀ b ∈ (bits.foldl BitWriter.writeBit (BitWriter.new [])).flush.out, b < 256 := by
  intro n
  induction n using Nat.strong_induction_on with
  | _ n ih =>
    intro bits hn
    match bits, hn with
    | b0 :: b1 :: b2 :: b3 :: b4 :: b5 :: b6 :: b7 :: rest, hn =>
      obtain ⟨hw, hb, hlt⟩ := writeBit_byte b0 b1 b2 b3 b4 b5 b6 b7
      have hsplit : (b0 :: b1 :: b2 :: b3 :: b4 :: b5 :: b6 :: b7 :: rest)
          = [b0, b1, b2, b3, b4, b5, b6, b7] ++ rest := rfl
      have hafter : ∀ v : Nat, BitWriter.mk [v] 0 0 = BitWriter.after [v] (BitWriter.new []) := by
        intro v
        simp [BitWriter.after, BitWriter.new]
      have hrest := ih rest.length (by simp at hn; omega) rest rfl
      rw [hsplit, List.foldl_append, hw, hafter, foldl_writeBit_after, flush_after]
      have hn8 : n = rest.length + 8 := by simp at hn; omega
      obtain ⟨h1, h2, h3⟩ := hrest
      refine ⟨?_, ?_, ?_⟩
      · simp only [BitWriter.after, bitsOfBytes, List.singleton_append, List.flatMap_cons]
        simp only [bitsOfBytes] at h1
        rw [h1, hb, hn8]
        simp only [List.cons_append, List.nil_append, List.cons.injEq, true_and]
        congr 2
        omega
      · simp only [BitWriter.after, List.singleton_append, List.length_cons, h2, hn8]
        omega
      · intro b hb2
        simp only [BitWriter.after, List.singleton_append, List.mem_cons] at hb2
        rcases hb2 with rfl | hb2
        · exact hlt
        · exact h3 b hb2
    | [], hn =>
      subst hn
      simp [BitWriter.new, BitWriter.flush, bitsOfBytes]
    | [a], hn =>
      subst hn
      obtain ⟨h1, h2, h3⟩ := flush_partial [a] (by simp) (by simp)
      rw [h1]
      exact ⟨by simpa [bitsOfBytes] using h2, by simp, by simpa using h3⟩
    | [a, b], hn =>
      subst hn
      obtain ⟨h1, h2, h3⟩ := flush_partial [a, b] (by simp) (by simp)
      rw [h1]
      exact ⟨by simpa [bitsOfBytes] using h2, by simp, by simpa using h3⟩
    | [a, b, c], hn =>
      subst hn
      obtain ⟨h1, h2, h3⟩ := flush_partial [a, b, c] (by simp) (by simp)
      rw [h1]
      exact ⟨by simpa [bitsOfBytes] using h2, by simp, by simpa using h3⟩
    | [a, b, c, d], hn =>
      subst hn
      obtain ⟨h1, h2, h3⟩ := flush_partial [a, b, c, d] (by simp) (by simp)
      rw [h1]
      exact ⟨by simpa [bitsOfBytes] using h2, by simp, by simpa using h3⟩
    | [a, b, c, d, e], hn =>
      subst hn
      obtain ⟨h1, h2, h3⟩ := flush_partial [a, b, c, d, e] (by simp) (by simp)
      rw [h1]
      exact ⟨by simpa [bitsOfBytes] using h2, by simp, by simpa using h3⟩
    | [a, b, c, d, e, f], hn =>
      subst hn
      obtain ⟨h1, h2, h3⟩ := flush_partial [a, b, c, d, e, f] (by simp) (by simp)
      rw [h1]
      exact ⟨by simpa [bitsOfBytes] using h2, by simp, by simpa using h3⟩
    | [a, b, c, d, e, f, g], hn =>
      subst hn
      obtain ⟨h1, h2, h3⟩ := flush_partial [a, b, c, d, e, f, g] (by simp) (by simp)
      rw [h1]
      exact ⟨by simpa [bitsOfBytes] using h2, by simp, by simpa using h3⟩

/-! ## Reading bits -/

theorem shift_and_one (b k : Nat) : (b >>> k) &&& 1 = (b.testBit k).toNat := by
  rw [Nat.toNat_testBit, Nat.and_one_is_mod, Nat.shiftRight_eq_div_pow]

theorem pending_succ (buf k : Nat) :
    pending { buffer := buf, bitCount := k + 1 }
      = buf.testBit k :: pending { buffer := buf, bitCount := k } := by
  unfold pending
  simp only [List.range_succ_eq_map, List.map_cons, List.map_map]
  congr 1
  apply List.map_congr_left
  intro j _
  simp only [Function.comp, Nat.succ_eq_add_one]
  congr 1
  omega

theorem pending_zero (buf : Nat) : pending { buffer := buf, bitCount := 0 } = [] := rfl

theorem bitsOfByte_eq (b : Nat) :
    bitsOfByte b = b.testBit 7 :: pending { buffer := b, bitCount := 7 } := by
  have := pending_succ b 7
  rw [← this]
  rfl

theorem streamBits_cons (b : Nat) (rest : List Nat) :
    streamBits { data := b :: rest, good := true }
      = bitsOfByte b ++ streamBits { data := rest, good := true } := by
  simp [streamBits, bitsOfBytes]

/-- A call of `readBit` when no bit is left: the result is -1. -/
theorem readBit_nil (r : BitReader) (s : IStream) (h : pending r ++ streamBits s = []) :
    (r.readBit s).1 = -1 ∧ pending (r.readBit s).2.1 ++ streamBits (r.readBit s).2.2 = [] := by
  obtain ⟨buf, k⟩ := r
  cases k with
  | succ k => rw [pending_succ] at h; simp at h
  | zero =>
    obtain ⟨data, good⟩ := s
    cases good with
    | false => simp [BitReader.readBit, IStream.get, pending, streamBits]
    | true =>
      cases data with
      | nil => simp [BitReader.readBit, IStream.get, pending, streamBits]
      | cons b rest =>
        rw [streamBits_cons, bitsOfByte_eq] at h
        simp at h

/-- A call of `readBit` when bits are left: the result is the next bit. -/
theorem readBit_cons (r : BitReader) (s : IStream) (b : Bool) (rest : List Bool)
    (h : pending r ++ streamBits s = b :: rest) :
    (r.readBit s).1 = (b.toNat : Int) ∧
    pending (r.readBit s).2.1 ++ streamBits (r.readBit s).2.2 = rest := by
  obtain ⟨buf, k⟩ := r
  cases k with
  | succ k =>
    rw [pending_succ, List.cons_append, List.cons.injEq] at h
    simp only [BitReader.readBit, BitReader.takeBit, Nat.add_one_ne_zero, if_false,
      Nat.add_sub_cancel]
    rw [shift_and_one, h.1]
    exact ⟨rfl, h.2⟩
  | zero =>
    obtain ⟨data, good⟩ := s
    cases good with
    | false => simp [pending, streamBits] at h
    | true =>
      cases data with
      | nil => simp [pending, streamBits, bitsOfBytes] at h
      | cons b0 rest0 =>
        rw [streamBits_cons, bitsOfByte_eq, pending_zero, List.nil_append, List.cons_append,
          List.cons.injEq] at h
        simp only [BitReader.readBit, IStream.get, if_true, BitReader.takeBit]
        rw [shift_and_one, h.1]
        exact ⟨rfl, h.2⟩

theorem take_append_replicate_succ (L : List Int) (k : Nat) (x : Int) :
    (L ++ List.replicate (k + 1) x).take k = (L ++ List.replicate k x).take k := by
  rw [List.replicate_succ', ← List.append_assoc]
  exact List.take_append_of_le_length (by simp)

/-- Successive calls of `readBit` return the bits that are left, in order,
    and -1 from then on. -/
theorem readBits_eq : ∀ (k : Nat) (r : BitReader) (s : IStream),
    readBits k r s
      = (((pending r ++ streamBits s).map (fun (b : Bool) => (b.toNat : Int)))
          ++ List.replicate k (-1)).take k := by
  intro k
  induction k with
  | zero => intro r s; simp [readBits]
  | succ k ih =>
    intro r s
    unfold readBits
    cases hb : pending r ++ streamBits s with
    | nil =>
      obtain ⟨h1, h2⟩ := readBit_nil r s hb
      rcases hrb : r.readBit s with ⟨bit, r1, s1⟩
      rw [hrb] at h1 h2
      simp only at h1 h2 ⊢
      rw [ih, h2, h1]
      simp only [List.map_nil, List.nil_append, List.replicate_succ, List.take_succ_cons,
        List.cons.injEq, true_and]
    | cons b rest =>
      obtain ⟨h1, h2⟩ := readBit_cons r s b rest hb
      rcases hrb : r.readBit s with ⟨bit, r1, s1⟩
      rw [hrb] at h1 h2
      simp only at h1 h2 ⊢
      rw [ih, h2, h1]
      simp only [List.map_cons, List.cons_append, List.take_succ_cons, List.cons.injEq, true_and]
      exact (take_append_replicate_succ _ k (-1)).symm

/-- The loop of `decompressFile` runs the rounds of `decodeBits` on the bits
    that the reader and the stream still hold. -/
theorem decodeLoop_eq_decodeBits (root : Node) : ∀ (fuel : Nat) (r : BitReader) (s : IStream)
    (current : Node) (out : List Nat),
    (pending r ++ streamBits s).length < fuel →
    decodeLoop root fuel r s current out
      = Outcome.ofRounds (decodeBits root (pending r ++ streamBits s) current out) := by
  intro fuel
  induction fuel with
  | zero => intro r s current out h; exact absurd h (Nat.not_lt_zero _)
  | succ fuel ih =>
    intro r s current out hlen
    unfold decodeLoop
    cases hb : pending r ++ streamBits s with
    | nil =>
      obtain ⟨h1, _⟩ := readBit_nil r s hb
      rcases hrb : r.readBit s with ⟨bit, r1, s1⟩
      rw [hrb] at h1
      simp only at h1 ⊢
      rw [if_pos h1]
      rfl
    | cons b rest =>
      obtain ⟨h1, h2⟩ := readBit_cons r s b rest hb
      rcases hrb : r.readBit s with ⟨bit, r1, s1⟩
      rw [hrb] at h1 h2
      simp only at h1 h2 ⊢
      have hne : bit ≠ -1 := by rw [h1]; cases b <;> simp
      have h0 : (bit = 0) = (b = false) := by rw [h1]; cases b <;> simp
      rw [if_neg hne]
      have hlen2 : (pending r1 ++ streamBits s1).length < fuel := by
        rw [h2]; rw [hb] at hlen; simp at hlen; omega
      simp only [decodeBits, decodeStep, h0]
      cases hc : (if b = false then current.left else current.right) with
      | none => rfl
      | some c1 =>
        simp only
        cases hl : c1.left with
        | none => rfl
        | some l =>
          cases hr : c1.right with
          | none => rfl
          | some rr =>
            simp only
            by_cases hleaf : (l.isNull && rr.isNull) = true
            · rw [if_pos hleaf, if_pos hleaf, ih _ _ _ _ hlen2, h2]
            · rw [if_neg hleaf, if_neg hleaf, ih _ _ _ _ hlen2, h2]

/-! ## The code map -/

theorem getCode_setCode (m : CodeMap) (k : Nat) (v : List Char) (k1 : Nat) :
    getCode (setCode m k v) k1 = if k1 = k then v else getCode m k1 := by
  induction m with
  | nil =>
    simp only [setCode, getCode]
    by_cases e : k = k1
    · simp [e]
    · simp [e, Ne.symm e]
  | cons p m ih =>
    unfold setCode
    by_cases e : p.1 = k
    · rw [if_pos e]
      simp only [getCode]
      by_cases e1 : k = k1
      · simp [e1]
      · have : ¬ p.1 = k1 := fun h => e1 (e ▸ h)
        simp [e1, Ne.symm e1, this]
    · rw [if_neg e]
      simp only [getCode, ih]
      by_cases e1 : p.1 = k1
      · have : ¬ k1 = k := fun h => e (e1.trans h)
        simp [e1, this]
      · simp [e1]

theorem keys_setCode (m : CodeMap) (k : Nat) (v : List Char) (k1 : Nat) :
    k1 ∈ (setCode m k v).map Prod.fst ↔ k1 = k ∨ k1 ∈ m.map Prod.fst := by
  induction m with
  | nil => simp [setCode]
  | cons p m ih =>
    unfold setCode
    by_cases e : p.1 = k
    · rw [if_pos e]
      simp only [List.map_cons, List.mem_cons]
      constructor
      · rintro (h | h)
        · exact Or.inl h
        · exact Or.inr (Or.inr h)
      · rintro (h | h | h)
        · exact Or.inl h
        · exact Or.inl (h.trans e)
        · exact Or.inr h
    · rw [if_neg e]
      simp only [List.map_cons, List.mem_cons, ih]
      constructor
      · rintro (h | h | h)
        · exact Or.inr (Or.inl h)
        · exact Or.inl h
        · exact Or.inr (Or.inr h)
      · rintro (h | h | h)
        · exact Or.inr (Or.inl h)
        · exact Or.inl h
        · exact Or.inr (Or.inr h)

theorem nodup_setCode (m : CodeMap) (k : Nat) (v : List Char) (h : (m.map Prod.fst).Nodup) :
    ((setCode m k v).map Prod.fst).Nodup := by
  induction m with
  | nil => simp [setCode]
  | cons p m ih =>
    simp only [List.map_cons, List.nodup_cons] at h
    unfold setCode
    by_cases e : p.1 = k
    · rw [if_pos e]
      simp only [List.map_cons, List.nodup_cons]
      exact ⟨e ▸ h.1, h.2⟩
    · rw [if_neg e]
      simp only [List.map_cons, List.nodup_cons]
      refine ⟨fun hmem => ?_, ih h.2⟩
      rcases (keys_setCode m k v p.1).1 hmem with h1 | h1
      · exact e h1
      · exact h.1 h1

theorem foldl_setCode_spec (L : List (Nat × List Char)) : ∀ m : CodeMap,
    (m.map Prod.fst).Nodup →
    ((L.foldl (fun m p => setCode m p.1 p.2) m).map Prod.fst).Nodup ∧
    (∀ k, k ∈ (L.foldl (fun m p => setCode m p.1 p.2) m).map Prod.fst
      ↔ k ∈ m.map Prod.fst ∨ k ∈ L.map Prod.fst) ∧
    (∀ k, k ∉ L.map Prod.fst →
      getCode (L.foldl (fun m p => setCode m p.1 p.2) m) k = getCode m k) ∧
    ((L.map Prod.fst).Nodup → ∀ p ∈ L,
      getCode (L.foldl (fun m p => setCode m p.1 p.2) m) p.1 = p.2) := by
  induction L with
  | nil => intro m h; simp [h]
  | cons q L ih =>
    intro m h
    obtain ⟨h1, h2, h3, h4⟩ := ih (setCode m q.1 q.2) (nodup_setCode m q.1 q.2 h)
    simp only [List.foldl_cons, List.map_cons, List.mem_cons, not_or, List.nodup_cons]
    refine ⟨h1, fun k => ?_, fun k hk => ?_, fun hnd p hp => ?_⟩
    · rw [h2, keys_setCode]
      constructor
      · rintro ((h | h) | h)
        · exact Or.inr (Or.inl h)
        · exact Or.inl h
        · exact Or.inr (Or.inr h)
      · rintro (h | h | h)
        · exact Or.inl (Or.inr h)
        · exact Or.inl (Or.inl h)
        · exact Or.inr h
    · rw [h3 k hk.2, getCode_setCode, if_neg hk.1]
    · rcases hp with rfl | hp
      · rw [h3 _ hnd.1, getCode_setCode, if_pos rfl]
      · exact h4 hnd.2 p hp

theorem leafCodes_keys (n : Node) : ∀ str : List Char,
    (leafCodes n str).map Prod.fst = n.leaves.map Prod.fst := by
  induction n with
  | nil => intro str; rfl
  | mk c f l r ihl ihr =>
    intro str
    by_cases hleaf : (l.isNull && r.isNull) = true
    · have hl : l.isNull = true := by simp at hleaf; exact hleaf.1
      have hr : r.isNull = true := by simp at hleaf; exact hleaf.2
      simp [leafCodes, Node.leaves, hleaf, leafCodes_nil_of_isNull hl, leafCodes_nil_of_isNull hr]
    · simp only [leafCodes, Node.leaves, hleaf, Bool.false_eq_true, if_false, List.nil_append,
        List.map_append, ihl, ihr]

theorem walk_nil (code : List Char) : walk Node.nil code = Node.nil := by
  cases code <;> rfl

theorem walk_empty (n : Node) : walk n [] = n := by
  cases n <;> rfl

theorem walk_append (n : Node) (p q : List Char) : walk n (p ++ q) = walk (walk n p) q := by
  induction p generalizing n with
  | nil => rw [walk_empty, List.nil_append]
  | cons c p ih =>
    cases n with
    | nil => simp [walk, walk_nil]
    | mk ch f l r =>
      simp only [List.cons_append, walk]
      split <;> exact ih _

/-- The path recorded for a leaf leads to it, and consists of '0' and '1'. -/
theorem leafCodes_walk (n : Node) : ∀ (str : List Char) (p : Nat × List Char),
    p ∈ leafCodes n str →
    ∃ path f, p.2 = str ++ path ∧ walk n path = Node.leaf p.1 f ∧ (p.1, f) ∈ n.leaves ∧
      ∀ c ∈ path, c = '0' ∨ c = '1' := by
  induction n with
  | nil => intro str p h; cases h
  | mk ch f l r ihl ihr =>
    intro str p hp
    simp only [leafCodes, List.mem_append] at hp
    by_cases hleaf : (l.isNull && r.isNull) = true
    · have hl : l = Node.nil := by
        cases l with
        | nil => rfl
        | mk _ _ _ _ => simp [Node.isNull] at hleaf
      have hr : r = Node.nil := by
        cases r with
        | nil => rfl
        | mk _ _ _ _ => simp [Node.isNull] at hleaf
      subst hl hr
      simp only [Node.isNull, Bool.and_self, if_true, List.mem_singleton, leafCodes,
        List.not_mem_nil, or_false] at hp
      subst hp
      exact ⟨[], f, by simp, rfl, by simp [Node.leaves, Node.isNull], by simp⟩
    · simp only [hleaf, Bool.false_eq_true, if_false, List.not_mem_nil, false_or] at hp
      rcases hp with hp | hp
      · obtain ⟨path, f1, h1, h2, h3, h4⟩ := ihl _ p hp
        refine ⟨'0' :: path, f1, by rw [h1]; simp, by simpa [walk] using h2, ?_, ?_⟩
        · simp only [Node.leaves, hleaf, Bool.false_eq_true, if_false, List.mem_append]
          exact Or.inl h3
        · intro c hc
          rcases List.mem_cons.1 hc with rfl | hc
          · exact Or.inl rfl
          · exact h4 c hc
      · obtain ⟨path, f1, h1, h2, h3, h4⟩ := ihr _ p hp
        refine ⟨'1' :: path, f1, by rw [h1]; simp, ?_, ?_, ?_⟩
        · have : ¬ ('1' : Char) = '0' := by decide
          simpa [walk, this] using h2
        · simp only [Node.leaves, hleaf, Bool.false_eq_true, if_false, List.mem_append]
          exact Or.inr h3
        · intro c hc
          rcases List.mem_cons.1 hc with rfl | hc
          · exact Or.inr rfl
          · exact h4 c hc

/-- The code map of a tree whose leaves carry distinct symbols: one entry for
    each leaf symbol, holding the path to that leaf. -/
theorem generateCodes_spec (n : Node) (hnd : (n.leaves.map Prod.fst).Nodup) :
    ((generateCodes n [] []).map Prod.fst).Nodup ∧
    (∀ k, k ∈ (generateCodes n [] []).map Prod.fst ↔ k ∈ n.leaves.map Prod.fst) ∧
    (∀ p ∈ n.leaves, walk n (getCode (generateCodes n [] []) p.1) = Node.leaf p.1 p.2 ∧
      ∀ c ∈ getCode (generateCodes n [] []) p.1, c = '0' ∨ c = '1') := by
  rw [generateCodes_eq_foldl]
  obtain ⟨h1, h2, _, h4⟩ := foldl_setCode_spec (leafCodes n []) [] (by simp)
  rw [leafCodes_keys] at h2 h4
  refine ⟨h1, fun k => by rw [h2]; simp, fun p hp => ?_⟩
  have hk : p.1 ∈ (leafCodes n []).map Prod.fst := by
    rw [leafCodes_keys]; exact List.mem_map_of_mem _ hp
  obtain ⟨q, hq, hqk⟩ := List.mem_map.1 hk
  have hcode := h4 hnd q hq
  rw [hqk] at hcode
  obtain ⟨path, f, hpath, hwalk, hmem, hchars⟩ := leafCodes_walk n [] q hq
  rw [List.nil_append] at hpath
  rw [hqk] at hwalk hmem
  have hf : f = p.2 := by
    have h5 := List.inj_on_of_nodup_map hnd hmem hp rfl
    exact (Prod.mk.inj h5).2
  rw [hcode, hpath, hwalk, hf]
  exact ⟨rfl, hchars⟩

/-! ## Decoding codes -/

theorem leaf_ne_nil (s : Nat) (f : Int) : Node.nil ≠ Node.leaf s f := by
  intro h; cases h

theorem walk_cons (ch : Nat) (f : Int) (l r : Node) (c : Char) (code : List Char) :
    walk (Node.mk ch f l r) (c :: code) = walk (if c = '0' then l else r) code := by
  simp only [walk]
  split <;> rfl

/-- Decoding the bits of the path to a leaf from the node where the path
    starts emits the symbol of the leaf and returns the cursor to the root. -/
theorem decodeBits_code (root : Node) (s : Nat) (f : Int) (rest : List Bool) :
    ∀ (code : List Char) (cur : Node) (out : List Nat), code ≠ [] →
    (∀ c ∈ code, c = '0' ∨ c = '1') → walk cur code = Node.leaf s f →
    decodeBits root (codeBits code ++ rest) cur out = decodeBits root rest root (out ++ [s]) := by
  intro code
  induction code with
  | nil => intro cur out h; exact absurd rfl h
  | cons c code ih =>
    intro cur out _ hbin hwalk
    cases cur with
    | nil => rw [walk_nil] at hwalk; exact absurd hwalk (leaf_ne_nil s f)
    | mk ch0 f0 l r =>
      have hstep : (if (c == '1') = false then (Node.mk ch0 f0 l r).left
          else (Node.mk ch0 f0 l r).right) = some (if c = '0' then l else r) := by
        rcases hbin c (List.mem_cons_self _ _) with rfl | rfl
        · rfl
        · rfl
      rw [walk_cons] at hwalk
      generalize (if c = '0' then l else r) = n1 at hstep hwalk
      simp only [codeBits, List.map_cons, List.cons_append, decodeBits, decodeStep, hstep]
      cases n1 with
      | nil => rw [walk_nil] at hwalk; exact absurd hwalk (leaf_ne_nil s f)
      | mk ch1 f1 l1 r1 =>
        simp only [Node.left, Node.right]
        cases code with
        | nil =>
          rw [walk_empty] at hwalk
          simp only [Node.leaf, Node.mk.injEq] at hwalk
          obtain ⟨h1, _, h3, h4⟩ := hwalk
          subst h1 h3 h4
          simp [Node.isNull, Node.ch]
        | cons c2 code2 =>
          have hnl : (l1.isNull && r1.isNull) = false := by
            by_contra hcon
            have hcon2 : (l1.isNull && r1.isNull) = true := by simpa using hcon
            have hl : l1 = Node.nil := by
              cases l1 with
              | nil => rfl
              | mk _ _ _ _ => simp [Node.isNull] at hcon2
            have hr : r1 = Node.nil := by
              cases r1 with
              | nil => rfl
              | mk _ _ _ _ => simp [Node.isNull] at hcon2
            subst hl hr
            rw [walk_cons, ite_self, walk_nil] at hwalk
            exact leaf_ne_nil s f hwalk
          rw [hnl]
          simp only [Bool.false_eq_true, if_false]
          exact ih _ out (by simp) (fun c hc => hbin c (List.mem_cons_of_mem _ hc)) hwalk

/-- Decoding the concatenated codes of `B` from the root emits `B` and ends
    with the cursor at the root. -/
theorem decodeBits_encode (root : Node) (m : CodeMap) (rest : List Bool) : ∀ (B : List Nat)
    (out : List Nat),
    (∀ b ∈ B, ∃ f, getCode m b ≠ [] ∧ (∀ c ∈ getCode m b, c = '0' ∨ c = '1') ∧
      walk root (getCode m b) = Node.leaf b f) →
    decodeBits root (encodeBits m B ++ rest) root out = decodeBits root rest root (out ++ B) := by
  intro B
  induction B with
  | nil => intro out _; simp [encodeBits]
  | cons b B ih =>
    intro out h
    obtain ⟨f, hne, hbin, hwalk⟩ := h b (List.mem_cons_self _ _)
    have henc : encodeBits m (b :: B) = codeBits (getCode m b) ++ encodeBits m B := by
      simp [encodeBits]
    rw [henc, List.append_assoc, decodeBits_code root b f _ _ root out hne hbin hwalk,
      ih _ (fun b hb => h b (List.mem_cons_of_mem _ hb))]
    simp

/-- With an inner root every bit is decoded; each bit emits at most one
    symbol. -/
theorem decodeBits_inner (root : Node) (hroot : Inner root) : ∀ (bits : List Bool) (cur : Node)
    (out : List Nat), Inner cur →
    ∃ c1 extra, decodeBits root bits cur out = some (c1, out ++ extra) ∧
      extra.length ≤ bits.length ∧ Inner c1 := by
  intro bits
  induction bits with
  | nil => intro cur out hcur; exact ⟨cur, [], by simp [decodeBits], by simp, hcur⟩
  | cons b bits ih =>
    intro cur out hcur
    obtain ⟨c0, f0, l, r, rfl, hl, hr⟩ := hcur
    have hstep : ∃ n1, (if b = false then (Node.mk c0 f0 l r).left
        else (Node.mk c0 f0 l r).right) = some n1 ∧ n1.full = true := by
      cases b
      · exact ⟨l, rfl, hl⟩
      · exact ⟨r, rfl, hr⟩
    obtain ⟨n1, hn1, hfull⟩ := hstep
    simp only [decodeBits, decodeStep, hn1]
    cases n1 with
    | nil => cases hfull
    | mk ch1 f1 l1 r1 =>
      simp only [Node.left, Node.right]
      by_cases hleaf : (l1.isNull && r1.isNull) = true
      · rw [if_pos hleaf]
        obtain ⟨c1, extra, h1, h2, h3⟩ := ih root (out ++ [ch1]) hroot
        refine ⟨c1, ch1 :: extra, ?_, by simp; omega, h3⟩
        simp only [Node.ch]
        rw [h1]; simp
      · rw [if_neg hleaf]
        obtain ⟨c1, extra, h1, h2, h3⟩ := ih (Node.mk ch1 f1 l1 r1) out
          (inner_of_full hfull (by simpa using hleaf))
        exact ⟨c1, extra, h1, by simp; omega, h3⟩

theorem foldl_writeBits_eq (m : CodeMap) (B : List Nat) : ∀ w : BitWriter,
    B.foldl (fun w c => w.writeBits (getCode m c)) w
      = (encodeBits m B).foldl BitWriter.writeBit w := by
  induction B with
  | nil => intro w; rfl
  | cons b B ih =>
    intro w
    have henc : encodeBits m (b :: B) = codeBits (getCode m b) ++ encodeBits m B := by
      simp [encodeBits]
    rw [List.foldl_cons, ih, henc, List.foldl_append, writeBits_eq_foldl]

/-- The payload holds the concatenated codes followed by zero bits up to the
    byte boundary. -/
theorem encodePayload_bits (root : Node) (B : List Nat) :
    bitsOfBytes (encodePayload root B)
      = encodeBits (generateCodes root [] []) B
        ++ List.replicate
            ((8 - (encodeBits (generateCodes root [] []) B).length % 8) % 8) false ∧
    (encodePayload root B).length
      = ((encodeBits (generateCodes root [] []) B).length + 7) / 8 ∧
    ∀ b ∈ encodePayload root B, b < 256 := by
  unfold encodePayload
  rw [foldl_writeBits_eq]
  exact writer_bits _ _ rfl

theorem length_bitsOfBytes (bytes : List Nat) : (bitsOfBytes bytes).length = 8 * bytes.length := by
  induction bytes with
  | nil => rfl
  | cons b bytes ih =>
    simp only [bitsOfBytes, List.flatMap_cons, List.length_append, List.length_cons] at ih ⊢
    rw [ih]
    simp [bitsOfByte]
    omega

/-! ## Codes of a built tree -/

theorem buildTree_leaves_nodup (S : StdLib) (t : FreqMap) (hnd : (t.map Prod.fst).Nodup) :
    ((buildTree S t).leaves.map Prod.fst).Nodup := by
  by_cases ht : t = []
  · subst ht
    simp [buildTree, mergeLoop, Node.leaves]
  · exact ((buildTree_full S t ht).2.map Prod.fst).nodup_iff.2 hnd

/-- The code map of the tree of a table with distinct symbols. -/
theorem buildTree_codes (S : StdLib) (t : FreqMap) (hnd : (t.map Prod.fst).Nodup) :
    ((generateCodes (buildTree S t) [] []).map Prod.fst).Nodup ∧
    (∀ k, k ∈ (generateCodes (buildTree S t) [] []).map Prod.fst ↔ k ∈ t.map Prod.fst) ∧
    (∀ p ∈ t,
      walk (buildTree S t) (getCode (generateCodes (buildTree S t) [] []) p.1)
        = Node.leaf p.1 p.2 ∧
      ∀ c ∈ getCode (generateCodes (buildTree S t) [] []) p.1, c = '0' ∨ c = '1') := by
  obtain ⟨h1, h2, h3⟩ := generateCodes_spec (buildTree S t) (buildTree_leaves_nodup S t hnd)
  by_cases ht : t = []
  · subst ht
    simp [buildTree, mergeLoop, generateCodes]
  · have hperm := (buildTree_full S t ht).2
    refine ⟨h1, fun k => ?_, fun p hp => h3 p (hperm.symm.subset hp)⟩
    rw [h2]
    exact (hperm.map Prod.fst).mem_iff

theorem inner_ne_leaf {n : Node} (h : Inner n) (s : Nat) (f : Int) : n ≠ Node.leaf s f := by
  obtain ⟨c, f0, l, r, rfl, hl, _⟩ := h
  intro heq
  simp only [Node.leaf, Node.mk.injEq] at heq
  rw [heq.2.2.1] at hl
  cases hl

theorem length_countFreq (S : StdLib) (B : List Nat) :
    (countFreq S B).length = B.dedup.length := by
  obtain ⟨hnd, hk, _⟩ := countFreq_spec S B
  have h2 : ((countFreq S B).map Prod.fst).Perm B.dedup := by
    rw [List.perm_ext_iff_of_nodup hnd (List.nodup_dedup B)]
    intro k
    rw [hk, List.mem_dedup]
  simpa using h2.length_eq

/-- For an input with two distinct bytes or more: the root is inner and the
    code of every byte of the input is a non-empty path of '0' and '1' that
    leads from the root to the leaf of that byte. -/
theorem input_codes (S : StdLib) (B : List Nat) (h2 : 2 ≤ B.dedup.length) :
    Inner (buildTree S (countFreq S B)) ∧
    ∀ b ∈ B, ∃ f,
      getCode (generateCodes (buildTree S (countFreq S B)) [] []) b ≠ [] ∧
      (∀ c ∈ getCode (generateCodes (buildTree S (countFreq S B)) [] []) b,
        c = '0' ∨ c = '1') ∧
      walk (buildTree S (countFreq S B))
        (getCode (generateCodes (buildTree S (countFreq S B)) [] []) b) = Node.leaf b f := by
  obtain ⟨hnd, hk, _⟩ := countFreq_spec S B
  have hin : Inner (buildTree S (countFreq S B)) :=
    buildTree_inner S _ (by rw [length_countFreq]; exact h2)
  refine ⟨hin, fun b hb => ?_⟩
  have hkey : b ∈ (countFreq S B).map Prod.fst := (hk b).2 hb
  have hmem := mem_lookup _ _ hkey
  obtain ⟨hw, hbin⟩ := (buildTree_codes S _ hnd).2.2 _ hmem
  refine ⟨_, ?_, hbin, hw⟩
  intro hnil
  simp only at hw
  rw [hnil, walk_empty] at hw
  exact inner_ne_leaf hin _ _ hw

/-- Decoding the payload of `compressFile` with the tree of the encoder:
    the input comes out, followed by at most one symbol for each padding
    bit. -/
theorem decode_payload (S : StdLib) (B : List Nat) (h2 : 2 ≤ B.dedup.length) :
    ∃ extra,
      decodeLoop (buildTree S (countFreq S B)) (8 * (payloadOf S B).length + 1) BitReader.new
        { data := payloadOf S B, good := true } (buildTree S (countFreq S B)) []
        = Outcome.done (B ++ extra) ∧
      extra.length ≤ (8 - (encodeBits (generateCodes (buildTree S (countFreq S B)) [] []) B).length
        % 8) % 8 := by
  obtain ⟨hin, hcodes⟩ := input_codes S B h2
  have hpay : payloadOf S B = encodePayload (buildTree S (countFreq S B)) B :=
    payloadOf_eq S B _ (compressFile_eq_encode S B)
  obtain ⟨hbits, _, _⟩ := encodePayload_bits (buildTree S (countFreq S B)) B
  have hstream : pending BitReader.new ++ streamBits { data := payloadOf S B, good := true }
      = bitsOfBytes (payloadOf S B) := by
    simp [pending, BitReader.new, streamBits]
  rw [decodeLoop_eq_decodeBits _ _ _ _ _ _
    (by rw [hstream, length_bitsOfBytes]; omega), hstream, hpay, hbits,
    decodeBits_encode _ _ _ B [] hcodes]
  obtain ⟨c1, extra, h1, hlen, _⟩ := decodeBits_inner _ hin
    (List.replicate ((8 - (encodeBits (generateCodes (buildTree S (countFreq S B)) [] []) B).length
        % 8) % 8) false) (buildTree S (countFreq S B)) ([] ++ B) hin
  refine ⟨extra, ?_, by simpa using hlen⟩
  rw [h1]
  simp [Outcome.ofRounds]

/-! ## Positions of bits -/

theorem bitsOfByte_getD (b i : Nat) (hi : i < 8) :
    (bitsOfByte b).getD i false = b.testBit (7 - i) := by
  unfold bitsOfByte
  have h8 : List.range 8 = [0, 1, 2, 3, 4, 5, 6, 7] := by decide
  rw [h8]
  interval_cases i <;> rfl

theorem length_bitsOfByte (b : Nat) : (bitsOfByte b).length = 8 := by
  simp [bitsOfByte]

/-- Bit `i` of a sequence of bytes is bit `7 - i % 8` of byte `i / 8`. -/
theorem bitsOfBytes_getD : ∀ (bytes : List Nat) (i : Nat),
    (bitsOfBytes bytes).getD i false = (bytes.getD (i / 8) 0).testBit (7 - i % 8) := by
  intro bytes
  induction bytes with
  | nil => intro i; simp [bitsOfBytes]
  | cons b bytes ih =>
    intro i
    have hcons : bitsOfBytes (b :: bytes) = bitsOfByte b ++ bitsOfBytes bytes := by
      simp [bitsOfBytes]
    rw [hcons]
    by_cases hi : i < 8
    · rw [List.getD_append _ _ _ _ (by rw [length_bitsOfByte]; exact hi), bitsOfByte_getD b i hi]
      have h0 : i / 8 = 0 := by omega
      have h1 : i % 8 = i := by omega
      rw [h0, h1]
      rfl
    · rw [List.getD_append_right _ _ _ _ (by rw [length_bitsOfByte]; omega), length_bitsOfByte,
        ih]
      have h0 : i / 8 = (i - 8) / 8 + 1 := by omega
      have h1 : (i - 8) % 8 = i % 8 := by omega
      rw [h0, h1]
      rfl

theorem writeBit_bitCount (w : BitWriter) (b : Bool) (h : w.bitCount < 8) :
    (w.writeBit b).bitCount = (w.bitCount + 1) % 8 := by
  unfold BitWriter.writeBit
  simp only
  split
  · rename_i h8; simp [h8]
  · rename_i h8; simp only; omega

theorem foldl_writeBit_bitCount (bits : List Bool) : ∀ w : BitWriter, w.bitCount < 8 →
    (bits.foldl BitWriter.writeBit w).bitCount = (w.bitCount + bits.length) % 8 := by
  induction bits with
  | nil => intro w h; simp; omega
  | cons b bits ih =>
    intro w h
    have h1 := writeBit_bitCount w b h
    rw [List.foldl_cons, ih _ (by rw [h1]; omega), h1]
    simp only [List.length_cons]
    omega

theorem length_encodeBits (m : CodeMap) (C : List Nat) :
    (encodeBits m C).length = (C.map (fun b => (getCode m b).length)).sum := by
  induction C with
  | nil => rfl
  | cons b C ih =>
    simp only [encodeBits, List.flatMap_cons, List.length_append, List.map_cons,
      List.sum_cons] at ih ⊢
    rw [ih]
    simp [codeBits]

/-! ## Rounds of the merge loop -/

/-- One round of the loop on a queue of two trees or more: the two trees
    with the lowest frequencies leave, their parent enters. -/
theorem mergeLoop_round (S : StdLib) (fuel : Nat) (q : List Node) (hq : 2 ≤ q.length) :
    ∃ x y q2,
      q.Perm (x :: y :: q2) ∧
      mergeLoop S (fuel + 1) q
        = mergeLoop S fuel (S.pqPush q2 (Node.mk 0 (wrapInt (x.freq + y.freq)) x y)) ∧
      (S.pqInv q → S.pqInv q2 ∧ (∀ z ∈ y :: q2, x.freq ≤ z.freq) ∧
        ∀ z ∈ q2, y.freq ≤ z.freq) := by
  match q, hq with
  | x :: q1, hq =>
    have hp1 := S.pqPop_perm x q1
    match h1 : S.pqPop (x :: q1), hp1 with
    | [], hp1 =>
      have := hp1.length_eq
      simp at this hq
      omega
    | y :: q1p, hp1 =>
      have hp2 := S.pqPop_perm y q1p
      refine ⟨x, y, S.pqPop (y :: q1p), ?_, mergeLoop_step S fuel x y q1 q1p h1, ?_⟩
      · exact List.Perm.cons x (hp1.symm.trans (List.Perm.cons y hp2.symm))
      · intro hinv
        have hinv1 : S.pqInv (y :: q1p) := h1 ▸ S.pqInv_pop x q1 hinv
        refine ⟨S.pqInv_pop y q1p hinv1, ?_, ?_⟩
        · intro z hz
          have hz1 : z ∈ q1 := by
            apply hp1.subset
            rcases List.mem_cons.1 hz with rfl | hz
            · exact List.mem_cons_self _ _
            · exact List.mem_cons_of_mem _ (hp2.subset hz)
          exact top_le S hinv hz1
        · intro z hz
          exact top_le S hinv1 (hp2.subset hz)

theorem weight_eq_sum (n : Node) : n.weight = (n.leaves.map Prod.snd).sum := by
  induction n with
  | nil => rfl
  | mk c f l r ihl ihr =>
    unfold Node.weight Node.leaves
    split
    · simp
    · rw [ihl, ihr, List.map_append, List.sum_append]

theorem forest_weight {q : List Node} {t : FreqMap} (h : Forest q t) :
    (q.map Node.weight).sum = (t.map Prod.snd).sum := by
  rw [← (h.2.map Prod.snd).sum_eq]
  clear h
  induction q with
  | nil => rfl
  | cons n q ih =>
    simp only [List.map_cons, List.sum_cons, List.flatMap_cons, List.map_append, List.sum_append,
      ih, weight_eq_sum]

theorem forest_weight_nonneg {q : List Node} {t : FreqMap} (h : Forest q t)
    (hpos : ∀ p ∈ t, 0 ≤ p.2) (n : Node) (hn : n ∈ q) : 0 ≤ n.weight := by
  rw [weight_eq_sum]
  apply List.sum_nonneg
  intro v hv
  obtain ⟨p, hp, rfl⟩ := List.mem_map.1 hv
  apply hpos p
  apply h.2.subset
  exact List.mem_flatMap.2 ⟨n, hn, hp⟩

theorem sum_nonneg_of_forall (l : List Int) (h : ∀ v ∈ l, 0 ≤ v) : 0 ≤ l.sum :=
  List.sum_nonneg h

/-- A round keeps the state of the queue, as long as the sum of the counts
    fits an `int`; the frequency of the new node is the sum of its
    children's, unwrapped. -/
theorem qinv_round (S : StdLib) (t : FreqMap) (hpos : ∀ p ∈ t, 0 ≤ p.2)
    (hsum : (t.map Prod.snd).sum < 2147483648) (q : List Node) (x y : Node) (q2 : List Node)
    (hperm : q.Perm (x :: y :: q2)) (hq : QInv S t q) (hq2 : S.pqInv q2) :
    wrapInt (x.freq + y.freq) = x.freq + y.freq ∧
    0 ≤ x.freq ∧ 0 ≤ y.freq ∧
    QInv S t (S.pqPush q2 (Node.mk 0 (wrapInt (x.freq + y.freq)) x y)) := by
  obtain ⟨_, hF, hS⟩ := hq
  have hx : x ∈ q := hperm.symm.subset (List.mem_cons_self _ _)
  have hy : y ∈ q := hperm.symm.subset (List.mem_cons_of_mem _ (List.mem_cons_self _ _))
  have hxw := forest_weight_nonneg hF hpos x hx
  have hyw := forest_weight_nonneg hF hpos y hy
  have htot := forest_weight hF
  rw [(hperm.map Node.weight).sum_eq] at htot
  simp only [List.map_cons, List.sum_cons] at htot
  have hrest : 0 ≤ (q2.map Node.weight).sum := by
    apply List.sum_nonneg
    intro v hv
    obtain ⟨n, hn, rfl⟩ := List.mem_map.1 hv
    exact forest_weight_nonneg hF hpos n
      (hperm.symm.subset (List.mem_cons_of_mem _ (List.mem_cons_of_mem _ hn)))
  have hxf := (hS x hx).2
  have hyf := (hS y hy).2
  have hwrap : wrapInt (x.freq + y.freq) = x.freq + y.freq :=
    wrapInt_of_range (by omega) (by omega)
  refine ⟨hwrap, by omega, by omega, ?_⟩
  have hxfull := hF.1 x hx
  have hyfull := hF.1 y hy
  have hpush := S.pqPush_perm q2 (Node.mk 0 (wrapInt (x.freq + y.freq)) x y)
  refine ⟨S.pqInv_push _ _ hq2, ⟨?_, ?_⟩, ?_⟩
  · intro n hn
    rcases List.mem_cons.1 (hpush.subset hn) with rfl | hn
    · exact Node.full_merge _ _ hxfull hyfull
    · exact hF.1 n (hperm.symm.subset (List.mem_cons_of_mem _ (List.mem_cons_of_mem _ hn)))
  · refine (List.Perm.flatMap_right Node.leaves hpush).trans ?_
    refine List.Perm.trans ?_ hF.2
    refine List.Perm.trans ?_ (List.Perm.flatMap_right Node.leaves hperm.symm)
    simp only [List.flatMap_cons, Node.leaves_merge _ _ hxfull, List.append_assoc]
    exact List.Perm.refl _
  · intro n hn
    rcases List.mem_cons.1 (hpush.subset hn) with rfl | hn
    · have hnl : (x.isNull && y.isNull) = false := by
        rw [Node.isNull_of_not_full hxfull]; rfl
      refine ⟨?_, ?_⟩
      · simp [Node.sums, hnl, hwrap, (hS x hx).1, (hS y hy).1]
      · show wrapInt (x.freq + y.freq)
            = (if (x.isNull && y.isNull) = true then _ else x.weight + y.weight)
        rw [hnl, hwrap, hxf, hyf]
        rfl
    · exact hS n (hperm.symm.subset (List.mem_cons_of_mem _ (List.mem_cons_of_mem _ hn)))

theorem qinv_initial (S : StdLib) (t : FreqMap) :
    QInv S t (initialQueue S t) ∧ (initialQueue S t).length = t.length ∧
    (initialQueue S t).Perm (t.map (fun p => Node.leaf p.1 p.2)) := by
  obtain ⟨hp, hi⟩ := pushAll_perm S t []
  have h0 : Forest [] ([] : FreqMap) := ⟨by simp, by simp⟩
  obtain ⟨hF, hlen⟩ := forest_pushAll S t [] [] h0
  simp only [List.nil_append, List.length_nil, Nat.zero_add] at hF hlen hp
  refine ⟨⟨hi S.pqInv_nil, hF, ?_⟩, hlen, hp⟩
  intro n hn
  obtain ⟨p, _, rfl⟩ := List.mem_map.1 (hp.subset hn)
  exact ⟨rfl, rfl⟩

/-- After `k` rounds the queue holds `n - k` trees, and one tree from round
    `n - 1` on. -/
theorem length_mergeLoop (S : StdLib) : ∀ (fuel : Nat) (q : List Node), q ≠ [] →
    (mergeLoop S fuel q).length = max (q.length - fuel) 1 := by
  intro fuel
  induction fuel with
  | zero =>
    intro q hq
    have := List.length_pos.2 hq
    simp only [mergeLoop, Nat.sub_zero]
    omega
  | succ fuel ih =>
    intro q hq
    by_cases h2 : 2 ≤ q.length
    · obtain ⟨x, y, q2, hperm, hstep, _⟩ := mergeLoop_round S fuel q h2
      have hpush := S.pqPush_perm q2 (Node.mk 0 (wrapInt (x.freq + y.freq)) x y)
      have hne : S.pqPush q2 (Node.mk 0 (wrapInt (x.freq + y.freq)) x y) ≠ [] := by
        intro h0
        rw [h0] at hpush
        simpa using hpush.length_eq
      rw [hstep, ih _ hne, hpush.length_eq, hperm.length_eq]
      simp only [List.length_cons]
      omega
    · have h1 : q.length = 1 := by
        have := List.length_pos.2 hq
        omega
      unfold mergeLoop
      rw [if_neg (by omega), h1]
      omega

/-- The state of the queue is kept through the whole loop. -/
theorem qinv_mergeLoop (S : StdLib) (t : FreqMap) (hpos : ∀ p ∈ t, 0 ≤ p.2)
    (hsum : (t.map Prod.snd).sum < 2147483648) : ∀ (fuel : Nat) (q : List Node),
    QInv S t q → QInv S t (mergeLoop S fuel q) := by
  intro fuel
  induction fuel with
  | zero => intro q hq; exact hq
  | succ fuel ih =>
    intro q hq
    by_cases h2 : 2 ≤ q.length
    · obtain ⟨x, y, q2, hperm, hstep, hinv⟩ := mergeLoop_round S fuel q h2
      rw [hstep]
      exact ih _ (qinv_round S t hpos hsum q x y q2 hperm hq (hinv hq.1).1).2.2.2
    · unfold mergeLoop
      rw [if_neg (by omega)]
      exact hq

theorem buildTree_eq (S : StdLib) (t : FreqMap) (ht : t ≠ []) :
    mergeLoop S t.length (initialQueue S t) = [buildTree S t] := by
  obtain ⟨_, hlen, _⟩ := qinv_initial S t
  have hne : initialQueue S t ≠ [] := by
    intro h0
    rw [h0] at hlen
    exact ht (List.length_eq_zero.1 hlen.symm)
  have h1 := length_mergeLoop S t.length (initialQueue S t) hne
  rw [hlen] at h1
  unfold buildTree
  simp only
  rw [show (List.foldl (fun pq p => S.pqPush pq (Node.leaf p.1 p.2)) [] t) = initialQueue S t
    from rfl, hlen]
  match hq : mergeLoop S t.length (initialQueue S t), h1 with
  | [top], _ => rfl
  | [], h1 => simp at h1
  | _ :: _ :: _, h1 => simp at h1

theorem full_merges (n : Node) (h : n.full = true) : n.merges + 1 = n.leaves.length := by
  induction n with
  | nil => cases h
  | mk c f l r ihl ihr =>
    unfold Node.merges Node.leaves
    by_cases hleaf : (l.isNull && r.isNull) = true
    · rw [if_pos hleaf, if_pos hleaf]; rfl
    · rw [if_neg hleaf, if_neg hleaf]
      unfold Node.full at h
      simp only [hleaf, Bool.false_or, Bool.and_eq_true] at h
      rw [List.length_append, ← ihl h.1, ← ihr h.2]
      omega

/-- The tree built from a table of non-negative counts whose sum fits an
    `int`: every node with children holds the sum of its children, and the
    root holds the sum of all counts. -/
theorem buildTree_sums (S : StdLib) (t : FreqMap) (ht : t ≠ []) (hpos : ∀ p ∈ t, 0 ≤ p.2)
    (hsum : (t.map Prod.snd).sum < 2147483648) :
    (buildTree S t).sums = true ∧ (buildTree S t).freq = (t.map Prod.snd).sum ∧
    (buildTree S t).freq = (buildTree S t).weight := by
  have hq := qinv_mergeLoop S t hpos hsum t.length _ (qinv_initial S t).1
  rw [buildTree_eq S t ht] at hq
  obtain ⟨_, hF, hS⟩ := hq
  have h1 := hS _ (List.mem_singleton_self _)
  have h2 := forest_weight hF
  simp only [List.map_cons, List.map_nil, List.sum_cons, List.sum_nil, add_zero] at h2
  exact ⟨h1.1, by rw [h1.2, h2], h1.2⟩

/-! ## Depth assignments and the Kraft sum -/

theorem kraft_cons (H : Nat) (p : Int × Nat) (A : List (Int × Nat)) :
    kraft H (p :: A) = 2 ^ (H - p.2) + kraft H A := by
  simp [kraft]

theorem kraft_perm (H : Nat) {A B : List (Int × Nat)} (h : A.Perm B) : kraft H A = kraft H B :=
  (h.map _).sum_eq

theorem acost_cons (p : Int × Nat) (A : List (Int × Nat)) :
    acost (p :: A) = p.1 * (p.2 : Int) + acost A := by
  simp [acost]

theorem acost_perm {A B : List (Int × Nat)} (h : A.Perm B) : acost A = acost B :=
  (h.map _).sum_eq

theorem acost_nonneg (A : List (Int × Nat)) (h : ∀ p ∈ A, 0 ≤ p.1) : 0 ≤ acost A := by
  apply List.sum_nonneg
  intro v hv
  obtain ⟨p, hp, rfl⟩ := List.mem_map.1 hv
  exact mul_nonneg (h p hp) (Int.natCast_nonneg _)

/-- Scaling the Kraft sum from `H` down to a bound `D` of the depths. -/
theorem kraft_scale (H D : Nat) (hD : D ≤ H) (A : List (Int × Nat)) (h : ∀ p ∈ A, p.2 ≤ D) :
    kraft H A = 2 ^ (H - D) * kraft D A := by
  induction A with
  | nil => simp [kraft]
  | cons p A ih =>
    rw [kraft_cons, kraft_cons, ih (fun q hq => h q (List.mem_cons_of_mem _ hq)), Nat.mul_add,
      ← pow_add]
    have := h p (List.mem_cons_self _ _)
    congr 2
    omega

/-- The Kraft sum scaled by `2 ^ D` has the parity of the number of entries
    at depth `D`, when no entry is deeper. -/
theorem kraft_parity (D : Nat) (A : List (Int × Nat)) (h : ∀ p ∈ A, p.2 ≤ D) :
    kraft D A % 2 = (A.countP (fun p => p.2 = D)) % 2 := by
  induction A with
  | nil => rfl
  | cons p A ih =>
    have hp := h p (List.mem_cons_self _ _)
    have ih2 := ih (fun q hq => h q (List.mem_cons_of_mem _ hq))
    rw [kraft_cons, List.countP_cons]
    by_cases e : p.2 = D
    · simp only [e, Nat.sub_self, pow_zero, decide_True, if_true]
      omega
    · have h1 : D - p.2 = (D - p.2 - 1) + 1 := by omega
      have h2 : 2 ^ (D - p.2) % 2 = 0 := by
        rw [h1, pow_succ]; omega
      simp only [e, decide_False, Bool.false_eq_true, if_false, Nat.add_zero]
      omega

theorem exists_max_depth (A : List (Int × Nat)) (hA : A ≠ []) :
    ∃ D, (∀ p ∈ A, p.2 ≤ D) ∧ ∃ p ∈ A, p.2 = D := by
  induction A with
  | nil => exact absurd rfl hA
  | cons p A ih =>
    by_cases hA2 : A = []
    · subst hA2
      exact ⟨p.2, by simp, p, by simp, rfl⟩
    · obtain ⟨D, h1, q, hq, h2⟩ := ih hA2
      by_cases hle : p.2 ≤ D
      · refine ⟨D, ?_, q, List.mem_cons_of_mem _ hq, h2⟩
        intro r hr
        rcases List.mem_cons.1 hr with rfl | hr
        · exact hle
        · exact h1 r hr
      · refine ⟨p.2, ?_, p, List.mem_cons_self _ _, rfl⟩
        intro r hr
        rcases List.mem_cons.1 hr with rfl | hr
        · exact Nat.le_refl _
        · have := h1 r hr
          omega

theorem kraft_zero (A : List (Int × Nat)) (h : ∀ p ∈ A, p.2 ≤ 0) : kraft 0 A = A.length := by
  induction A with
  | nil => rfl
  | cons q A ih =>
    rw [kraft_cons, ih (fun r hr => h r (List.mem_cons_of_mem _ hr))]
    simp
    omega

/-- In a tight assignment of two entries or more the greatest depth is
    positive and an even number of entries have it. -/
theorem tight_max_depth (H : Nat) (A : List (Int × Nat)) (hT : Tight H A) (h2 : 2 ≤ A.length) :
    ∃ D, 1 ≤ D ∧ D ≤ H ∧ (∀ p ∈ A, p.2 ≤ D) ∧ 0 < A.countP (fun p => p.2 = D) ∧
      A.countP (fun p => p.2 = D) % 2 = 0 := by
  have hne : A ≠ [] := by
    intro h; rw [h] at h2; simp at h2
  obtain ⟨D, hle, p, hp, hpD⟩ := exists_max_depth A hne
  have hDH : D ≤ H := hpD ▸ hT.1 p hp
  have hk : kraft D A = 2 ^ D := by
    have h1 := kraft_scale H D hDH A hle
    rw [hT.2] at h1
    have h2 : 2 ^ H = 2 ^ (H - D) * 2 ^ D := by
      rw [← pow_add]; congr 1; omega
    rw [h2] at h1
    exact (Nat.eq_of_mul_eq_mul_left (by positivity) h1).symm
  have hD1 : 1 ≤ D := by
    by_contra h0
    have hD0 : D = 0 := by omega
    subst hD0
    have hall : kraft 0 A = A.length := kraft_zero A hle
    rw [hall] at hk
    simp at hk
    omega
  refine ⟨D, hD1, hDH, hle, List.countP_pos_iff.2 ⟨p, hp, by simpa using hpD⟩, ?_⟩
  rw [← kraft_parity D A hle, hk]
  have : D = (D - 1) + 1 := by omega
  rw [this, pow_succ]
  omega

/-! ## Merging the two lightest entries of a tight assignment -/

theorem extract_weight (A : List (Int × Nat)) (a : Int) (L : List Int)
    (h : (A.map Prod.fst).Perm (a :: L)) :
    ∃ d A1, A.Perm ((a, d) :: A1) ∧ (A1.map Prod.fst).Perm L := by
  have hmem : a ∈ A.map Prod.fst := h.symm.subset (List.mem_cons_self _ _)
  obtain ⟨p, hp, hpa⟩ := List.mem_map.1 hmem
  obtain ⟨w, d⟩ := p
  simp only at hpa
  subst hpa
  obtain ⟨A1, hA1⟩ : ∃ A1, A.Perm ((w, d) :: A1) := ⟨_, List.perm_cons_erase hp⟩
  refine ⟨d, A1, hA1, ?_⟩
  have h1 : (w :: A1.map Prod.fst).Perm (w :: L) := (hA1.map Prod.fst).symm.trans h
  exact List.Perm.cons_inv h1

theorem extract_depth (A : List (Int × Nat)) (D : Nat)
    (h : 0 < A.countP (fun p => p.2 = D)) :
    ∃ c A1, A.Perm ((c, D) :: A1) := by
  obtain ⟨p, hp, hpD⟩ := List.countP_pos_iff.1 h
  obtain ⟨w, d⟩ := p
  have : d = D := by simpa using hpD
  subst this
  exact ⟨w, _, List.perm_cons_erase hp⟩

theorem pow_pred_depth (H D : Nat) (h1 : 1 ≤ D) (h2 : D ≤ H) :
    2 ^ (H - (D - 1)) = 2 * 2 ^ (H - D) := by
  have : H - (D - 1) = (H - D) + 1 := by omega
  rw [this, pow_succ, Nat.mul_comm]

theorem cast_pred_depth (D : Nat) (h1 : 1 ≤ D) : ((D - 1 : Nat) : Int) = (D : Int) - 1 := by
  omega

/-- From a tight assignment whose two lightest weights are `a` and `b`, a
    tight assignment with those two merged into `a + b`, cheaper by at least
    `a + b`. -/
theorem kraft_merge (H : Nat) (A : List (Int × Nat)) (a b : Int) (R : List Int)
    (hT : Tight H A) (hw : (A.map Prod.fst).Perm (a :: b :: R))
    (hmin : ∀ r ∈ R, a ≤ r ∧ b ≤ r) :
    ∃ A2, Tight H A2 ∧ (A2.map Prod.fst).Perm ((a + b) :: R) ∧
      acost A2 + a + b ≤ acost A := by
  obtain ⟨da, A1, hA1, hw1⟩ := extract_weight A a (b :: R) hw
  obtain ⟨db, AR, hAR, hwR⟩ := extract_weight A1 b R hw1
  have hA : A.Perm ((a, da) :: (b, db) :: AR) := hA1.trans (hAR.cons _)
  have h2 : 2 ≤ A.length := by
    rw [hA.length_eq]; simp
  obtain ⟨D, hD1, hDH, hle, hpos, hev⟩ := tight_max_depth H A hT h2
  have hleH : ∀ p ∈ AR, p.2 ≤ H := fun p hp =>
    hT.1 p (hA.symm.subset (List.mem_cons_of_mem _ (List.mem_cons_of_mem _ hp)))
  have hleD : ∀ p ∈ AR, p.2 ≤ D := fun p hp =>
    hle p (hA.symm.subset (List.mem_cons_of_mem _ (List.mem_cons_of_mem _ hp)))
  have hda : da ≤ D := hle (a, da) (hA.symm.subset (List.mem_cons_self _ _))
  have hdb : db ≤ D :=
    hle (b, db) (hA.symm.subset (List.mem_cons_of_mem _ (List.mem_cons_self _ _)))
  have hminA : ∀ p ∈ AR, a ≤ p.1 ∧ b ≤ p.1 := fun p hp =>
    hmin p.1 (hwR.subset (List.mem_map_of_mem _ hp))
  have hk : 2 ^ (H - da) + (2 ^ (H - db) + kraft H AR) = 2 ^ H := by
    rw [← hT.2, kraft_perm H hA, kraft_cons, kraft_cons]
  have hc : A.countP (fun p => p.2 = D) =
      AR.countP (fun p => p.2 = D) + (if db = D then 1 else 0) + (if da = D then 1 else 0) := by
    rw [hA.countP_eq, List.countP_cons, List.countP_cons]
    simp
  have hcost : acost A = a * (da : Int) + (b * (db : Int) + acost AR) := by
    rw [acost_perm hA, acost_cons, acost_cons]
  have hpow := pow_pred_depth H D hD1 hDH
  have hcast := cast_pred_depth D hD1
  by_cases ea : da = D
  · by_cases eb : db = D
    · -- both at the greatest depth: they become siblings
      subst ea
      refine ⟨(a + b, da - 1) :: AR, ⟨?_, ?_⟩, ?_, ?_⟩
      · intro p hp
        rcases List.mem_cons.1 hp with rfl | hp
        · show da - 1 ≤ H
          omega
        · exact hleH p hp
      · rw [kraft_cons]
        show 2 ^ (H - (da - 1)) + kraft H AR = 2 ^ H
        rw [hpow]
        rw [eb] at hk
        omega
      · simpa using hwR.cons (a + b)
      · rw [hcost, acost_cons, eb]
        show (a + b) * ((da - 1 : Nat) : Int) + acost AR + a + b ≤ _
        rw [hcast]
        linarith
    · -- a is at the greatest depth, b is not
      rw [if_pos ea, if_neg eb] at hc
      have hposR : 0 < AR.countP (fun p => p.2 = D) := by omega
      obtain ⟨c, AR1, hAR1⟩ := extract_depth AR D hposR
      have hcb : b ≤ c := (hminA (c, D) (hAR1.symm.subset (List.mem_cons_self _ _))).2
      subst ea
      refine ⟨(a + b, da - 1) :: (c, db) :: AR1, ⟨?_, ?_⟩, ?_, ?_⟩
      · intro p hp
        rcases List.mem_cons.1 hp with rfl | hp
        · show da - 1 ≤ H
          omega
        · rcases List.mem_cons.1 hp with rfl | hp
          · show db ≤ H
            omega
          · exact hleH p (hAR1.symm.subset (List.mem_cons_of_mem _ hp))
      · rw [kraft_cons, kraft_cons]
        show 2 ^ (H - (da - 1)) + (2 ^ (H - db) + kraft H AR1) = 2 ^ H
        rw [hpow]
        rw [kraft_perm H hAR1, kraft_cons] at hk
        simp only at hk
        omega
      · have h3 := ((hAR1.map Prod.fst).symm.trans hwR).cons (a + b)
        simpa using h3
      · rw [hcost, acost_cons, acost_cons, acost_perm hAR1, acost_cons]
        show (a + b) * ((da - 1 : Nat) : Int) + (c * (db : Int) + acost AR1) + a + b ≤
          a * (da : Int) + (b * (db : Int) + (c * (da : Int) + acost AR1))
        rw [hcast]
        have h5 : (0 : Int) ≤ (c - b) * ((da : Int) - (db : Int)) :=
          mul_nonneg (by linarith) (by omega)
        nlinarith [h5]
  · by_cases eb : db = D
    · -- b is at the greatest depth, a is not
      rw [if_neg ea, if_pos eb] at hc
      have hposR : 0 < AR.countP (fun p => p.2 = D) := by omega
      obtain ⟨c, AR1, hAR1⟩ := extract_depth AR D hposR
      have hca : a ≤ c := (hminA (c, D) (hAR1.symm.subset (List.mem_cons_self _ _))).1
      subst eb
      refine ⟨(a + b, db - 1) :: (c, da) :: AR1, ⟨?_, ?_⟩, ?_, ?_⟩
      · intro p hp
        rcases List.mem_cons.1 hp with rfl | hp
        · show db - 1 ≤ H
          omega
        · rcases List.mem_cons.1 hp with rfl | hp
          · show da ≤ H
            omega
          · exact hleH p (hAR1.symm.subset (List.mem_cons_of_mem _ hp))
      · rw [kraft_cons, kraft_cons]
        show 2 ^ (H - (db - 1)) + (2 ^ (H - da) + kraft H AR1) = 2 ^ H
        rw [hpow]
        rw [kraft_perm H hAR1, kraft_cons] at hk
        simp only at hk
        omega
      · have h3 := ((hAR1.map Prod.fst).symm.trans hwR).cons (a + b)
        simpa using h3
      · rw [hcost, acost_cons, acost_cons, acost_perm hAR1, acost_cons]
        show (a + b) * ((db - 1 : Nat) : Int) + (c * (da : Int) + acost AR1) + a + b ≤
          a * (da : Int) + (b * (db : Int) + (c * (db : Int) + acost AR1))
        rw [hcast]
        have h5 : (0 : Int) ≤ (c - a) * ((db : Int) - (da : Int)) :=
          mul_nonneg (by linarith) (by omega)
        nlinarith [h5]
    · -- neither is at the greatest depth: two others are
      rw [if_neg ea, if_neg eb] at hc
      have hposR : 0 < AR.countP (fun p => p.2 = D) := by omega
      obtain ⟨c, AR1, hAR1⟩ := extract_depth AR D hposR
      have hc1 : AR.countP (fun p => p.2 = D) = AR1.countP (fun p => p.2 = D) + 1 := by
        rw [hAR1.countP_eq, List.countP_cons]
        simp
      have hposR1 : 0 < AR1.countP (fun p => p.2 = D) := by omega
      obtain ⟨e, AR2, hAR2⟩ := extract_depth AR1 D hposR1
      have hca : a ≤ c := (hminA (c, D) (hAR1.symm.subset (List.mem_cons_self _ _))).1
      have heb : b ≤ e := (hminA (e, D) (hAR1.symm.subset
        (List.mem_cons_of_mem _ (hAR2.symm.subset (List.mem_cons_self _ _))))).2
      refine ⟨(a + b, D - 1) :: (c, da) :: (e, db) :: AR2, ⟨?_, ?_⟩, ?_, ?_⟩
      · intro p hp
        rcases List.mem_cons.1 hp with rfl | hp
        · show D - 1 ≤ H
          omega
        · rcases List.mem_cons.1 hp with rfl | hp
          · show da ≤ H
            omega
          · rcases List.mem_cons.1 hp with rfl | hp
            · show db ≤ H
              omega
            · exact hleH p (hAR1.symm.subset (List.mem_cons_of_mem _
                (hAR2.symm.subset (List.mem_cons_of_mem _ hp))))
      · rw [kraft_cons, kraft_cons, kraft_cons]
        show 2 ^ (H - (D - 1)) + (2 ^ (H - da) + (2 ^ (H - db) + kraft H AR2)) = 2 ^ H
        rw [hpow]
        rw [kraft_perm H hAR1, kraft_cons, kraft_perm H hAR2, kraft_cons] at hk
        simp only at hk
        omega
      · have h3 := ((((hAR2.map Prod.fst).cons c).symm.trans
          (hAR1.map Prod.fst).symm).trans hwR).cons (a + b)
        simpa using h3
      · rw [hcost, acost_cons, acost_cons, acost_cons, acost_perm hAR1, acost_cons,
          acost_perm hAR2, acost_cons]
        show (a + b) * ((D - 1 : Nat) : Int) + (c * (da : Int) + (e * (db : Int) + acost AR2)) +
            a + b ≤
          a * (da : Int) + (b * (db : Int) + (c * (D : Int) + (e * (D : Int) + acost AR2)))
        rw [hcast]
        have h5 : (0 : Int) ≤ (c - a) * ((D : Int) - (da : Int)) :=
          mul_nonneg (by linarith) (by omega)
        have h6 : (0 : Int) ≤ (e - b) * ((D : Int) - (db : Int)) :=
          mul_nonneg (by linarith) (by omega)
        nlinarith [h5, h6]

/-! ## Weighted path length -/

theorem wpl_eq_icost (n : Node) : ∀ k : Nat, n.wpl k = n.icost + (k : Int) * n.weight := by
  induction n with
  | nil => intro k; simp [Node.wpl, Node.icost, Node.weight]
  | mk c f l r ihl ihr =>
    intro k
    simp only [Node.wpl, Node.icost, Node.weight]
    by_cases hleaf : (l.isNull && r.isNull) = true
    · rw [if_pos hleaf, if_pos hleaf, if_pos hleaf]
      ring
    · rw [if_neg hleaf, if_neg hleaf, if_neg hleaf, ihl, ihr]
      push_cast
      ring

theorem depths_weights (n : Node) : ∀ k : Nat,
    (n.depths k).map Prod.fst = n.leaves.map Prod.snd := by
  induction n with
  | nil => intro k; rfl
  | mk c f l r ihl ihr =>
    intro k
    unfold Node.depths Node.leaves
    by_cases hleaf : (l.isNull && r.isNull) = true
    · rw [if_pos hleaf, if_pos hleaf]
      rfl
    · rw [if_neg hleaf, if_neg hleaf, List.map_append, List.map_append, ihl, ihr]

theorem acost_append (A B : List (Int × Nat)) : acost (A ++ B) = acost A + acost B := by
  simp [acost]

theorem kraft_append (H : Nat) (A B : List (Int × Nat)) :
    kraft H (A ++ B) = kraft H A + kraft H B := by
  simp [kraft]

theorem acost_depths (n : Node) : ∀ k : Nat, acost (n.depths k) = n.wpl k := by
  induction n with
  | nil => intro k; rfl
  | mk c f l r ihl ihr =>
    intro k
    unfold Node.depths Node.wpl
    by_cases hleaf : (l.isNull && r.isNull) = true
    · rw [if_pos hleaf, if_pos hleaf]
      simp [acost]
    · rw [if_neg hleaf, if_neg hleaf, acost_append, ihl, ihr]

/-- The leaf depths of a full tree have Kraft sum 1. -/
theorem kraft_depths (n : Node) (h : n.full = true) :
    ∃ h0 : Nat, ∀ k H : Nat, k + h0 ≤ H →
      (∀ p ∈ n.depths k, p.2 ≤ H) ∧ kraft H (n.depths k) = 2 ^ (H - k) := by
  induction n with
  | nil => cases h
  | mk c f l r ihl ihr =>
    by_cases hleaf : (l.isNull && r.isNull) = true
    · refine ⟨0, fun k H hk => ?_⟩
      unfold Node.depths
      rw [if_pos hleaf]
      constructor
      · intro p hp
        rw [List.mem_singleton.1 hp]
        show k ≤ H
        omega
      · simp [kraft]
    · have hleaf2 : (l.isNull && r.isNull) = false := by simpa using hleaf
      unfold Node.full at h
      rw [hleaf2, Bool.false_or, Bool.and_eq_true] at h
      obtain ⟨hl, ihl⟩ := ihl h.1
      obtain ⟨hr, ihr⟩ := ihr h.2
      refine ⟨max hl hr + 1, fun k H hk => ?_⟩
      obtain ⟨l1, l2⟩ := ihl (k + 1) H (by omega)
      obtain ⟨r1, r2⟩ := ihr (k + 1) H (by omega)
      unfold Node.depths
      rw [if_neg hleaf]
      constructor
      · intro p hp
        rcases List.mem_append.1 hp with hp | hp
        · exact l1 p hp
        · exact r1 p hp
      · rw [kraft_append, l2, r2]
        have : H - k = (H - (k + 1)) + 1 := by omega
        rw [this, pow_succ]
        omega

theorem wpl_mono (n : Node) (hw : ∀ p ∈ n.leaves, 0 ≤ p.2) (k : Nat) :
    n.wpl k ≤ n.wpl (k + 1) := by
  rw [wpl_eq_icost, wpl_eq_icost]
  have h0 : 0 ≤ n.weight := by
    rw [weight_eq_sum]
    apply List.sum_nonneg
    intro v hv
    obtain ⟨p, hp, rfl⟩ := List.mem_map.1 hv
    exact hw p hp
  push_cast
  nlinarith

/-- Every tree with a leaf can be made full without moving a leaf down:
    nodes with one child are taken out. -/
theorem exists_full (n : Node) (hw : ∀ p ∈ n.leaves, 0 ≤ p.2) (hne : n ≠ Node.nil) :
    ∃ m : Node, m.full = true ∧ m.leaves = n.leaves ∧ ∀ k, m.wpl k ≤ n.wpl k := by
  induction n with
  | nil => exact absurd rfl hne
  | mk c f l r ihl ihr =>
    by_cases hleaf : (l.isNull && r.isNull) = true
    · refine ⟨Node.mk c f l r, ?_, rfl, fun k => le_refl _⟩
      simp [Node.full, hleaf]
    · have hlv : (Node.mk c f l r).leaves = l.leaves ++ r.leaves := by
        simp [Node.leaves, hleaf]
      have hwp : ∀ k, (Node.mk c f l r).wpl k = l.wpl (k + 1) + r.wpl (k + 1) := by
        intro k
        simp [Node.wpl, hleaf]
      rw [hlv] at hw
      have hwl : ∀ p ∈ l.leaves, 0 ≤ p.2 := fun p hp => hw p (List.mem_append_left _ hp)
      have hwr : ∀ p ∈ r.leaves, 0 ≤ p.2 := fun p hp => hw p (List.mem_append_right _ hp)
      by_cases hl : l = Node.nil
      · have hr : r ≠ Node.nil := by
          intro hr
          apply hleaf
          rw [hl, hr]
          rfl
        obtain ⟨m, m1, m2, m3⟩ := ihr hwr hr
        refine ⟨m, m1, ?_, fun k => ?_⟩
        · rw [hlv, m2, hl]
          rfl
        · rw [hwp, hl]
          have h1 := m3 (k + 1)
          have h2 := wpl_mono m (by rw [m2]; exact hwr) k
          have h3 : Node.nil.wpl (k + 1) = 0 := rfl
          rw [h3]
          linarith
      · by_cases hr : r = Node.nil
        · obtain ⟨m, m1, m2, m3⟩ := ihl hwl hl
          refine ⟨m, m1, ?_, fun k => ?_⟩
          · rw [hlv, m2, hr]
            simp [Node.leaves]
          · rw [hwp, hr]
            have h1 := m3 (k + 1)
            have h2 := wpl_mono m (by rw [m2]; exact hwl) k
            have h3 : Node.nil.wpl (k + 1) = 0 := rfl
            rw [h3]
            linarith
        · obtain ⟨ml, l1, l2, l3⟩ := ihl hwl hl
          obtain ⟨mr, r1, r2, r3⟩ := ihr hwr hr
          refine ⟨Node.mk c f ml mr, Node.full_merge c f l1 r1, ?_, fun k => ?_⟩
          · rw [Node.leaves_merge c f l1, l2, r2, hlv]
          · rw [hwp]
            have h1 : (Node.mk c f ml mr).wpl k = ml.wpl (k + 1) + mr.wpl (k + 1) := by
              simp [Node.wpl, Node.isNull_of_not_full l1]
            rw [h1]
            have := l3 (k + 1)
            have := r3 (k + 1)
            linarith

/-- The weighted path length of a code map generated from a tree is that of
    the tree. -/
theorem wpl_codes (g : Nat → List Char) (n : Node) : ∀ str : List Char,
    (∀ p ∈ leafCodes n str, g p.1 = p.2) →
    (n.leaves.map (fun p => p.2 * ((g p.1).length : Int))).sum = n.wpl str.length := by
  induction n with
  | nil => intro str _; rfl
  | mk c f l r ihl ihr =>
    intro str hg
    unfold leafCodes at hg
    unfold Node.leaves Node.wpl
    by_cases hleaf : (l.isNull && r.isNull) = true
    · rw [if_pos hleaf, if_pos hleaf]
      rw [if_pos hleaf] at hg
      have := hg (c, str) (by simp)
      simp only at this
      simp [this]
    · rw [if_neg hleaf, if_neg hleaf]
      rw [if_neg hleaf] at hg
      have h1 := ihl (str ++ ['0']) (fun p hp => hg p (by simp [hp]))
      have h2 := ihr (str ++ ['1']) (fun p hp => hg p (by simp [hp]))
      simp only [List.length_append, List.length_singleton] at h1 h2
      rw [List.map_append, List.sum_append, h1, h2]

theorem codeCost_eq_wpl (t : FreqMap) (n : Node) (hnd : (t.map Prod.fst).Nodup)
    (hp : n.leaves.Perm t) : codeCost t (generateCodes n [] []) = n.wpl 0 := by
  have hnd2 : ((leafCodes n []).map Prod.fst).Nodup := by
    rw [leafCodes_keys]
    exact (hp.map Prod.fst).nodup_iff.2 hnd
  have h4 := (foldl_setCode_spec (leafCodes n []) [] (by simp)).2.2.2 hnd2
  rw [← generateCodes_eq_foldl] at h4
  have h5 := wpl_codes (fun k => getCode (generateCodes n [] []) k) n [] h4
  unfold codeCost
  rw [← (hp.map _).sum_eq]
  exact h5

/-! ## Optimality of the merge loop -/

theorem icost_merge (x y : Node) (c : Nat) (f : Int) (hx : x.full = true) :
    (Node.mk c f x y).icost = x.weight + y.weight + x.icost + y.icost := by
  simp [Node.icost, Node.isNull_of_not_full hx]

/-- The loop ends with trees whose inner weights sum to no more than the
    inner weights of the trees of the queue plus the cost of any tight
    assignment of depths to the trees of the queue. -/
theorem mergeLoop_cost (S : StdLib) (t : FreqMap) (hpos : ∀ p ∈ t, 0 ≤ p.2)
    (hsum : (t.map Prod.snd).sum < 2147483648) : ∀ (fuel : Nat) (q : List Node),
    QInv S t q → ∀ (H : Nat) (A : List (Int × Nat)), Tight H A →
    (A.map Prod.fst).Perm (q.map Node.freq) →
    ((mergeLoop S fuel q).map Node.icost).sum ≤ (q.map Node.icost).sum + acost A := by
  have hnn : ∀ (q : List Node), QInv S t q → ∀ (A : List (Int × Nat)),
      (A.map Prod.fst).Perm (q.map Node.freq) → 0 ≤ acost A := by
    intro q hq A hA
    apply acost_nonneg
    intro p hp
    obtain ⟨n, hn, hnp⟩ := List.mem_map.1 (hA.subset (List.mem_map_of_mem Prod.fst hp))
    rw [← hnp, (hq.2.2 n hn).2]
    exact forest_weight_nonneg hq.2.1 hpos n hn
  intro fuel
  induction fuel with
  | zero =>
    intro q hq H A _ hA
    have := hnn q hq A hA
    simp only [mergeLoop]
    linarith
  | succ fuel ih =>
    intro q hq H A hT hA
    by_cases h2 : 2 ≤ q.length
    · obtain ⟨x, y, q2, hperm, hstep, hinv⟩ := mergeLoop_round S fuel q h2
      obtain ⟨hinv2, hminx, hminy⟩ := hinv hq.1
      obtain ⟨hwrap, _, _, hq1⟩ := qinv_round S t hpos hsum q x y q2 hperm hq hinv2
      have hx : x ∈ q := hperm.symm.subset (List.mem_cons_self _ _)
      have hy : y ∈ q := hperm.symm.subset (List.mem_cons_of_mem _ (List.mem_cons_self _ _))
      have hw : (A.map Prod.fst).Perm (x.freq :: y.freq :: q2.map Node.freq) :=
        hA.trans (hperm.map Node.freq)
      have hmin : ∀ r ∈ q2.map Node.freq, x.freq ≤ r ∧ y.freq ≤ r := by
        intro r hr
        obtain ⟨z, hz, rfl⟩ := List.mem_map.1 hr
        exact ⟨hminx z (List.mem_cons_of_mem _ hz), hminy z hz⟩
      obtain ⟨A2, hT2, hw2, hc2⟩ := kraft_merge H A x.freq y.freq (q2.map Node.freq) hT hw hmin
      have hpush := S.pqPush_perm q2 (Node.mk 0 (wrapInt (x.freq + y.freq)) x y)
      have hw3 : (A2.map Prod.fst).Perm
          ((S.pqPush q2 (Node.mk 0 (wrapInt (x.freq + y.freq)) x y)).map Node.freq) := by
        refine hw2.trans (List.Perm.trans ?_ (hpush.map Node.freq).symm)
        rw [List.map_cons]
        show ((x.freq + y.freq) :: q2.map Node.freq).Perm
          (wrapInt (x.freq + y.freq) :: q2.map Node.freq)
        rw [hwrap]
      have hih := ih _ hq1 H A2 hT2 hw3
      rw [hstep]
      have e1 : ((S.pqPush q2 (Node.mk 0 (wrapInt (x.freq + y.freq)) x y)).map Node.icost).sum
          = x.weight + y.weight + x.icost + y.icost + (q2.map Node.icost).sum := by
        rw [(hpush.map Node.icost).sum_eq, List.map_cons, List.sum_cons,
          icost_merge x y 0 _ (hq.2.1.1 x hx)]
      have e2 : (q.map Node.icost).sum = x.icost + (y.icost + (q2.map Node.icost).sum) := by
        rw [(hperm.map Node.icost).sum_eq, List.map_cons, List.map_cons, List.sum_cons,
          List.sum_cons]
      have e3 := (hq.2.2 x hx).2
      have e4 := (hq.2.2 y hy).2
      rw [e1] at hih
      rw [e2]
      linarith
    · have := hnn q hq A hA
      unfold mergeLoop
      rw [if_neg (by omega)]
      linarith

/-- The tree of `buildTree` has the least weighted path length among the
    trees with the entries of the table at their leaves, when the counts are
    not negative and their sum fits an `int`. -/
theorem buildTree_wpl_le (S : StdLib) (t : FreqMap) (ht : t ≠ []) (hpos : ∀ p ∈ t, 0 ≤ p.2)
    (hsum : (t.map Prod.snd).sum < 2147483648) (T : Node) (hT : T.leaves.Perm t) :
    (buildTree S t).wpl 0 ≤ T.wpl 0 := by
  have hTne : T ≠ Node.nil := by
    intro h
    rw [h] at hT
    exact ht (List.Perm.nil_eq hT).symm
  have hwT : ∀ p ∈ T.leaves, 0 ≤ p.2 := fun p hp => hpos p (hT.subset hp)
  obtain ⟨m, m1, m2, m3⟩ := exists_full T hwT hTne
  obtain ⟨h0, hk⟩ := kraft_depths m m1
  obtain ⟨k1, k2⟩ := hk 0 h0 (by omega)
  have hTight : Tight h0 (m.depths 0) := ⟨k1, by rw [k2]; rfl⟩
  obtain ⟨hq0, _, hp0⟩ := qinv_initial S t
  have hA : ((m.depths 0).map Prod.fst).Perm ((initialQueue S t).map Node.freq) := by
    rw [depths_weights, m2]
    refine (hT.map Prod.snd).trans (List.Perm.trans ?_ (hp0.map Node.freq).symm)
    rw [List.map_map]
    exact List.Perm.refl _
  have hmain := mergeLoop_cost S t hpos hsum t.length _ hq0 h0 _ hTight hA
  rw [buildTree_eq S t ht] at hmain
  have hz : ((initialQueue S t).map Node.icost).sum = 0 := by
    rw [(hp0.map Node.icost).sum_eq, List.map_map]
    apply List.sum_eq_zero
    intro v hv
    obtain ⟨p, _, rfl⟩ := List.mem_map.1 hv
    rfl
  rw [hz, acost_depths] at hmain
  simp only [List.map_cons, List.map_nil, List.sum_cons, List.sum_nil, add_zero, zero_add]
    at hmain
  have h1 := wpl_eq_icost (buildTree S t) 0
  have h2 := m3 0
  simp only [Nat.cast_zero, zero_mul, add_zero] at h1
  linarith

/-! ## Rounds after the queue is down to one tree -/

theorem mergeLoop_short (S : StdLib) (fuel : Nat) (q : List Node) (h : q.length ≤ 1) :
    mergeLoop S fuel q = q := by
  cases fuel with
  | zero => rfl
  | succ fuel =>
    unfold mergeLoop
    rw [if_neg (by omega)]

theorem mergeLoop_add (S : StdLib) (b : Nat) : ∀ (a : Nat) (q : List Node),
    mergeLoop S (a + b) q = mergeLoop S b (mergeLoop S a q) := by
  intro a
  induction a with
  | zero => intro q; rw [Nat.zero_add]; rfl
  | succ a ih =>
    intro q
    by_cases h2 : 2 ≤ q.length
    · have hs : ∀ f, mergeLoop S (f + 1) q = mergeLoop S f (S.pqPush (S.pqPop (S.pqPop q))
          (Node.mk 0 (wrapInt ((pqTop q).freq + (pqTop (S.pqPop q)).freq)) (pqTop q)
            (pqTop (S.pqPop q)))) := by
        intro f
        show (if q.length > 1 then _ else _) = _
        rw [if_pos (by omega)]
      have e : a + 1 + b = a + b + 1 := by omega
      rw [e, hs, hs]
      exact ih _
    · rw [mergeLoop_short S _ q (by omega), mergeLoop_short S _ q (by omega),
        mergeLoop_short S _ q (by omega)]

/-- The queue is down to the returned tree after `n - 1` rounds. -/
theorem mergeLoop_pred (S : StdLib) (t : FreqMap) (ht : t ≠ []) :
    mergeLoop S (t.length - 1) (initialQueue S t) = [buildTree S t] := by
  obtain ⟨_, hlen, _⟩ := qinv_initial S t
  have hne : initialQueue S t ≠ [] := by
    intro h0
    rw [h0] at hlen
    exact ht (List.length_eq_zero.1 hlen.symm)
  have hpos : 0 < t.length := List.length_pos.2 ht
  have h1 := length_mergeLoop S (t.length - 1) (initialQueue S t) hne
  rw [hlen] at h1
  have h2 := mergeLoop_add S 1 (t.length - 1) (initialQueue S t)
  rw [Nat.sub_add_cancel hpos, buildTree_eq S t ht,
    mergeLoop_short S 1 _ (by rw [h1]; omega)] at h2
  exact h2.symm

/-! ## Exchanging the depths of two entries -/

theorem depths_eq_map (g : Nat → List Char) (n : Node) : ∀ str : List Char,
    (∀ p ∈ leafCodes n str, g p.1 = p.2) →
    n.depths str.length = n.leaves.map (fun p => (p.2, (g p.1).length)) := by
  induction n with
  | nil => intro str _; rfl
  | mk c f l r ihl ihr =>
    intro str hg
    unfold leafCodes at hg
    unfold Node.leaves Node.depths
    by_cases hleaf : (l.isNull && r.isNull) = true
    · rw [if_pos hleaf, if_pos hleaf]
      rw [if_pos hleaf] at hg
      have := hg (c, str) (by simp)
      simp only at this
      simp [this]
    · rw [if_neg hleaf, if_neg hleaf]
      rw [if_neg hleaf] at hg
      have h1 := ihl (str ++ ['0']) (fun p hp => hg p (by simp [hp]))
      have h2 := ihr (str ++ ['1']) (fun p hp => hg p (by simp [hp]))
      simp only [List.length_append, List.length_singleton] at h1 h2
      rw [List.map_append, h1, h2]

/-- The tree of `buildTree` costs no more than any tight assignment of
    depths to the counts of the table. -/
theorem buildTree_wpl_le_acost (S : StdLib) (t : FreqMap) (ht : t ≠ [])
    (hpos : ∀ p ∈ t, 0 ≤ p.2) (hsum : (t.map Prod.snd).sum < 2147483648) (H : Nat)
    (A : List (Int × Nat)) (hT : Tight H A) (hA : (A.map Prod.fst).Perm (t.map Prod.snd)) :
    (buildTree S t).wpl 0 ≤ acost A := by
  obtain ⟨hq0, _, hp0⟩ := qinv_initial S t
  have hA2 : (A.map Prod.fst).Perm ((initialQueue S t).map Node.freq) := by
    refine hA.trans (List.Perm.trans ?_ (hp0.map Node.freq).symm)
    rw [List.map_map]
    exact List.Perm.refl _
  have hmain := mergeLoop_cost S t hpos hsum t.length _ hq0 H _ hT hA2
  rw [buildTree_eq S t ht] at hmain
  have hz : ((initialQueue S t).map Node.icost).sum = 0 := by
    rw [(hp0.map Node.icost).sum_eq, List.map_map]
    apply List.sum_eq_zero
    intro v hv
    obtain ⟨p, _, rfl⟩ := List.mem_map.1 hv
    rfl
  rw [hz] at hmain
  simp only [List.map_cons, List.map_nil, List.sum_cons, List.sum_nil, add_zero, zero_add]
    at hmain
  have h1 := wpl_eq_icost (buildTree S t) 0
  simp only [Nat.cast_zero, zero_mul, add_zero] at h1
  linarith

/-- In the tree of `buildTree` an entry with a greater count is not deeper
    than an entry with a smaller count. -/
theorem buildTree_depth_le (S : StdLib) (t : FreqMap) (hnd : (t.map Prod.fst).Nodup)
    (hpos : ∀ p ∈ t, 0 ≤ p.2) (hsum : (t.map Prod.snd).sum < 2147483648)
    (x y : Nat × Int) (hx : x ∈ t) (hy : y ∈ t) (hxy : y.2 < x.2) :
    (getCode (generateCodes (buildTree S t) [] []) x.1).length
      ≤ (getCode (generateCodes (buildTree S t) [] []) y.1).length := by
  have ht : t ≠ [] := List.ne_nil_of_mem hx
  obtain ⟨hfull, hperm⟩ := buildTree_full S t ht
  have hnd2 : ((leafCodes (buildTree S t) []).map Prod.fst).Nodup := by
    rw [leafCodes_keys]
    exact (hperm.map Prod.fst).nodup_iff.2 hnd
  have h4 := (foldl_setCode_spec (leafCodes (buildTree S t) []) [] (by simp)).2.2.2 hnd2
  rw [← generateCodes_eq_foldl] at h4
  have hd : (buildTree S t).depths 0 = (buildTree S t).leaves.map
      (fun p => (p.2, (getCode (generateCodes (buildTree S t) [] []) p.1).length)) :=
    depths_eq_map (fun k => getCode (generateCodes (buildTree S t) [] []) k)
      (buildTree S t) [] h4
  obtain ⟨h0, hk⟩ := kraft_depths (buildTree S t) hfull
  obtain ⟨k1, k2⟩ := hk 0 h0 (by omega)
  -- the table with x and y in front
  obtain ⟨t1, ht1⟩ : ∃ t1, t.Perm (x :: t1) := ⟨_, List.perm_cons_erase hx⟩
  have hy1 : y ∈ t1 := by
    rcases List.mem_cons.1 (ht1.subset hy) with h | h
    · rw [h] at hxy
      exact absurd hxy (lt_irrefl _)
    · exact h
  obtain ⟨t2, ht2⟩ : ∃ t2, t1.Perm (y :: t2) := ⟨_, List.perm_cons_erase hy1⟩
  have hpt : (buildTree S t).leaves.Perm (x :: y :: t2) :=
    hperm.trans (ht1.trans (ht2.cons x))
  clear h4
  generalize getCode (generateCodes (buildTree S t) [] []) = g at hd ⊢
  have hpA : ((buildTree S t).depths 0).Perm
      ((x.2, (g x.1).length) :: (y.2, (g y.1).length)
        :: t2.map (fun p => (p.2, (g p.1).length))) := by
    rw [hd]
    exact hpt.map _
  by_contra hlt
  have hlt2 : (g y.1).length < (g x.1).length := by omega
  -- the assignment with the two depths exchanged
  have hT : Tight h0 ((x.2, (g y.1).length) :: (y.2, (g x.1).length)
      :: t2.map (fun p => (p.2, (g p.1).length))) := by
    constructor
    · intro p hp
      rcases List.mem_cons.1 hp with rfl | hp
      · exact k1 (y.2, (g y.1).length)
          (hpA.symm.subset (List.mem_cons_of_mem _ (List.mem_cons_self _ _)))
      · rcases List.mem_cons.1 hp with rfl | hp
        · exact k1 (x.2, (g x.1).length) (hpA.symm.subset (List.mem_cons_self _ _))
        · exact k1 p (hpA.symm.subset (List.mem_cons_of_mem _ (List.mem_cons_of_mem _ hp)))
    · have := k2
      rw [kraft_perm h0 hpA, kraft_cons, kraft_cons] at this
      rw [kraft_cons, kraft_cons]
      simp only at this ⊢
      rw [Nat.sub_zero] at this
      omega
  have hA : (((x.2, (g y.1).length) :: (y.2, (g x.1).length)
      :: t2.map (fun p => (p.2, (g p.1).length))).map Prod.fst).Perm (t.map Prod.snd) := by
    have h5 := (hpA.map Prod.fst).symm
    rw [depths_weights] at h5
    exact h5.trans (hperm.map Prod.snd)
  have hle := buildTree_wpl_le_acost S t ht hpos hsum h0 _ hT hA
  rw [← acost_depths, acost_perm hpA, acost_cons, acost_cons, acost_cons, acost_cons] at hle
  simp only at hle
  have h6 : (0 : Int) < (x.2 - y.2) * (((g x.1).length : Int) - ((g y.1).length : Int)) :=
    mul_pos (by linarith) (by omega)
  nlinarith [h6]

/-! ## Competing trees -/

/-- The frequencies stored in a tree play no part in its codes: the leaves
    can be given the counts of a table. -/
theorem exists_relabel (t : FreqMap) (T : Node) :
    ∃ T1 : Node, T1.isNull = T.isNull ∧
      T1.leaves = T.leaves.map (fun p => (p.1, lookup t p.1)) ∧
      ∀ (str : List Char) (m : CodeMap), generateCodes T1 str m = generateCodes T str m := by
  induction T with
  | nil => exact ⟨Node.nil, rfl, rfl, fun _ _ => rfl⟩
  | mk c f l r ihl ihr =>
    obtain ⟨l1, hl1, hl2, hl3⟩ := ihl
    obtain ⟨r1, hr1, hr2, hr3⟩ := ihr
    refine ⟨Node.mk c (lookup t c) l1 r1, rfl, ?_, fun str m => ?_⟩
    · simp only [Node.leaves, hl1, hr1]
      by_cases hleaf : (l.isNull && r.isNull) = true
      · rw [if_pos hleaf, if_pos hleaf]
        rfl
      · rw [if_neg hleaf, if_neg hleaf, hl2, hr2, List.map_append]
    · simp only [generateCodes, hl1, hr1, hl3, hr3]

theorem relabel_perm (t : FreqMap) (hnd : (t.map Prod.fst).Nodup) (L : List (Nat × Int))
    (hL : (L.map Prod.fst).Perm (t.map Prod.fst)) :
    (L.map (fun p => (p.1, lookup t p.1))).Perm t := by
  have h1 : L.map (fun p => (p.1, lookup t p.1))
      = (L.map Prod.fst).map (fun k => (k, lookup t k)) := by
    rw [List.map_map]
    rfl
  have h2 : (t.map Prod.fst).map (fun k => (k, lookup t k)) = t := by
    rw [List.map_map]
    conv_rhs => rw [← List.map_id t]
    apply List.map_congr_left
    intro p hp
    show (p.1, lookup t p.1) = p
    rw [lookup_of_mem t p.1 p.2 hnd hp]
  rw [h1]
  have h3 := hL.map (fun k => (k, lookup t k))
  rw [h2] at h3
  exact h3

/-- The codes of the tree of `buildTree` cost no more than the codes of any
    tree whose leaves hold the symbols of the table. -/
theorem buildTree_codeCost_le (S : StdLib) (t : FreqMap) (hnd : (t.map Prod.fst).Nodup)
    (ht : t ≠ []) (hpos : ∀ p ∈ t, 0 ≤ p.2) (hsum : (t.map Prod.snd).sum < 2147483648)
    (T : Node) (hT : (T.leaves.map Prod.fst).Perm (t.map Prod.fst)) :
    codeCost t (generateCodes (buildTree S t) [] [])
      ≤ codeCost t (generateCodes T [] []) := by
  obtain ⟨T1, _, h2, h3⟩ := exists_relabel t T
  have hT1 : T1.leaves.Perm t := by
    rw [h2]
    exact relabel_perm t hnd T.leaves hT
  rw [← h3, codeCost_eq_wpl t _ hnd (buildTree_full S t ht).2, codeCost_eq_wpl t T1 hnd hT1]
  exact buildTree_wpl_le S t ht hpos hsum T1 hT1

/-! # The claims, continued -/

/-- C14 (BitWriter packing): writing a bit sequence of length `n` bit by bit
    to a file that holds `pre`, and then calling `flush`, appends exactly
    `ceil(n / 8)` bytes; input bit `i` is bit `7 - i % 8` of byte `i / 8`,
    every later bit of the last byte is 0, and when `n` is a multiple of 8
    `flush` changes nothing.  `writeBits` is `writeBit` for each character,
    with the bit 1 for '1'. -/
theorem bitWriter_packing (pre : List Nat) (bits : List Bool) :
    ∃ bytes,
      (bits.foldl BitWriter.writeBit (BitWriter.new pre)).flush.out = pre ++ bytes ∧
      bytes.length = (bits.length + 7) / 8 ∧
      (∀ i, i < bits.length →
        (bytes.getD (i / 8) 0).testBit (7 - i % 8) = bits.getD i false) ∧
      (∀ i, bits.length ≤ i → (bytes.getD (i / 8) 0).testBit (7 - i % 8) = false) ∧
      (∀ b ∈ bytes, b < 256) ∧
      (bits.length % 8 = 0 →
        (bits.foldl BitWriter.writeBit (BitWriter.new pre)).flush
          = bits.foldl BitWriter.writeBit (BitWriter.new pre)) ∧
      (∀ code : List Char,
        (BitWriter.new pre).writeBits code
          = (code.map (fun c => c == '1')).foldl BitWriter.writeBit (BitWriter.new pre)) := by
  obtain ⟨hbits, hlen, hlt⟩ := writer_bits bits.length bits rfl
  have hnew : BitWriter.new pre = BitWriter.after pre (BitWriter.new []) := by
    simp [BitWriter.new, BitWriter.after]
  refine ⟨(bits.foldl BitWriter.writeBit (BitWriter.new [])).flush.out, ?_, hlen, ?_, ?_, hlt,
    ?_, fun code => writeBits_eq_foldl _ code⟩
  · rw [hnew, foldl_writeBit_after, flush_after]
    rfl
  · intro i hi
    rw [← bitsOfBytes_getD, hbits, List.getD_append _ _ _ _ hi]
  · intro i hi
    rw [← bitsOfBytes_getD, hbits, List.getD_append_right _ _ _ _ hi]
    simp only [List.getD_eq_getElem?_getD, List.getElem?_replicate]
    split <;> rfl
  · intro h8
    have hbc := foldl_writeBit_bitCount bits (BitWriter.new pre) (by simp [BitWriter.new])
    unfold BitWriter.flush
    rw [if_neg]
    rw [hbc]
    simp [BitWriter.new, h8]

/-- C15 (BitReader undoes BitWriter): on any byte list, `k` successive calls
    of `readBit` return the 8 bits of each byte, most significant first, and
    then -1 on every further call; on the bytes that the writer emitted for a
    bit sequence of length `n` they return that sequence, then
    `8 * ceil(n / 8) - n` zero bits, then -1. -/
theorem bitReader_undoes_bitWriter (bytes : List Nat) (bits : List Bool) (k : Nat) :
    readBits k BitReader.new (IStream.openFile bytes)
      = (((bitsOfBytes bytes).map (fun (b : Bool) => (b.toNat : Int)))
          ++ List.replicate k (-1)).take k ∧
    (∀ b : Nat, bitsOfByte b = [b.testBit 7, b.testBit 6, b.testBit 5, b.testBit 4,
      b.testBit 3, b.testBit 2, b.testBit 1, b.testBit 0]) ∧
    readBits k BitReader.new
        (IStream.openFile (bits.foldl BitWriter.writeBit (BitWriter.new [])).flush.out)
      = (((bits ++ List.replicate (8 * ((bits.length + 7) / 8) - bits.length) false).map
            (fun (b : Bool) => (b.toNat : Int)))
          ++ List.replicate k (-1)).take k := by
  have hgen : ∀ data : List Nat, readBits k BitReader.new (IStream.openFile data)
      = (((bitsOfBytes data).map (fun (b : Bool) => (b.toNat : Int)))
          ++ List.replicate k (-1)).take k := by
    intro data
    rw [readBits_eq]
    simp [pending, BitReader.new, streamBits, IStream.openFile]
  refine ⟨hgen bytes, fun b => rfl, ?_⟩
  rw [hgen, (writer_bits bits.length bits rfl).1]
  have : (8 - bits.length % 8) % 8 = 8 * ((bits.length + 7) / 8) - bits.length := by omega
  rw [this]

/-- C17 (code generation): for the tree of a table with distinct symbols the
    mapping of `generateCodes` has one entry for each symbol of a leaf, that
    is for each symbol of the table, and for nothing else; the code of a
    symbol consists of '0' and '1', and following it from the root ('0' to
    the left child, '1' to the right child) ends at the leaf of that symbol.
    So every byte of an input has an entry in the mapping that `compressFile`
    builds. -/
theorem code_generation (S : StdLib) (t : FreqMap) (hnd : (t.map Prod.fst).Nodup) :
    ((generateCodes (buildTree S t) [] []).map Prod.fst).Nodup ∧
    (∀ k, k ∈ (generateCodes (buildTree S t) [] []).map Prod.fst
      ↔ k ∈ (buildTree S t).leaves.map Prod.fst) ∧
    (∀ k, k ∈ (generateCodes (buildTree S t) [] []).map Prod.fst ↔ k ∈ t.map Prod.fst) ∧
    (∀ p ∈ t,
      walk (buildTree S t) (getCode (generateCodes (buildTree S t) [] []) p.1)
        = Node.leaf p.1 p.2 ∧
      ∀ c ∈ getCode (generateCodes (buildTree S t) [] []) p.1, c = '0' ∨ c = '1') ∧
    (∀ B : List Nat, ∀ b ∈ B,
      b ∈ (generateCodes (buildTree S (countFreq S B)) [] []).map Prod.fst) := by
  obtain ⟨h1, h2, h3⟩ := buildTree_codes S t hnd
  refine ⟨h1, (generateCodes_spec _ (buildTree_leaves_nodup S t hnd)).2.1, h2, h3, ?_⟩
  intro B b hb
  obtain ⟨hndB, hk, _⟩ := countFreq_spec S B
  rw [(buildTree_codes S _ hndB).2.1, hk]
  exact hb

/-- Witness of C17 on the table of "aaabbc". -/
theorem code_generation_witness :
    (([(97, 3), (98, 2), (99, 1)] : FreqMap).map Prod.fst).Nodup ∧
    generateCodes (buildTree refStd [(97, 3), (98, 2), (99, 1)]) [] []
      = [(97, ['0']), (99, ['1', '0']), (98, ['1', '1'])] ∧
    walk (buildTree refStd [(97, 3), (98, 2), (99, 1)])
        (getCode (generateCodes (buildTree refStd [(97, 3), (98, 2), (99, 1)]) [] []) 99)
      = Node.leaf 99 1 :=
  ⟨by decide, by decide,
    ((code_generation refStd [(97, 3), (98, 2), (99, 1)] (by decide)).2.2.2.1 (99, 1)
      (by decide)).1⟩

/-- C18 (file layout): the output of `compressFile` for an input with `k`
    distinct byte values is the 8-byte little-endian `k`, then for each table
    entry the symbol byte and the 4-byte little-endian count, then the
    payload; the payload holds the codes of the bytes of the input in order,
    most significant bit first, followed by zero bits up to the byte
    boundary, in `ceil(L / 8)` bytes where `L` is the sum of the code
    lengths. -/
theorem compressed_file_layout (S : StdLib) (B : List Nat) (hB : ∀ b ∈ B, b < 256) :
    compressFile S B
      = leBytes 8 B.dedup.length
        ++ (countFreq S B).flatMap (fun p => p.1 :: leBytes 4 (p.2 % 4294967296).toNat)
        ++ payloadOf S B ∧
    (countFreq S B).length = B.dedup.length ∧
    bitsOfBytes (payloadOf S B)
      = B.flatMap (fun b =>
          (getCode (generateCodes (buildTree S (countFreq S B)) [] []) b).map
            (fun c => c == '1'))
        ++ List.replicate
          ((8 - (B.map (fun b =>
            (getCode (generateCodes (buildTree S (countFreq S B)) [] []) b).length)).sum % 8)
            % 8) false ∧
    (∀ b ∈ payloadOf S B, b < 256) ∧
    (payloadOf S B).length
      = ((B.map (fun b =>
          (getCode (generateCodes (buildTree S (countFreq S B)) [] []) b).length)).sum + 7)
        / 8 ∧
    (compressFile S B).length
      = 8 + 5 * B.dedup.length
        + ((B.map (fun b =>
            (getCode (generateCodes (buildTree S (countFreq S B)) [] []) b).length)).sum + 7)
          / 8 := by
  have hfile := compressFile_eq_encode S B
  have hpay : payloadOf S B = encodePayload (buildTree S (countFreq S B)) B :=
    payloadOf_eq S B _ hfile
  obtain ⟨hbits, hlen, hlt⟩ := encodePayload_bits (buildTree S (countFreq S B)) B
  have hk := length_countFreq S B
  have hL := fun m : CodeMap => length_encodeBits m B
  have hentries : (countFreq S B).flatMap (fun p => leBytes 1 p.1 ++ intBytes p.2)
      = (countFreq S B).flatMap (fun p => p.1 :: leBytes 4 (p.2 % 4294967296).toNat) := by
    apply List.flatMap_congr
    intro p hp
    rw [leBytes_one_of_lt (hB _ (countFreq_entry S B p hp).1)]
    rfl
  simp only [← hL]
  refine ⟨?_, hk, ?_, by rw [hpay]; exact hlt, by rw [hpay]; exact hlen, ?_⟩
  · rw [hpay, hfile, writeFrequencyTable_eq, hk, hentries]
  · rw [hpay, hbits]
    rfl
  · rw [hfile, List.length_append, length_writeFrequencyTable, hlen, hk]

/-- Witness of C18 on the input "aaabbc". -/
theorem compressed_file_layout_witness :
    (∀ b ∈ [97, 97, 97, 98, 98, 99], b < 256) ∧
    compressFile refStd [97, 97, 97, 98, 98, 99]
      = [3, 0, 0, 0, 0, 0, 0, 0, 97, 3, 0, 0, 0, 98, 2, 0, 0, 0, 99, 1, 0, 0, 0, 31, 0] ∧
    (compressFile refStd [97, 97, 97, 98, 98, 99]).length
      = 8 + 5 * [97, 97, 97, 98, 98, 99].dedup.length
        + (([97, 97, 97, 98, 98, 99].map (fun b =>
            (getCode (generateCodes (buildTree refStd
              (countFreq refStd [97, 97, 97, 98, 98, 99])) [] []) b).length)).sum + 7) / 8 :=
  ⟨by decide, by decide,
    (compressed_file_layout refStd [97, 97, 97, 98, 98, 99] (by decide)).2.2.2.2.2⟩

/-- C19 (exact-bit decoding): for an input `B` with two distinct byte values
    or more, the rounds of the loop of `decompressFile`, run with the tree of
    the encoder on exactly the concatenated codes of the bytes of `B`, emit
    `B` and end with the cursor at the root; so the loop itself, on a reader
    and stream that hold exactly these bits, returns `B`. -/
theorem exact_bit_decoding (S : StdLib) (B : List Nat) (h2 : 2 ≤ B.dedup.length) :
    decodeBits (buildTree S (countFreq S B))
        (B.flatMap (fun b =>
          (getCode (generateCodes (buildTree S (countFreq S B)) [] []) b).map
            (fun c => c == '1')))
        (buildTree S (countFreq S B)) []
      = some (buildTree S (countFreq S B), B) ∧
    ∀ (fuel : Nat) (r : BitReader) (s : IStream),
      pending r ++ streamBits s
        = B.flatMap (fun b =>
          (getCode (generateCodes (buildTree S (countFreq S B)) [] []) b).map
            (fun c => c == '1')) →
      (pending r ++ streamBits s).length < fuel →
      decodeLoop (buildTree S (countFreq S B)) fuel r s (buildTree S (countFreq S B)) []
        = Outcome.done B := by
  obtain ⟨_, hcodes⟩ := input_codes S B h2
  have h := decodeBits_encode (buildTree S (countFreq S B))
    (generateCodes (buildTree S (countFreq S B)) [] []) [] B [] hcodes
  simp only [List.append_nil, List.nil_append, decodeBits] at h
  have henc : encodeBits (generateCodes (buildTree S (countFreq S B)) [] []) B
      = B.flatMap (fun b =>
          (getCode (generateCodes (buildTree S (countFreq S B)) [] []) b).map
            (fun c => c == '1')) := rfl
  rw [henc] at h
  refine ⟨h, fun fuel r s hbits hfuel => ?_⟩
  rw [decodeLoop_eq_decodeBits _ _ _ _ _ _ hfuel, hbits, h]
  rfl

/-- Witness of C19 on the input "aaabbc". -/
theorem exact_bit_decoding_witness :
    2 ≤ [97, 97, 97, 98, 98, 99].dedup.length ∧
    decodeBits (buildTree refStd (countFreq refStd [97, 97, 97, 98, 98, 99]))
        [false, false, false, true, true, true, true, true, false]
        (buildTree refStd (countFreq refStd [97, 97, 97, 98, 98, 99])) []
      = some (buildTree refStd (countFreq refStd [97, 97, 97, 98, 98, 99]),
          [97, 97, 97, 98, 98, 99]) :=
  ⟨by decide, (exact_bit_decoding refStd [97, 97, 97, 98, 98, 99] (by decide)).1⟩

/-- C20 (counterexample): for the input "abbccccccccc" no two frequencies are
    ever equal, so the tree and the output are the same whatever the library
    and whatever the uninitialised variables hold.  The codes take 15 bits,
    which is not a multiple of 8, the decoder builds the tree of the encoder,
    and the output is exactly the input: the padding bit 0 leads from the
    root to the node above 'a' and 'b' and emits nothing. -/
theorem exact_output_abbc :
    (∀ (S : StdLib) (u : Uninit),
      ([97, 98, 98, 99, 99, 99, 99, 99, 99, 99, 99, 99].map (fun b =>
        (getCode (generateCodes (buildTree S
          (countFreq S [97, 98, 98, 99, 99, 99, 99, 99, 99, 99, 99, 99])) [] []) b).length)).sum
        = 15 ∧
      buildTree S
          (readFrequencyTable S u (IStream.openFile
            (compressFile S [97, 98, 98, 99, 99, 99, 99, 99, 99, 99, 99, 99]))).1
        = buildTree S (countFreq S [97, 98, 98, 99, 99, 99, 99, 99, 99, 99, 99, 99]) ∧
      decompressFile S u (compressFile S [97, 98, 98, 99, 99, 99, 99, 99, 99, 99, 99, 99])
        = Outcome.done [97, 98, 98, 99, 99, 99, 99, 99, 99, 99, 99, 99]) ∧
    15 % 8 = 7 := by
  refine ⟨fun S u => ?_, by decide⟩
  have ht := countFreq_abbc S
  obtain ⟨hnd, hr⟩ := countFreq_wellFormed S
    [97, 98, 98, 99, 99, 99, 99, 99, 99, 99, 99, 99] (by decide)
  have hfile := compressFile_eq_encode S [97, 98, 98, 99, 99, 99, 99, 99, 99, 99, 99, 99]
  obtain ⟨hperm, hs⟩ := readFrequencyTable_written S u _
    (encodePayload (buildTree S (countFreq S [97, 98, 98, 99, 99, 99, 99, 99, 99, 99, 99, 99]))
      [97, 98, 98, 99, 99, 99, 99, 99, 99, 99, 99, 99]) hnd hr
  have h1 := buildTree_abbc S _ ht
  have h2 := buildTree_abbc S _ (hperm.trans ht)
  refine ⟨?_, ?_, ?_⟩
  · rw [h1]
    decide
  · rw [hfile, h2, h1]
  · rw [decompressFile_eq, hfile, hs, h2, h1]
    decide

/-- C20 (amended): for an input `B` with two distinct byte values or more,
    decoding the payload of `compressFile` with the tree of the encoder gives
    `B` followed by at most one symbol for each padding bit, so by at most 7
    symbols, and by none when the number of code bits is a multiple of 8;
    this is the output of `decompressFile` whenever the tree it builds from
    the header is the tree of the encoder. -/
theorem spurious_tail (S : StdLib) (u : Uninit) (B : List Nat) (hB : ∀ b ∈ B, b < 256)
    (h2 : 2 ≤ B.dedup.length) :
    ∃ extra,
      decodeLoop (buildTree S (countFreq S B)) (8 * (payloadOf S B).length + 1) BitReader.new
        { data := payloadOf S B, good := true } (buildTree S (countFreq S B)) []
        = Outcome.done (B ++ extra) ∧
      extra.length ≤ (8 - (B.map (fun b =>
        (getCode (generateCodes (buildTree S (countFreq S B)) [] []) b).length)).sum % 8) % 8 ∧
      extra.length ≤ 7 ∧
      ((B.map (fun b =>
        (getCode (generateCodes (buildTree S (countFreq S B)) [] []) b).length)).sum % 8 = 0 →
        extra = []) ∧
      (buildTree S (readFrequencyTable S u (IStream.openFile (compressFile S B))).1
          = buildTree S (countFreq S B) →
        decompressFile S u (compressFile S B) = Outcome.done (B ++ extra)) := by
  obtain ⟨extra, hdec, hlen⟩ := decode_payload S B h2
  rw [length_encodeBits] at hlen
  refine ⟨extra, hdec, hlen, by omega, fun h0 => ?_, fun htree => ?_⟩
  · rw [h0] at hlen
    exact List.length_eq_zero.1 (by omega)
  · obtain ⟨payload, hfile, _, hs, _, _⟩ := decompress_compress_run S u B hB
    rw [decompressFile_eq, htree, hs, ← payloadOf_eq S B payload hfile]
    exact hdec

/-- Witness of the amended C20 on the input "aaabbc". -/
theorem spurious_tail_witness :
    ((∀ b ∈ [97, 97, 97, 98, 98, 99], b < 256) ∧ 2 ≤ [97, 97, 97, 98, 98, 99].dedup.length) ∧
    ∃ extra,
      decodeLoop (buildTree refStd (countFreq refStd [97, 97, 97, 98, 98, 99]))
        (8 * (payloadOf refStd [97, 97, 97, 98, 98, 99]).length + 1) BitReader.new
        { data := payloadOf refStd [97, 97, 97, 98, 98, 99], good := true }
        (buildTree refStd (countFreq refStd [97, 97, 97, 98, 98, 99])) []
        = Outcome.done ([97, 97, 97, 98, 98, 99] ++ extra) ∧
      extra.length ≤ 7 :=
  ⟨by decide,
    (spurious_tail refStd zeroUninit [97, 97, 97, 98, 98, 99] (by decide) (by decide)).imp
      (fun _ h => ⟨h.1, h.2.2.1⟩)⟩

/-- C11 (counterexample): with the counts 1073741823 for the symbols 0 and 1
    and 1073741824 for the symbols 2, 3 and 4, the sum of the two smallest
    counts is the lowest of the queue, the next sum wraps to a negative
    `int`, and symbol 2 ends with a code of 3 bits although its count is
    greater than that of symbol 0, whose code has 2 bits. -/
theorem frequent_symbol_longer_code :
    generateCodes (buildTree refStd
        [(0, 1073741823), (1, 1073741823), (2, 1073741824), (3, 1073741824), (4, 1073741824)])
        [] []
      = [(2, ['0', '0', '0']), (3, ['0', '0', '1']), (4, ['0', '1']), (0, ['1', '0']),
          (1, ['1', '1'])] ∧
    (1073741823 : Int) < 1073741824 := by
  decide

/-- C11 (amended): for every table with distinct symbols, two entries or
    more and positive counts whose sum is less than 2^31, and every two
    entries `x`, `y` with the count of `x` greater than the count of `y`, the
    code of `x` is at most as long as the code of `y`, whatever the library
    does with ties; and for the table of "aaabbc", in every enumeration
    order, 'a' gets a code of length 1 and 'b' and 'c' codes of length 2. -/
theorem frequent_symbols_shorter (S : StdLib) :
    (∀ (t : FreqMap), (t.map Prod.fst).Nodup → 2 ≤ t.length → (∀ p ∈ t, 0 < p.2) →
      (t.map Prod.snd).sum < 2147483648 →
      ∀ x ∈ t, ∀ y ∈ t, y.2 < x.2 →
        (getCode (generateCodes (buildTree S t) [] []) x.1).length
          ≤ (getCode (generateCodes (buildTree S t) [] []) y.1).length) ∧
    (∀ (t : FreqMap), t.Perm [(97, 3), (98, 2), (99, 1)] →
      (getCode (generateCodes (buildTree S t) [] []) 97).length = 1 ∧
      (getCode (generateCodes (buildTree S t) [] []) 98).length = 2 ∧
      (getCode (generateCodes (buildTree S t) [] []) 99).length = 2) := by
  constructor
  · intro t hnd _ hpos hsum x hx y hy hxy
    exact buildTree_depth_le S t hnd (fun p hp => le_of_lt (hpos p hp)) hsum x y hx hy hxy
  · intro t ht
    rcases buildTree_aaabbc S t ht with h | h <;> rw [h] <;> decide

/-- Witness of the amended C11 on the table of "aaabbc": the code of 'a'
    (count 3) is not longer than the code of 'c' (count 1). -/
theorem frequent_symbols_shorter_witness :
    (([(97, 3), (98, 2), (99, 1)] : FreqMap).map Prod.fst).Nodup ∧
    (([(97, 3), (98, 2), (99, 1)] : FreqMap).map Prod.snd).sum < 2147483648 ∧
    (getCode (generateCodes (buildTree refStd [(97, 3), (98, 2), (99, 1)]) [] []) 97).length
      ≤ (getCode (generateCodes (buildTree refStd [(97, 3), (98, 2), (99, 1)]) [] []) 99).length :=
  ⟨by decide, by decide,
    (frequent_symbols_shorter refStd).1 [(97, 3), (98, 2), (99, 1)] (by decide) (by decide)
      (by decide) (by decide) (97, 3) (by decide) (99, 1) (by decide) (by decide)⟩

/-- C12 (counterexample): for four symbols with the count 2^30 each the
    first sum wraps to a negative `int`; the tree of `buildTree` gives the
    codes the lengths 3, 3, 2 and 1 and costs 9 * 2^30, while the balanced
    tree over the same four leaves costs 8 * 2^30. -/
theorem wrapped_tree_not_optimal :
    codeCost [(0, 1073741824), (1, 1073741824), (2, 1073741824), (3, 1073741824)]
        (generateCodes (buildTree refStd
          [(0, 1073741824), (1, 1073741824), (2, 1073741824), (3, 1073741824)]) [] [])
      = 9663676416 ∧
    (Node.mk 0 0 (Node.mk 0 0 (Node.leaf 0 1073741824) (Node.leaf 1 1073741824))
        (Node.mk 0 0 (Node.leaf 2 1073741824) (Node.leaf 3 1073741824))).leaves.map Prod.fst
      = [0, 1, 2, 3] ∧
    codeCost [(0, 1073741824), (1, 1073741824), (2, 1073741824), (3, 1073741824)]
        (generateCodes
          (Node.mk 0 0 (Node.mk 0 0 (Node.leaf 0 1073741824) (Node.leaf 1 1073741824))
            (Node.mk 0 0 (Node.leaf 2 1073741824) (Node.leaf 3 1073741824))) [] [])
      = 8589934592 := by
  decide

/-- C12 (amended): for every table with distinct symbols, two entries or
    more and positive counts whose sum is less than 2^31, the weighted path
    length of the codes of the tree of `buildTree` (the sum over the symbols
    of count times code length) is at most that of the codes of any binary
    tree whose leaves hold exactly the symbols of the table, whatever the
    library does with ties; a competing tree may have nodes with one child
    and any frequencies in its nodes. -/
theorem buildTree_optimal (S : StdLib) (t : FreqMap) (hnd : (t.map Prod.fst).Nodup)
    (h2 : 2 ≤ t.length) (hpos : ∀ p ∈ t, 0 < p.2) (hsum : (t.map Prod.snd).sum < 2147483648)
    (T : Node) (hT : (T.leaves.map Prod.fst).Perm (t.map Prod.fst)) :
    codeCost t (generateCodes (buildTree S t) [] [])
      ≤ codeCost t (generateCodes T [] []) := by
  have ht : t ≠ [] := by
    intro h
    rw [h] at h2
    simp at h2
  exact buildTree_codeCost_le S t hnd ht (fun p hp => le_of_lt (hpos p hp)) hsum T hT

/-- Witness of the amended C12 on the table of "aaabbc", against the tree
    that pairs 'a' with 'b' first: 9 against 11. -/
theorem buildTree_optimal_witness :
    ((Node.mk 0 0 (Node.mk 0 0 (Node.leaf 97 0) (Node.leaf 98 0)) (Node.leaf 99 0)).leaves.map
      Prod.fst) = [97, 98, 99] ∧
    codeCost [(97, 3), (98, 2), (99, 1)]
        (generateCodes (buildTree refStd [(97, 3), (98, 2), (99, 1)]) [] []) = 9 ∧
    codeCost [(97, 3), (98, 2), (99, 1)]
        (generateCodes
          (Node.mk 0 0 (Node.mk 0 0 (Node.leaf 97 0) (Node.leaf 98 0)) (Node.leaf 99 0)) [] [])
      = 11 ∧
    codeCost [(97, 3), (98, 2), (99, 1)]
        (generateCodes (buildTree refStd [(97, 3), (98, 2), (99, 1)]) [] [])
      ≤ codeCost [(97, 3), (98, 2), (99, 1)]
        (generateCodes
          (Node.mk 0 0 (Node.mk 0 0 (Node.leaf 97 0) (Node.leaf 98 0)) (Node.leaf 99 0)) [] []) :=
  ⟨by decide, by decide, by decide,
    buildTree_optimal refStd [(97, 3), (98, 2), (99, 1)] (by decide) (by decide) (by decide)
      (by decide)
      (Node.mk 0 0 (Node.mk 0 0 (Node.leaf 97 0) (Node.leaf 98 0)) (Node.leaf 99 0))
      (List.Perm.refl _)⟩

/-- C13 (the tree depends on the enumeration order): with the reference
    library the two enumeration orders of the table {a:1, b:1} give different
    trees.  With a library whose map visits the newest key first, the table
    of "abababab" is enumerated as b, a by the compressor; the decompressor
    inserts the header entries in that order and so enumerates a, b; the two
    trees differ and the output is "babababa". -/
theorem tree_depends_on_enumeration_order :
    buildTree refStd [(97, 1), (98, 1)] ≠ buildTree refStd [(98, 1), (97, 1)] ∧
    countFreq revStd [97, 98, 97, 98, 97, 98, 97, 98] = [(98, 4), (97, 4)] ∧
    (readFrequencyTable revStd zeroUninit
        (IStream.openFile (compressFile revStd [97, 98, 97, 98, 97, 98, 97, 98]))).1
      = [(97, 4), (98, 4)] ∧
    buildTree revStd (countFreq revStd [97, 98, 97, 98, 97, 98, 97, 98])
      = Node.mk 0 8 (Node.leaf 98 4) (Node.leaf 97 4) ∧
    buildTree revStd (readFrequencyTable revStd zeroUninit
        (IStream.openFile (compressFile revStd [97, 98, 97, 98, 97, 98, 97, 98]))).1
      = Node.mk 0 8 (Node.leaf 97 4) (Node.leaf 98 4) ∧
    decompressFile revStd zeroUninit (compressFile revStd [97, 98, 97, 98, 97, 98, 97, 98])
      = Outcome.done [98, 97, 98, 97, 98, 97, 98, 97] := by
  decide

/-- C16 (counterexample): for the table {a: 2^30, b: 2^30} the counts sum to
    2^31, and the root holds -2^31. -/
theorem root_frequency_wraps :
    (buildTree refStd [(97, 1073741824), (98, 1073741824)]).freq = -2147483648 ∧
    (([(97, 1073741824), (98, 1073741824)] : FreqMap).map Prod.snd).sum = 2147483648 := by
  decide

/-- C16 (amended): for every non-empty table with `n` entries the queue is
    down to the returned tree after `n - 1` rounds and holds more than one
    tree before; the returned tree has `n - 1` nodes with children, every
    node has no child or two, and the leaves are the entries of the table,
    one leaf for each entry.  When the counts are not negative and their sum
    is less than 2^31, every node with children holds the sum of the
    frequencies of its two children and the root holds the sum of all
    counts. -/
theorem tree_shape (S : StdLib) (t : FreqMap) (ht : t ≠ []) :
    mergeLoop S (t.length - 1) (initialQueue S t) = [buildTree S t] ∧
    (∀ k, k < t.length - 1 → 1 < (mergeLoop S k (initialQueue S t)).length) ∧
    (buildTree S t).merges = t.length - 1 ∧
    (buildTree S t).full = true ∧
    (buildTree S t).leaves.Perm t ∧
    ((∀ p ∈ t, 0 ≤ p.2) → (t.map Prod.snd).sum < 2147483648 →
      (buildTree S t).sums = true ∧ (buildTree S t).freq = (t.map Prod.snd).sum) := by
  obtain ⟨hfull, hperm⟩ := buildTree_full S t ht
  obtain ⟨_, hlen, _⟩ := qinv_initial S t
  have hne : initialQueue S t ≠ [] := by
    intro h0
    rw [h0] at hlen
    exact ht (List.length_eq_zero.1 hlen.symm)
  refine ⟨mergeLoop_pred S t ht, ?_, ?_, hfull, hperm, ?_⟩
  · intro k hk
    rw [length_mergeLoop S k _ hne, hlen]
    omega
  · have := full_merges _ hfull
    rw [hperm.length_eq] at this
    omega
  · intro hpos hsum
    obtain ⟨h1, h2, _⟩ := buildTree_sums S t ht hpos hsum
    exact ⟨h1, h2⟩

/-- Witness of the amended C16 on the table of "aaabbc". -/
theorem tree_shape_witness :
    ([(97, 3), (98, 2), (99, 1)] : FreqMap) ≠ [] ∧
    buildTree refStd [(97, 3), (98, 2), (99, 1)]
      = Node.mk 0 6 (Node.leaf 97 3) (Node.mk 0 3 (Node.leaf 99 1) (Node.leaf 98 2)) ∧
    (buildTree refStd [(97, 3), (98, 2), (99, 1)]).merges = 3 - 1 ∧
    (buildTree refStd [(97, 3), (98, 2), (99, 1)]).sums = true ∧
    (buildTree refStd [(97, 3), (98, 2), (99, 1)]).freq
      = (([(97, 3), (98, 2), (99, 1)] : FreqMap).map Prod.snd).sum :=
  ⟨by decide, by decide,
    (tree_shape refStd [(97, 3), (98, 2), (99, 1)] (by decide)).2.2.1,
    ((tree_shape refStd [(97, 3), (98, 2), (99, 1)] (by decide)).2.2.2.2.2
      (by decide) (by decide)).1,
    ((tree_shape refStd [(97, 3), (98, 2), (99, 1)] (by decide)).2.2.2.2.2
      (by decide) (by decide)).2⟩

end Huffman
